import Mathlib

/-!
Verification development for the beacon-photo identifier-extraction and
reconciliation pipeline (`organize_by_minor.py` and `recheck_unknown.py`).

The Python source is shallowly embedded as executable Lean definitions:

* Strings are Lean `String`s (lists of unicode characters, matching Python's
  per-character semantics for `len`, slicing and iteration).  The regular
  expressions of the source are embedded in two ways:
  - the filename-parsing regexes (`extract_minor_from_filename`,
    `normalize_four_digit_minor`) have fixed, simple shapes (fixed-width
    anchored suffixes, a keyword followed by a digit run, maximal digit
    runs); they are translated into direct string functions, with comments
    mapping each function to the regex it embeds;
  - the OCR pattern-cascade regexes are embedded via a small backtracking
    matcher (`RPat`, `reFirst`) over pattern ASTs that transcribe the regex
    literals one by one, reproducing Python's leftmost / greedy /
    alternative-order matching for the constructs those patterns use.
  `\d`, `\s`, `\S` are modelled at their ASCII meaning (the repository's
  filenames and labels use ASCII digits / whitespace).
* The OCR engine itself (EasyOCR plus the bounding-box geometry that selects
  the bottom-left region, the high-confidence subset, and the beacon/number
  proximity pairs) is an external collaborator: its per-image outcome is an
  input (`OrganizeOcr` / `RecheckOcr`: the joined search texts and the list
  of proximity-paired text fragments), and at the whole-pipeline level the
  OCR-and-cascade result for an image is an oracle `Nat → Option String`
  keyed on the image's content identity (the engine is deterministic:
  identical input gives identical output).
* The bucket store (the `output/` directory tree) is a `Store`: a list of
  (folder name, file list) pairs in iteration order; `shutil.move`,
  `shutil.copy2` and the `_dupN` collision loop are embedded as operations
  on it.
-/

/-! ## Basic string utilities -/

/-- The digit value of an ASCII digit character. -/
def digVal (c : Char) : Nat := c.toNat - 48

/-- Numeric value of a digit string (most significant first), as read by
Python's `int` on an all-digit string. -/
def decValL (l : List Char) : Nat := l.foldl (fun a c => a * 10 + digVal c) 0

/-- `str.zfill(n)` / left zero-padding used by `"%04d"` formatting. -/
def zfillL (n : Nat) (l : List Char) : List Char :=
  List.replicate (n - l.length) '0' ++ l

/-- Decimal digits of `n`, most significant first, with explicit fuel
(`natToDec` supplies enough).  Mirrors Python's `str(n)` for `n : Nat`. -/
def natToDecGo : Nat → Nat → List Char
  | 0, _ => []
  | fuel + 1, n =>
    if n < 10 then [Char.ofNat (48 + n)]
    else natToDecGo fuel (n / 10) ++ [Char.ofNat (48 + n % 10)]

/-- Decimal representation of `n` (Python `str(n)` / `repr`). -/
def natToDec (n : Nat) : List Char := natToDecGo (n + 1) n

/-- Python `f"{n:04d}"`: decimal representation left-padded with zeros to a
minimum width of 4. -/
def format4 (n : Nat) : String := String.mk (zfillL 4 (natToDec n))

/-- Python `int(s)` restricted to the value space this pipeline feeds it
(optional-sign-free all-digit strings); non-digit input raises `ValueError`,
modelled as `none`. -/
def pyInt? (s : String) : Option Nat :=
  if s ≠ "" ∧ s.data.all Char.isDigit then some (decValL s.data) else none

/-! ## Filename parser: `extract_minor_from_filename`

Embeds the function of the same name (identical in both source files).
-/

/-- The image extensions of the extension-stripping regex
`\.(jpg|jpeg|png|JPG|JPEG|PNG)$`, in the alternation's order. -/
def extAlternatives : List (List Char) :=
  [".jpg".data, ".jpeg".data, ".png".data, ".JPG".data, ".JPEG".data, ".PNG".data]

/-- `re.sub(r'\.(jpg|jpeg|png|JPG|JPEG|PNG)$', '', filename)`: remove the
extension when the name ends with one of the six alternatives (the `$`
anchor restricts the match to a suffix; the six suffixes are mutually
exclusive as string suffixes, so which alternative applies is determined by
the name). -/
def stripExtL (l : List Char) : List Char :=
  match extAlternatives.find? (fun e => e.isSuffixOf l) with
  | some e => l.take (l.length - e.length)
  | none => l

/-- The last `n` characters of `l`. -/
def lastN (n : Nat) (l : List Char) : List Char := l.drop (l.length - n)

/-- Priority 1 of the parser, `re.search(r'^(.+?)(25\d{7})$', s)`: the date
group has fixed width 9, so the regex matches iff the string has length ≥ 10
(the lazy `.+?` needs at least one character), its last 9 characters are
digits, and they begin with "25"; the prefix group is everything before
them. -/
def datePrio1 (l : List Char) : Option (List Char) :=
  if 10 ≤ l.length ∧ (lastN 9 l).all Char.isDigit ∧ (lastN 9 l).take 2 = ['2', '5'] then
    some (l.take (l.length - 9))
  else none

/-- Priority 2, `re.search(r'^(.+?)(\d{8})$', s)` plus the source's guard
`not date.startswith('25')`: last 8 characters are digits not beginning with
"25", prefix is the rest (length ≥ 9 makes the lazy prefix non-empty). -/
def datePrio2 (l : List Char) : Option (List Char) :=
  if 9 ≤ l.length ∧ (lastN 8 l).all Char.isDigit ∧ (lastN 8 l).take 2 ≠ ['2', '5'] then
    some (l.take (l.length - 8))
  else none

/-- Length of the maximal trailing digit run. -/
def trailDigits (l : List Char) : Nat := (l.reverse.takeWhile Char.isDigit).length

/-- Priority 3, `re.search(r'^(.+?)(\d{6,})$', s)`: the lazy `.+?` makes the
prefix the shortest non-empty prefix whose remainder is an all-digit run of
length ≥ 6; that remainder is the maximal trailing digit run, except that
when the whole string is digits the prefix keeps the first character. -/
def datePrio3 (l : List Char) : Option (List Char) :=
  let k := trailDigits l
  if 6 ≤ k ∧ k < l.length then some (l.take (l.length - k))
  else if k = l.length ∧ 7 ≤ l.length then some (l.take 1)
  else none

/-- The maximal digit runs of `l`, in order (`re.findall(r'\d+', ...)`). -/
def digitRunsL : List Char → List (List Char)
  | [] => []
  | c :: rest =>
    let tail := digitRunsL rest
    if c.isDigit then
      match rest with
      | d :: _ =>
        if d.isDigit then
          match tail with
          | r :: rs => (c :: r) :: rs
          | [] => [[c]]
        else [c] :: tail
      | [] => [[c]]
    else tail

/-- `re.search(r'설치(\d+)', prefix)`: the digits directly after the
leftmost occurrence of the keyword `설치` ("installed") that is immediately
followed by at least one digit (the greedy `\d+` takes the maximal run). -/
def findInstallL : List Char → Option (List Char)
  | [] => none
  | c :: rest =>
    let run := ((c :: rest).drop 2).takeWhile Char.isDigit
    if ['설', '치'].isPrefixOf (c :: rest) ∧ run ≠ [] then some run
    else findInstallL rest

/-- The shared body of the parser's three priorities: keyword-adjacent
digits first, else the last digit run of the prefix (`numbers[-1]`). -/
def extractFromPrefixL (p : List Char) : Option (List Char) :=
  match findInstallL p with
  | some d => some d
  | none => (digitRunsL p).getLast?

/-- `extract_minor_from_filename`, on character lists: strip the extension,
then try the three date-suffix priorities in order; a priority whose prefix
yields no candidate falls through to the next (the Python `if` chains have
no `else`). -/
def parseCore (l : List Char) : Option (List Char) :=
  let s := stripExtL l
  match (datePrio1 s).bind extractFromPrefixL with
  | some d => some d
  | none =>
    match (datePrio2 s).bind extractFromPrefixL with
    | some d => some d
    | none => (datePrio3 s).bind extractFromPrefixL

/-- `extract_minor_from_filename(filename)` of both source files. -/
def extract_minor_from_filename (filename : String) : Option String :=
  (parseCore filename.data).map String.mk

/-! ## Value normalizer: `normalize_four_digit_minor` -/

/-- The confusable-letter replacement
`value_str.replace('O', '0').replace('o', '0')`. -/
def replaceO (c : Char) : Char := if c = 'O' ∨ c = 'o' then '0' else c

/-- `normalize_four_digit_minor(value_str)` of both source files: reject
empty input, map `O/o` to `0`, take the first maximal digit run
(`re.findall(r'\d+', ...)[0]`), keep its first 4 digits when it has ≥ 4,
and zero-pad to width 4. -/
def normalize_four_digit_minor (v : String) : Option String :=
  if v = "" then none
  else
    match (digitRunsL (v.data.map replaceO)).head? with
    | some r =>
      some (String.mk (if 4 ≤ r.length then zfillL 4 (r.take 4) else zfillL 4 r))
    | none => none

/-! ## A small backtracking matcher for the OCR cascade's regexes

Each cascade pattern is a sequence of literals, literal alternations and
greedy class repetitions around a single capturing group (itself a class
repetition), optionally followed by a lookahead or a `$` anchor.  The
matcher reproduces Python `re` semantics for exactly these shapes:
leftmost starting position, greedy repetition with backtracking, and
alternatives tried in written order.  `re.findall(p, t)[0]` and
`re.search(p, t).group(1)` coincide with `reFirst` below.
-/

/-- The character classes occurring in the cascade's regexes. -/
inductive CCls
  | digit        -- `\d` (ASCII reading)
  | numeric      -- `[0-9OoIl|]`
  | wsp          -- `\s` (ASCII reading)
  | nonwsp       -- `\S`
  | colon        -- `[:：]`
  | colonOrWsp   -- `[:\s]`
  | konkok       -- `[콘콕]` and `[콘콕콘]` (the repeated 콘 adds nothing)
  | bibip        -- `[비빕]`
deriving DecidableEq

/-- Python `\s` at its ASCII reading. -/
def isWsp (c : Char) : Bool :=
  c = ' ' || c = '\t' || c = '\n' || c = '\x0d' || c = '\x0b' || c = '\x0c'

/-- Raw class membership. -/
def CCls.mem0 : CCls → Char → Bool
  | .digit, c => c.isDigit
  | .numeric, c => c.isDigit || c = 'O' || c = 'o' || c = 'I' || c = 'l' || c = '|'
  | .wsp, c => isWsp c
  | .nonwsp, c => !isWsp c
  | .colon, c => c = ':' || c = '：'
  | .colonOrWsp, c => c = ':' || isWsp c
  | .konkok, c => c = '콘' || c = '콕'
  | .bibip, c => c = '비' || c = '빕'

/-- Class membership under an optional `re.IGNORECASE` flag (a character
matches if some case variant of it is in the class). -/
def clsMem (ci : Bool) (k : CCls) (c : Char) : Bool :=
  k.mem0 c || (ci && (k.mem0 c.toLower || k.mem0 c.toUpper))

/-- Character comparison under an optional `re.IGNORECASE` flag. -/
def chEq (ci : Bool) (a b : Char) : Bool :=
  a = b || (ci && (a.toLower = b.toLower))

/-- Non-group pattern pieces. -/
inductive RItem
  | lit : List Char → RItem                    -- a literal string
  | alts : List (List Char) → RItem            -- `(?:a|b|…)`, literals in order
  | rep : CCls → Nat → Option Nat → RItem      -- `cls{lo,hi}` greedy; `none` = unbounded
deriving DecidableEq

/-- A cascade pattern: pieces before the capturing group, the group (a class
repetition), pieces after it, a trailing lookahead `(?=…)`, and whether the
pattern ends with `$`. -/
structure RPat where
  pre : List RItem
  gCls : CCls
  gLo : Nat
  gHi : Option Nat
  post : List RItem
  look : List RItem
  atEnd : Bool
deriving DecidableEq

/-- Remainder after a literal prefix, if it matches. -/
def litPref (ci : Bool) : List Char → List Char → Option (List Char)
  | [], s => some s
  | _ :: _, [] => none
  | p :: ps, c :: cs => if chEq ci p c then litPref ci ps cs else none

/-- Length of the maximal run of class members at the front of `s`. -/
def clsRun (ci : Bool) (k : CCls) (s : List Char) : Nat :=
  (s.takeWhile (clsMem ci k)).length

/-- All remainders after matching one item at the front of `s`, in the
backtracking engine's preference order (greedy: longest consumption first;
alternations: written order). -/
def matchItem (ci : Bool) (it : RItem) (s : List Char) : List (List Char) :=
  match it with
  | .lit p => match litPref ci p s with | some r => [r] | none => []
  | .alts ps => ps.filterMap (fun p => litPref ci p s)
  | .rep k lo hi =>
    let cap := min (clsRun ci k s) (hi.getD (clsRun ci k s))
    if cap < lo then []
    else (List.range (cap + 1 - lo)).map (fun i => s.drop (cap - i))

/-- All remainders after matching a sequence of items, in preference order
(earlier items backtrack last, matching Python's engine). -/
def matchSeq (ci : Bool) (its : List RItem) (s : List Char) : List (List Char) :=
  its.foldl (fun acc it => acc.flatMap (matchItem ci it)) [s]

/-- First `some` produced by `f` along `l`. -/
def firstSome (l : List α) (f : α → Option β) : Option β :=
  match l with
  | [] => none
  | a :: t =>
    match f a with
    | some b => some b
    | none => firstSome t f

/-- Can the part of the pattern after the group (post items, lookahead,
anchor) be satisfied on remainder `s`? -/
def tailOK (ci : Bool) (p : RPat) (s : List Char) : Bool :=
  (matchSeq ci p.post s).any fun r =>
    !(matchSeq ci p.look r).isEmpty && (!p.atEnd || r.isEmpty)

/-- Try the group plus pattern tail on the remainder after the pre part,
group lengths greedy-first; returns the capture. -/
def groupTry (ci : Bool) (p : RPat) (r1 : List Char) : Option (List Char) :=
  let cap := min (clsRun ci p.gCls r1) (p.gHi.getD (clsRun ci p.gCls r1))
  if cap < p.gLo then none
  else
    firstSome ((List.range (cap + 1 - p.gLo)).map (fun i => cap - i)) fun g =>
      if tailOK ci p (r1.drop g) then some (r1.take g) else none

/-- Try a whole-pattern match starting exactly at `s`; returns the capture
of the preferred (Python-order) match. -/
def tryAt (ci : Bool) (p : RPat) (s : List Char) : Option (List Char) :=
  firstSome (matchSeq ci p.pre s) (groupTry ci p)

/-- Leftmost match scan over the tails of the subject. -/
def reFirstL (ci : Bool) (p : RPat) : List Char → Option (List Char)
  | [] => tryAt ci p []
  | c :: t =>
    match tryAt ci p (c :: t) with
    | some g => some g
    | none => reFirstL ci p t

/-- The capture of the first match of `p` in `s`:
`re.findall(p, s)[0]` / `re.search(p, s).group(1)` for cascade patterns. -/
def reFirst (ci : Bool) (p : RPat) (s : String) : Option String :=
  (reFirstL ci p s.data).map String.mk

/-- Leftmost match of a group-free item sequence, as (start, end) indices —
`re.search` used only for its span (the `비콘`-variant splitting searches). -/
def plainFirstL (ci : Bool) (its : List RItem) (i : Nat) : List Char → Option (Nat × Nat)
  | [] =>
    match (matchSeq ci its []).head? with
    | some r => some (i, i + (0 - r.length))
    | none => none
  | c :: t =>
    match (matchSeq ci its (c :: t)).head? with
    | some r => some (i, i + ((c :: t).length - r.length))
    | none => plainFirstL ci its (i + 1) t

/-- Span of the leftmost match of a group-free pattern. -/
def plainFirst (ci : Bool) (its : List RItem) (s : String) : Option (Nat × Nat) :=
  plainFirstL ci its 0 s.data

/-- End index of the first occurrence of a literal substring
(`re.search(r'공종', t).end()`). -/
def findSubEndL (p : List Char) (i : Nat) : List Char → Option Nat
  | [] => if p.isPrefixOf [] then some (i + p.length) else none
  | c :: t =>
    if p.isPrefixOf (c :: t) then some (i + p.length)
    else findSubEndL p (i + 1) t

/-- End index of the first occurrence of `pat` in `s`. -/
def findSubEnd (pat s : String) : Option Nat := findSubEndL pat.data 0 s.data

/-- `re.findall(r'([0-9OoIl|]{3,4})', s)`: non-overlapping leftmost scan;
at a class run of length ≥ 3 the greedy match takes `min run 4` characters
and the scan resumes after them, otherwise the scan advances one character.
Fueled by the subject length. -/
def findAll34Go : Nat → List Char → List (List Char)
  | 0, _ => []
  | _ + 1, [] => []
  | fuel + 1, c :: t =>
    let run := clsRun false CCls.numeric (c :: t)
    if 3 ≤ run then
      (c :: t).take (min run 4) :: findAll34Go fuel ((c :: t).drop (min run 4))
    else findAll34Go fuel t

/-- All `[0-9OoIl|]{3,4}` matches of `s`, in order. -/
def findAll34 (s : String) : List String :=
  (findAll34Go s.data.length s.data).map String.mk


/-! ## The cascade's pattern lists

Shorthand for the item shapes the regexes use. -/

/-- A literal piece. -/
def iLit (s : String) : RItem := .lit s.data

/-- `\s+`. -/
def iW1 : RItem := .rep .wsp 1 none

/-- `\s*`. -/
def iW0 : RItem := .rep .wsp 0 none

/-- `[:：]?`. -/
def iC01 : RItem := .rep .colon 0 (some 1)

/-- `[:\s]*`. -/
def iCW0 : RItem := .rep .colonOrWsp 0 none

/-- `\S+`. -/
def iNW1 : RItem := .rep .nonwsp 1 none

/-- `[콘콕]` (also written `[콘콕콘]` in the source). -/
def iKK : RItem := .rep .konkok 1 (some 1)

/-- `[비빕]`. -/
def iBB : RItem := .rep .bibip 1 (some 1)

/-- Pattern with group `([0-9OoIl|]{4})` after the given pieces. -/
def pat4 (pre : List RItem) : RPat := ⟨pre, .numeric, 4, some 4, [], [], false⟩

/-- Pattern with group `([0-9OoIl|]{4})` before the given pieces. -/
def pat4rev (post : List RItem) : RPat := ⟨[], .numeric, 4, some 4, post, [], false⟩

/-- Pattern with group `([0-9OoIl|]{3,4})` after the given pieces. -/
def pat34 (pre : List RItem) : RPat := ⟨pre, .numeric, 3, some 4, [], [], false⟩

/-- Pattern with group `([0-9OoIl|]{3,4})` before the given pieces. -/
def pat34rev (post : List RItem) : RPat := ⟨[], .numeric, 3, some 4, post, [], false⟩

/-- Pattern with group `([0-9OoIl|]+)` after the given pieces. -/
def patFlex (pre : List RItem) : RPat := ⟨pre, .numeric, 1, none, [], [], false⟩

/-- `organize_by_minor.extract_minor_value`'s `beacon_patterns_four_digit`,
in source order (the `[콘콕콘]` block repeats the `[콘콕]` class). -/
def orgBeacon4 : List RPat :=
  [pat4 [iLit "비콘", iW1],
   pat4 [iLit "비콘", iW0, iC01, iW0],
   pat4 [iLit "비콘", iW0, iCW0],
   pat4 [iLit "비콘"],
   pat4rev [iW0, iLit "비콘"],
   pat4 [iNW1, iW1, iLit "비콘", iW1],
   pat4 [iNW1, iW1, iLit "비콘", iW0, iC01, iW0],
   pat4 [iNW1, iW1, iLit "비콘", iW0, iCW0],
   pat4 [iLit "비콘", iW1, iNW1, iW1],
   pat4 [iLit "비", iKK, iW1],
   pat4 [iLit "비", iKK, iW0, iC01, iW0],
   pat4 [iLit "비", iKK, iW0, iCW0],
   pat4 [iLit "비", iKK],
   pat4rev [iW0, iLit "비", iKK],
   pat4 [iNW1, iW1, iLit "비", iKK, iW1],
   pat4 [iLit "비", iKK, iW1, iNW1, iW1],
   pat4 [iLit "비", iKK, iW1],
   pat4 [iLit "비", iKK, iW0, iC01, iW0],
   pat4 [iLit "비", iKK, iW0, iCW0],
   pat4 [iLit "비", iKK],
   pat4 [iNW1, iW1, iLit "비", iKK, iW1],
   pat4 [iLit "비", iKK, iW1, iNW1, iW1]]

/-- `beacon_patterns_flexible`, textually identical in both source files. -/
def beaconFlex : List RPat :=
  [patFlex [iLit "비콘", iW1],
   patFlex [iLit "비콘", iW0, iC01, iW0],
   patFlex [iLit "비콘"],
   patFlex [iNW1, iW1, iLit "비콘", iW1],
   patFlex [iNW1, iW1, iLit "비콘", iW0, iC01, iW0],
   patFlex [iLit "비콘", iW1, iNW1, iW1],
   patFlex [iLit "비", iKK, iW1],
   patFlex [iLit "비", iKK, iW0, iC01, iW0],
   patFlex [iLit "비", iKK],
   patFlex [iNW1, iW1, iLit "비", iKK, iW1],
   patFlex [iLit "비", iKK, iW1, iNW1, iW1],
   patFlex [iLit "비", iKK, iW1],
   patFlex [iLit "비", iKK, iW0, iC01, iW0],
   patFlex [iLit "비", iKK],
   patFlex [iNW1, iW1, iLit "비", iKK, iW1],
   patFlex [iLit "비", iKK, iW1, iNW1, iW1]]

/-- `organize_by_minor`'s `install_patterns_four_digit`. -/
def orgInstall4 : List RPat :=
  [pat4 [iLit "설치", iW0, iC01, iW0],
   pat4 [iLit "설치", iW1],
   pat4 [iLit "설치"],
   pat4rev [iW0, iLit "설치"]]

/-- `organize_by_minor`'s `install_patterns_flexible` (the first two carry
lookaheads `(?=25\d{4,})` and `(?=\d{6})`). -/
def orgInstallFlex : List RPat :=
  [⟨[iLit "설치", iW0], .digit, 1, some 3, [], [iLit "25", .rep .digit 4 none], false⟩,
   ⟨[iLit "설치", iW0], .digit, 1, some 3, [], [.rep .digit 6 (some 6)], false⟩,
   ⟨[iLit "설치", iW0, iC01, iW0], .digit, 1, some 4, [], [], false⟩,
   ⟨[iLit "설치", iW0, iC01, iW0], .numeric, 1, some 4, [], [], false⟩,
   patFlex [iLit "설치", iW1],
   patFlex [iLit "설치"]]

/-- The long `Minor` misreading alternation of the source's first
four-digit Minor pattern — note that the written `M1nor|M|nor` contributes
the alternatives `M1nor`, `M` and `nor`. -/
def minorAlts14 : List (List Char) :=
  ["Minor".data, "Mnor".data, "Inor".data, "Mior".data, "Mmor".data, "M1nor".data,
   "M".data, "nor".data, "minor".data, "mnor".data, "inor".data, "mior".data,
   "mmor".data, "m1nor".data]

/-- The 12-alternative variant used by `minor_patterns_flexible`. -/
def minorAlts12 : List (List Char) :=
  ["Minor".data, "Mnor".data, "Inor".data, "Mior".data, "Mmor".data, "M1nor".data,
   "minor".data, "mnor".data, "inor".data, "mior".data, "mmor".data, "m1nor".data]

/-- The 6-alternative variant. -/
def minorAlts6 : List (List Char) :=
  ["Minor".data, "Mnor".data, "Inor".data, "minor".data, "mnor".data, "inor".data]

/-- The 3-alternative variant of the reversed pattern. -/
def minorAlts3 : List (List Char) := ["Minor".data, "Mnor".data, "Inor".data]

/-- `organize_by_minor`'s `minor_patterns_four_digit`. -/
def orgMinor4 : List RPat :=
  [pat4 [.alts minorAlts14, iW0, iC01, iW0],
   pat4 [.alts minorAlts6, iW1],
   pat4 [.alts minorAlts6],
   pat4rev [iW0, .alts minorAlts3]]

/-- `organize_by_minor`'s `minor_patterns_flexible`. -/
def orgMinorFlex : List RPat :=
  [patFlex [.alts minorAlts12, iW0, iC01, iW0],
   patFlex [.alts minorAlts6, iW1],
   patFlex [.alts minorAlts6]]

/-- `recheck_unknown.extract_minor_value`'s `beacon_patterns_four_digit`
(3-or-4-digit groups, plus the lone-`비` and lone-`콘` fallbacks). -/
def recBeacon4 : List RPat :=
  [pat34 [iLit "비콘", iW1],
   pat34 [iLit "비콘", iW0, iC01, iW0],
   pat34 [iLit "비콘", iW0, iCW0],
   pat34 [iLit "비콘"],
   pat34rev [iW0, iLit "비콘"],
   pat34 [iNW1, iW1, iLit "비콘", iW1],
   pat34 [iNW1, iW1, iLit "비콘", iW0, iC01, iW0],
   pat34 [iNW1, iW1, iLit "비콘", iW0, iCW0],
   pat34 [iLit "비콘", iW1, iNW1, iW1],
   pat34 [iLit "비", iKK, iW1],
   pat34 [iLit "비", iKK, iW0, iC01, iW0],
   pat34 [iLit "비", iKK, iW0, iCW0],
   pat34 [iLit "비", iKK],
   pat34rev [iW0, iLit "비", iKK],
   pat34 [iNW1, iW1, iLit "비", iKK, iW1],
   pat34 [iLit "비", iKK, iW1, iNW1, iW1],
   pat34 [iLit "비", iKK, iW1],
   pat34 [iLit "비", iKK, iW0, iC01, iW0],
   pat34 [iLit "비", iKK, iW0, iCW0],
   pat34 [iLit "비", iKK],
   pat34 [iNW1, iW1, iLit "비", iKK, iW1],
   pat34 [iLit "비", iKK, iW1, iNW1, iW1],
   pat34 [iLit "비", iW1],
   pat34 [iLit "비", iW0, iC01, iW0],
   pat34 [iNW1, iW1, iLit "비", iW1],
   pat34 [iLit "콘", iW1],
   pat34 [iLit "콘", iW0, iC01, iW0],
   pat34 [iNW1, iW1, iLit "콘", iW1]]

/-- `recheck_unknown`'s `install_patterns`. -/
def recInstall : List RPat :=
  [pat34 [iLit "설치", iW0, iC01, iW0],
   pat34 [iLit "설치", iW1],
   pat34 [iLit "설치"],
   pat34rev [iW0, iLit "설치"]]

/-- `recheck_unknown`'s `minor_patterns`. -/
def recMinor : List RPat :=
  [pat34 [.alts minorAlts6, iW0, iC01, iW0],
   pat34 [.alts minorAlts6, iW1],
   pat34 [.alts minorAlts6]]

/-- `recheck_unknown`'s `beacon_patterns_variants` (group-free searches). -/
def recVariants : List (List RItem) :=
  [[iLit "비", iKK], [iBB, iW0, iKK], [iBB, iKK]]

/-- Group-only pattern `([0-9OoIl|]{4})`. -/
def grpNum4 : RPat := pat4 []

/-- `([0-9OoIl|]{4})\s*$`. -/
def grpNum4End : RPat := ⟨[], .numeric, 4, some 4, [iW0], [], true⟩

/-- Group-only pattern `([0-9OoIl|]{3,4})`. -/
def grpNum34 : RPat := pat34 []

/-- `([0-9OoIl|]{3,4})\s*$`. -/
def grpNum34End : RPat := ⟨[], .numeric, 3, some 4, [iW0], [], true⟩

/-- The proximity block's `비[콘콕콘]\s+([0-9OoIl|]{4})` of `recheck_unknown`
line 321 (searched with `re.IGNORECASE`). -/
def recSimpleProx : RPat := pat4 [iLit "비", iKK, iW1]

/-! ## The two OCR cascades

The OCR engine plus bounding-box geometry is the abstract input: -/

/-- The search texts `organize_by_minor.extract_minor_value` derives from
one image's OCR output: the joined bottom-left-region text (empty when the
region holds no text or the geometry block is skipped), the joined
high-confidence text, the joined full text, and the beacon/number text
pairs that passed the 20%-of-image proximity test, in loop order. -/
structure OrganizeOcr where
  bottomLeft : String
  highConf : String
  fullText : String
  proximityPairs : List (String × String)
deriving DecidableEq

/-- The analogous inputs of `recheck_unknown.extract_minor_value` (its full
text is only computed in the empty-bottom-left branch; it derives no
high-confidence text). -/
structure RecheckOcr where
  bottomLeft : String
  fullText : String
  proximityPairs : List (String × String)
deriving DecidableEq

/-- The per-candidate filter every cascade return site applies:
`result = normalize_four_digit_minor(value); if result and result != "0000":
return result` — a match whose normalization fails or is the "0000"
sentinel is skipped and the cascade continues. -/
def acceptVal : Option String → Option String
  | some raw =>
    match normalize_four_digit_minor raw with
    | some r => if r ≠ "0000" then some r else none
    | none => none
  | none => none

/-- One `for pattern in …: matches = re.findall(pattern, text); …` block. -/
def firstAccept (ci : Bool) (pats : List RPat) (t : String) : Option String :=
  firstSome pats (fun p => acceptVal (reFirst ci p t))

/-- The same block iterated over several search texts (text-outer loop, as
in the source). -/
def firstAcceptTexts (ci : Bool) (pats : List RPat) (ts : List String) : Option String :=
  firstSome ts (firstAccept ci pats)

/-- Python's early-`return` chaining of consecutive search blocks. -/
def pyOr (a b : Option String) : Option String :=
  match a with
  | some r => some r
  | none => b

/-- `search_texts` of `organize_by_minor` (lines 359-364): bottom-left text
first if present, then high-confidence text if present, then the full
text. -/
def searchTextsO (inp : OrganizeOcr) : List String :=
  (if inp.bottomLeft ≠ "" then [inp.bottomLeft] else []) ++
    (if inp.highConf ≠ "" then [inp.highConf] else []) ++ [inp.fullText]

/-- The `if search_text == bottom_left_text: continue` filter of the loops
that re-scan the remaining search texts. -/
def textsMinusBl (inp : OrganizeOcr) : List String :=
  (searchTextsO inp).filter (fun t => t ≠ inp.bottomLeft)

/-- `organize_by_minor` lines 413-433: find `비[콘콕콘]` (ignore-case) in the
bottom-left text, then look for a 4-digit group after it, then for one
ending just before it. -/
def orgBlSplit (bl : String) : Option String :=
  match plainFirst true [iLit "비", iKK] bl with
  | some se =>
    pyOr (acceptVal (reFirst false grpNum4 (bl.drop se.2)))
      (acceptVal (reFirst false grpNum4End (bl.take se.1)))
  | none => none

/-- The OCR part of `organize_by_minor.extract_minor_value` (lines
271-563), as a function of the selected texts.  The proximity block (lines
321-345) references `beacon_patterns_four_digit` before its assignment at
line 369, so any pair that passes the distance test raises
`UnboundLocalError`, which the function-level `except` turns into `None`. -/
def organizeOcrCascade (inp : OrganizeOcr) : Option String :=
  if inp.proximityPairs ≠ [] then none
  else
    pyOr
      (if inp.bottomLeft ≠ "" then
        pyOr (firstAccept false orgBeacon4 inp.bottomLeft) (orgBlSplit inp.bottomLeft)
      else none)
      (pyOr (firstAcceptTexts false orgBeacon4 (textsMinusBl inp))
        (pyOr (if inp.bottomLeft ≠ "" then firstAccept false beaconFlex inp.bottomLeft else none)
          (pyOr (firstAcceptTexts false beaconFlex (textsMinusBl inp))
            (pyOr (firstAcceptTexts false orgInstall4 (searchTextsO inp))
              (pyOr (firstAcceptTexts false orgInstallFlex (searchTextsO inp))
                (pyOr (firstAcceptTexts true orgMinor4 (searchTextsO inp))
                  (firstAcceptTexts true orgMinorFlex (searchTextsO inp))))))))

/-- `recheck_unknown` lines 374-383 and 441-450: the digits after the first
`공종` occurrence. -/
def recGongjong (t : String) : Option String :=
  match findSubEnd "공종" t with
  | some e => acceptVal (reFirst false grpNum34 (t.drop e))
  | none => none

/-- `recheck_unknown` lines 385-396: any 3-4 character numeric run of the
bottom-left text, runs with ≥ 4 true digits preferred. -/
def recAllNums (bl : String) : Option String :=
  match findAll34 bl with
  | [] => none
  | n :: rest =>
    match (n :: rest).filter (fun x => 4 ≤ (x.data.filter Char.isDigit).length) with
    | f :: _ => acceptVal (some f)
    | [] => acceptVal (some n)

/-- `recheck_unknown` lines 407-434: the `비콘`-variant split searches. -/
def recVariantSplit (bl : String) : Option String :=
  firstSome recVariants fun v =>
    match plainFirst true v bl with
    | some se =>
      pyOr (acceptVal (reFirst false grpNum34 (bl.drop se.2)))
        (acceptVal (reFirst false grpNum34End (bl.take se.1)))
    | none => none

/-- `recheck_unknown` lines 300-326: the beacon/number proximity pairs,
each tried with the simple ignore-case pattern. -/
def recProximity (pairs : List (String × String)) : Option String :=
  firstSome pairs fun bn => acceptVal (reFirst true recSimpleProx (bn.1 ++ " " ++ bn.2))

/-- The OCR part of `recheck_unknown.extract_minor_value` (lines 226-541).
When the bottom-left text is non-empty, only it is searched; the full text
is consulted only in the `if not bottom_left_text` branch, where a failed
four-digit search then references `beacon_patterns_flexible` before its
assignment at line 471 (`UnboundLocalError`, caught → `None`). -/
def recheckOcrCascade (inp : RecheckOcr) : Option String :=
  pyOr (recProximity inp.proximityPairs)
    (if inp.bottomLeft ≠ "" then
      pyOr (recGongjong inp.bottomLeft)
        (pyOr (recAllNums inp.bottomLeft)
          (pyOr (firstAccept false recBeacon4 inp.bottomLeft)
            (pyOr (recVariantSplit inp.bottomLeft)
              (pyOr (firstAccept false beaconFlex inp.bottomLeft)
                (pyOr (firstAccept false recInstall inp.bottomLeft)
                  (firstAccept true recMinor inp.bottomLeft))))))
    else
      pyOr (recGongjong inp.fullText) (firstAccept false recBeacon4 inp.fullText))

/-! ## The two extraction orchestrators (`extract_minor_value`) -/

/-- `organize_by_minor.extract_minor_value`: the filename fast path (a
truthy parser candidate of fewer than 5 digits is returned as
`f"{int(candidate):04d}"` with no further check), else the OCR cascade. -/
def organize_extract (name : String) (inp : OrganizeOcr) : Option String :=
  match extract_minor_from_filename name with
  | some d =>
    if d ≠ "" then
      if 5 ≤ d.length then organizeOcrCascade inp
      else some (format4 (decValL d.data))
    else organizeOcrCascade inp
  | none => organizeOcrCascade inp

/-- `recheck_unknown.extract_minor_value`: same fast path, recheck
cascade. -/
def recheck_extract (name : String) (inp : RecheckOcr) : Option String :=
  match extract_minor_from_filename name with
  | some d =>
    if d ≠ "" then
      if 5 ≤ d.length then recheckOcrCascade inp
      else some (format4 (decValL d.data))
    else recheckOcrCascade inp
  | none => recheckOcrCascade inp


/-! ## Path suffix / stem (pathlib semantics) -/

/-- Index (from the left, 0-based) of the last occurrence of `c`, if any. -/
def lastIdxOf (c : Char) (l : List Char) : Option Nat :=
  match l.reverse.findIdx? (fun x => x = c) with
  | some j => some (l.length - 1 - j)
  | none => none

/-- `pathlib`'s stem/suffix split: the name splits at its last dot when
that dot is neither the first nor the last character; otherwise the suffix
is empty. -/
def splitStemExt (nm : String) : String × String :=
  match lastIdxOf '.' nm.data with
  | some i =>
    if 0 < i ∧ i + 1 < nm.data.length then
      (String.mk (nm.data.take i), String.mk (nm.data.drop i))
    else (nm, "")
  | none => (nm, "")

/-- The `image_extensions` set of both sources. -/
def imageExts : List String := [".jpg", ".jpeg", ".png", ".JPG", ".JPEG", ".PNG"]

/-- `f.suffix in image_extensions`. -/
def isImageName (nm : String) : Bool := (splitStemExt nm).2 ∈ imageExts

/-! ## The bucket store

A file is a (name, image-content identity) pair; the OCR oracle is keyed on
the content identity, so renaming or moving a file does not change its OCR
outcome.  The store is the `output/` directory: folders in iteration order,
each a list of files in iteration order. -/

/-- One stored image file. -/
structure FileEntry where
  name : String
  img : Nat
deriving DecidableEq

/-- The `output/` directory tree. -/
structure Store where
  dirs : List (String × List FileEntry)
deriving DecidableEq

/-- The folder-name test used by lookups. -/
def keyIs (d : String) (p : String × List FileEntry) : Bool := p.1 = d

/-- The files of folder `d` (a missing folder lists as empty). -/
def Store.filesOf (st : Store) (d : String) : List FileEntry :=
  match st.dirs.find? (keyIs d) with
  | some p => p.2
  | none => []

/-- Does folder `d` exist? -/
def Store.hasDir (st : Store) (d : String) : Bool :=
  st.dirs.any (keyIs d)

/-- `mkdir(exist_ok=True)` — a fresh folder enumerates after the existing
ones (one concrete choice of the filesystem's unspecified order). -/
def Store.mkdirP (st : Store) (d : String) : Store :=
  if st.hasDir d then st else ⟨st.dirs ++ [(d, [])]⟩

/-- Create a file (the destination name is known not to collide). -/
def Store.addTo (st : Store) (d : String) (e : FileEntry) : Store :=
  ⟨st.dirs.map (fun p => if p.1 = d then (p.1, p.2 ++ [e]) else p)⟩

/-- `shutil.copy2` onto a possibly-existing path: a same-named file is
overwritten in place, otherwise the file is created. -/
def Store.overwriteTo (st : Store) (d : String) (e : FileEntry) : Store :=
  ⟨st.dirs.map (fun p =>
    if p.1 = d then (p.1, p.2.filter (fun x => x.name ≠ e.name) ++ [e]) else p)⟩

/-- Remove one file (`shutil.move`'s deletion half). -/
def Store.removeFrom (st : Store) (d : String) (e : FileEntry) : Store :=
  ⟨st.dirs.map (fun p => if p.1 = d then (p.1, p.2.erase e) else p)⟩

/-- The names present in a file list. -/
def namesIn (files : List FileEntry) : List String := files.map (·.name)

/-- Sum of folder sizes. -/
def Store.totalFiles (st : Store) : Nat :=
  (st.dirs.map (fun p => p.2.length)).sum

/-- `count_image_files`: the number of image-extension files. -/
def Store.totalImageFiles (st : Store) : Nat :=
  (st.dirs.map (fun p => (p.2.filter (fun f => isImageName f.name)).length)).sum

/-! ## Collision resolution (`_dupN`) and moving -/

/-- The candidate name `f"{base_name}_dup{counter}{extension}"`. -/
def dupNameL (stem ext : List Char) (c : Nat) : List Char :=
  stem ++ "_dup".data ++ natToDec c ++ ext

/-- `dupNameL` at the `String` level, splitting the original name the way
the source does (`file_path.stem` / `file_path.suffix`). -/
def dupNameStr (nm : String) (c : Nat) : String :=
  String.mk (dupNameL (splitStemExt nm).1.data (splitStemExt nm).2.data c)

/-- The `while target.exists()` loop: try `_dup1`, `_dup2`, … until the
name is free.  The fuel `existing.length + 1` supplied by `resolveName`
always suffices (pigeonhole over the distinct candidates). -/
def dupLoop (existing : List String) (stem ext : List Char) : Nat → Nat → String
  | c, 0 => String.mk (dupNameL stem ext c)
  | c, fuel + 1 =>
    let cand := String.mk (dupNameL stem ext c)
    if cand ∈ existing then dupLoop existing stem ext (c + 1) fuel else cand

/-- The destination-name choice of every placement: the requested name when
free, else the first free `_dupN` variant. -/
def resolveName (existing : List String) (nm : String) : String :=
  if nm ∈ existing then
    dupLoop existing (splitStemExt nm).1.data (splitStemExt nm).2.data 1 (existing.length + 1)
  else nm

/-- `target_folder.mkdir(exist_ok=True)` + collision loop + `shutil.move`:
returns the updated store and the name the file ended up with. -/
def Store.moveEntry (st : Store) (src dst : String) (e : FileEntry) : Store × String :=
  let st1 := st.mkdirP dst
  let nm := resolveName (namesIn (st1.filesOf dst)) e.name
  (((st1.removeFrom src e).addTo dst ⟨nm, e.img⟩), nm)

/-! ## Step 1: `organize_by_minor.organize_files`

Classifies the source-folder image list by filename rule only (no OCR). -/

/-- The sorted, filtered list the classify pass processes: image-extension
source files whose names are not already in `output/Unknown` (lines
610-619). -/
def organizeProcessed (st : Store) (src : List FileEntry) : List FileEntry :=
  List.insertionSort (fun a b => a.name ≤ b.name)
    (src.filter (fun f => isImageName f.name ∧ f.name ∉ namesIn (st.filesOf "Unknown")))

/-- Result of the classify pass, with logs of what was placed where. -/
structure OrganizeResult where
  store : Store
  minorLog : List (FileEntry × String)
  unknownLog : List (FileEntry × String)
deriving DecidableEq

/-- The per-file body of the classify loop (lines 662-690): a truthy
parser candidate of fewer than 5 digits is copied (`shutil.copy2`,
overwriting any same-named file) into `Minor_{int(candidate):04d}`;
otherwise the file is queued for the Unknown folder.  The parser only
produces digit strings, so the `int` conversion's `ValueError` branch is
unreachable. -/
def organizeStep (acc : Store × List (FileEntry × String) × List FileEntry)
    (f : FileEntry) : Store × List (FileEntry × String) × List FileEntry :=
  match extract_minor_from_filename f.name with
  | some d =>
    if d ≠ "" ∧ d.length < 5 then
      let folder := "Minor_" ++ format4 (decValL d.data)
      ((acc.1.mkdirP folder).overwriteTo folder f, acc.2.1 ++ [(f, folder)], acc.2.2)
    else (acc.1, acc.2.1, acc.2.2 ++ [f])
  | none => (acc.1, acc.2.1, acc.2.2 ++ [f])

/-- The Unknown-copy loop (lines 694-711): copy with `_dupN` collision
resolution. -/
def organizeUnknownStep (acc : Store × List (FileEntry × String)) (f : FileEntry) :
    Store × List (FileEntry × String) :=
  let stU := acc.1.mkdirP "Unknown"
  let nm := resolveName (namesIn (stU.filesOf "Unknown")) f.name
  (stU.addTo "Unknown" ⟨nm, f.img⟩, acc.2 ++ [(f, nm)])

/-- `organize_files()`: classify by filename rule, then move the leftovers
to Unknown. -/
def organize_files (st : Store) (src : List FileEntry) : OrganizeResult :=
  let r1 := (organizeProcessed st src).foldl organizeStep (st, [], [])
  let r2 := r1.2.2.foldl organizeUnknownStep (r1.1, [])
  ⟨r2.1, r1.2.1, r2.2⟩

/-! ## Step 2-3: `recheck_unknown.recheck_unknown_files` -/

/-- `folder_name.replace(old, new)`: Python's left-to-right,
non-overlapping replace-all, fueled by the subject length. -/
def replaceAllAux (pat rep : List Char) : Nat → List Char → List Char
  | 0, l => l
  | _ + 1, [] => []
  | fuel + 1, c :: rest =>
    if pat.isPrefixOf (c :: rest) then
      rep ++ replaceAllAux pat rep fuel (rest.drop (pat.length - 1))
    else c :: replaceAllAux pat rep fuel rest

/-- `s.replace(pat, "")` for non-empty `pat`. -/
def eraseAll (pat s : String) : String :=
  String.mk (replaceAllAux pat.data [] s.data.length s.data)

/-- The scan's current-bucket key (lines 653-658):
`folder.name.replace('Minor_', '')` when the folder name starts with
`Minor_`, else `None`. -/
def currentMinorOf (d : String) : Option String :=
  if "Minor_".data.isPrefixOf d.data then some (eraseAll "Minor_" d) else none

/-- `verify_file_location(file_path, current_minor_value)`: a truthy parser
candidate of ≥ 5 digits is a rule error (`None`, handled by the caller's
other branch); a shorter one is formatted to 4 digits and returned exactly
when it differs from the current bucket key. -/
def verify_file_location (name : String) (cur : Option String) : Option String :=
  match extract_minor_from_filename name with
  | some d =>
    if d ≠ "" then
      if 5 ≤ d.length then none
      else
        let expected := format4 (decValL d.data)
        if cur ≠ some expected then some expected else none
    else none
  | none => none

/-- The verification-scan snapshot (lines 648-660): every image-extension
file of every non-Unknown folder, paired with its folder and the folder's
bucket key, in iteration order — built in full before any move. -/
def scanSnapshot (st : Store) : List (String × FileEntry × Option String) :=
  st.dirs.foldl
    (fun acc p =>
      if p.1 ≠ "Unknown" then
        acc ++ (p.2.filter (fun f => isImageName f.name)).map
          (fun f => (p.1, f, currentMinorOf p.1))
      else acc)
    []

/-- One verification-scan item (lines 667-734): a ≥ 5-digit truthy parser
candidate sends the file to Unknown; else a differing recomputed key moves
it to `Minor_<key>`; both with `_dupN` collision handling and an
existence re-check before the move. -/
def step2One (acc : Store × Nat) (item : String × FileEntry × Option String) : Store × Nat :=
  let src := item.1
  let f := item.2.1
  let correct := verify_file_location f.name item.2.2
  match extract_minor_from_filename f.name with
  | some d =>
    if d ≠ "" ∧ 5 ≤ d.length then
      if f ∈ acc.1.filesOf src then ((acc.1.moveEntry src "Unknown" f).1, acc.2 + 1)
      else acc
    else
      match correct with
      | some c =>
        if f ∈ acc.1.filesOf src then
          ((acc.1.moveEntry src ("Minor_" ++ c) f).1, acc.2 + 1)
        else acc
      | none => acc
  | none =>
    match correct with
    | some c =>
      if f ∈ acc.1.filesOf src then
        ((acc.1.moveEntry src ("Minor_" ++ c) f).1, acc.2 + 1)
      else acc
    | none => acc

/-- The OCR retry's per-image extraction: the filename fast path of
`extract_minor_value`, falling back to the OCR oracle keyed on the image's
content. -/
def stepExtract (oracle : Nat → Option String) (f : FileEntry) : Option String :=
  match extract_minor_from_filename f.name with
  | some d =>
    if d ≠ "" then
      if 5 ≤ d.length then oracle f.img
      else some (format4 (decValL d.data))
    else oracle f.img
  | none => oracle f.img

/-- One OCR-retry item (lines 790-873): an extraction result is re-parsed
with `int` (a non-numeric value is warned about and kept in Unknown) and
the file moves to `Minor_{int(v):04d}` with `_dupN` collision handling. -/
def step3One (oracle : Nat → Option String) (acc : Store × Nat) (f : FileEntry) : Store × Nat :=
  match stepExtract oracle f with
  | some v =>
    match pyInt? v with
    | some n =>
      if f ∈ acc.1.filesOf "Unknown" then
        ((acc.1.moveEntry "Unknown" ("Minor_" ++ format4 n) f).1, acc.2 + 1)
      else acc
    | none => acc
  | none => acc

/-- Result of one reconciliation run. -/
structure RecheckResult where
  store : Store
  movedByFilename : Nat
  movedByOcr : Nat
deriving DecidableEq

/-- `recheck_unknown_files()`: early-return on an empty output tree, the
filename re-verification scan over all non-Unknown folders, then the OCR
retry over the (sorted) image files of Unknown. -/
def recheck_unknown_files (oracle : Nat → Option String) (st : Store) : RecheckResult :=
  if st.totalImageFiles = 0 then ⟨st, 0, 0⟩
  else
    let r2 := (scanSnapshot st).foldl step2One (st, 0)
    if ¬ r2.1.hasDir "Unknown" then ⟨r2.1, r2.2, 0⟩
    else
      let ufiles := List.insertionSort (fun a b => a.name ≤ b.name)
        ((r2.1.filesOf "Unknown").filter (fun f => isImageName f.name))
      let r3 := ufiles.foldl (step3One oracle) (r2.1, 0)
      ⟨r3.1, r2.2, r3.2⟩

/-! ## Specification predicates -/

/-- The CanonicalIdentifier invariant `^[0-9]{4}$`. -/
def isFourDigits (s : String) : Bool :=
  s.length == 4 && s.data.all Char.isDigit

/-- Filesystem well-formedness of a store: folder names are distinct and
within a folder file names are distinct (true of any real directory
tree). -/
def Store.WF (st : Store) : Prop :=
  (st.dirs.map Prod.fst).Nodup ∧ ∀ p ∈ st.dirs, (namesIn p.2).Nodup

/-- The per-file transfer of the no-successful-OCR-for-rule-violating-names
hypothesis: if this file's name parses to a truthy candidate of ≥ 5 digits,
the OCR oracle fails on its content. -/
def entryOK (oracle : Nat → Option String) (f : FileEntry) : Prop :=
  ∀ c, extract_minor_from_filename f.name = some c → c ≠ "" → 5 ≤ c.length →
    oracle f.img = none

/-- `entryOK` for every file of the store. -/
def OracleCompat (oracle : Nat → Option String) (st : Store) : Prop :=
  ∀ p ∈ st.dirs, ∀ f ∈ p.2, entryOK oracle f

/-- A non-Unknown file the verification scan will not move: its name either
yields no truthy parser candidate, or yields one of fewer than 5 digits
whose 4-digit form equals the folder's bucket key. -/
def settledNonUnknown (d : String) (f : FileEntry) : Prop :=
  ∀ c, extract_minor_from_filename f.name = some c → c ≠ "" →
    c.length < 5 ∧ currentMinorOf d = some (format4 (decValL c.data))

/-- An Unknown file the OCR retry will not move: extraction fails, or
returns a value `int()` rejects. -/
def unknownStuck (oracle : Nat → Option String) (f : FileEntry) : Prop :=
  ∀ v, stepExtract oracle f = some v → pyInt? v = none

/-- A store on which one reconciliation run is a no-op. -/
def Settled (oracle : Nat → Option String) (st : Store) : Prop :=
  (∀ p ∈ st.dirs, p.1 ≠ "Unknown" → ∀ f ∈ p.2, isImageName f.name = true →
    settledNonUnknown p.1 f) ∧
  (∀ f ∈ st.filesOf "Unknown", isImageName f.name = true → unknownStuck oracle f)

/-- An optional result that, when present, is a 4-digit identifier other
than the "0000" sentinel — the contract of every cascade stage. -/
def GoodOpt (x : Option String) : Prop :=
  ∀ r, x = some r → isFourDigits r = true ∧ r ≠ "0000"

/-! ## Concrete counterexample data -/

/-- A store holding one photo whose filename parses to the 5-digit
rule-violating candidate "12345" and whose image content (id 5) OCRs to
"0007": the ping-pong witness against reconciliation idempotence. -/
def pingStore : Store := ⟨[("Minor_0007", [⟨"설치12345251104130.jpg", 5⟩])]⟩

/-- An OCR oracle that reads "0007" off image content 5. -/
def pingOracle (i : Nat) : Option String := if i = 5 then some "0007" else none

/-- A pre-existing store for the classify-overwrite counterexample. -/
def c7Store : Store := ⟨[("Minor_0010", [⟨"설치10251104130.jpg", 1⟩])]⟩

/-- One folder's contribution to the verification-scan snapshot. -/
def snapBlock (p : String × List FileEntry) : List (String × FileEntry × Option String) :=
  if p.1 ≠ "Unknown" then
    (p.2.filter (fun f => isImageName f.name)).map (fun f => (p.1, f, currentMinorOf p.1))
  else []

/-- The running invariant of the verification-scan fold: the store stays
well-formed with unchanged file count, every entry is oracle-compatible,
every remaining snapshot item is still present together with its static
facts, remaining items are pairwise distinct as (folder, name) pairs, and
every non-Unknown image file is already settled or still awaiting its own
scan item. -/
def ScanInv (oracle : Nat → Option String) (t0 : Nat) (acc : Store × Nat)
    (rem : List (String × FileEntry × Option String)) : Prop :=
  acc.1.WF ∧ acc.1.totalFiles = t0 ∧
  (∀ p ∈ acc.1.dirs, ∀ f ∈ p.2, entryOK oracle f) ∧
  (∀ it ∈ rem, it.1 ≠ "Unknown" ∧ it.2.2 = currentMinorOf it.1 ∧
    isImageName it.2.1.name = true ∧ it.2.1 ∈ acc.1.filesOf it.1) ∧
  rem.Pairwise (fun a b => a.1 ≠ b.1 ∨ a.2.1.name ≠ b.2.1.name) ∧
  (∀ p ∈ acc.1.dirs, p.1 ≠ "Unknown" → ∀ f ∈ p.2, isImageName f.name = true →
    settledNonUnknown p.1 f ∨ (p.1, f, currentMinorOf p.1) ∈ rem)

/-- The running invariant of the OCR-retry fold: well-formedness, the file
count, oracle compatibility, presence and distinctness of the remaining
queue, settledness of every non-Unknown image file, and stuck-or-pending
for every Unknown image file. -/
def RetryInv (oracle : Nat → Option String) (t0 : Nat) (acc : Store × Nat)
    (rem : List FileEntry) : Prop :=
  acc.1.WF ∧ acc.1.totalFiles = t0 ∧
  (∀ p ∈ acc.1.dirs, ∀ f ∈ p.2, entryOK oracle f) ∧
  (∀ f ∈ rem, isImageName f.name = true ∧ f ∈ acc.1.filesOf "Unknown") ∧
  rem.Pairwise (fun a b => a.name ≠ b.name) ∧
  (∀ p ∈ acc.1.dirs, p.1 ≠ "Unknown" → ∀ f ∈ p.2, isImageName f.name = true →
    settledNonUnknown p.1 f) ∧
  (∀ f ∈ acc.1.filesOf "Unknown", isImageName f.name = true →
    unknownStuck oracle f ∨ f ∈ rem)


/-! ## Arithmetic and string lemmas -/

theorem digit_toNat_bounds {c : Char} (h : c.isDigit = true) :
    48 ≤ c.toNat ∧ c.toNat ≤ 57 := by
  simp only [Char.isDigit, Bool.and_eq_true, decide_eq_true_eq] at h
  exact ⟨h.1, h.2⟩

theorem digVal_lt_ten {c : Char} (h : c.isDigit = true) : digVal c < 10 := by
  obtain ⟨h1, h2⟩ := digit_toNat_bounds h
  simp only [digVal]
  omega

theorem decValL_append (l : List Char) (c : Char) :
    decValL (l ++ [c]) = decValL l * 10 + digVal c := by
  simp [decValL, List.foldl_append]

theorem decValL_lt (l : List Char) (h : l.all Char.isDigit = true) :
    decValL l < 10 ^ l.length := by
  induction l using List.reverseRecOn with
  | nil => simp [decValL]
  | append_singleton l c ih =>
    simp only [List.all_append, Bool.and_eq_true, List.all_cons, List.all_nil] at h
    have h1 : decValL l < 10 ^ l.length := ih h.1
    have h2 : digVal c < 10 := digVal_lt_ten (by simpa using h.2)
    rw [decValL_append, List.length_append, List.length_cons, List.length_nil]
    calc decValL l * 10 + digVal c < (decValL l + 1) * 10 := by omega
    _ ≤ 10 ^ l.length * 10 := Nat.mul_le_mul_right _ h1
    _ = 10 ^ (l.length + (0 + 1)) := by ring

theorem decValL_replicate_zero (k : Nat) (l : List Char) :
    decValL (List.replicate k '0' ++ l) = decValL l := by
  induction k with
  | zero => simp
  | succ k ih =>
    have : List.replicate (k + 1) '0' ++ l = '0' :: (List.replicate k '0' ++ l) := by
      simp [List.replicate_succ]
    rw [this]
    simpa [decValL] using ih

theorem zfillL_all_digit {n : Nat} {l : List Char} (h : l.all Char.isDigit = true) :
    (zfillL n l).all Char.isDigit = true := by
  simp only [zfillL, List.all_append, Bool.and_eq_true]
  exact ⟨by simp [List.all_eq_true], h⟩

theorem zfillL_length (n : Nat) (l : List Char) :
    (zfillL n l).length = max n l.length := by
  simp [zfillL]
  omega

theorem decValL_zfillL (n : Nat) (l : List Char) : decValL (zfillL n l) = decValL l :=
  decValL_replicate_zero _ _

theorem natToDecGo_spec :
    ∀ fuel n, n < 10 ^ fuel → 1 ≤ fuel →
      (natToDecGo fuel n).all Char.isDigit = true ∧
      1 ≤ (natToDecGo fuel n).length ∧ (natToDecGo fuel n).length ≤ fuel ∧
      decValL (natToDecGo fuel n) = n := by
  intro fuel
  induction fuel with
  | zero => intro n _ h; omega
  | succ fuel ih =>
    intro n hlt _
    by_cases hn : n < 10
    · rw [natToDecGo, if_pos hn]
      refine ⟨?_, by simp, by simp, ?_⟩
      · interval_cases n <;> decide
      · interval_cases n <;> decide
    · rw [natToDecGo, if_neg hn]
      have hm : n / 10 < 10 ^ fuel := by
        apply Nat.div_lt_of_lt_mul
        calc n < 10 ^ (fuel + 1) := hlt
        _ = 10 * 10 ^ fuel := by ring
      have hf : 1 ≤ fuel := by
        by_contra hc
        have : fuel = 0 := by omega
        subst this
        simp [pow_succ] at hlt
        omega
      obtain ⟨ihd, ih1, ihle, ihv⟩ := ih (n / 10) hm hf
      have hr : n % 10 < 10 := Nat.mod_lt _ (by norm_num)
      have hdig : (Char.ofNat (48 + n % 10)).isDigit = true ∧
          digVal (Char.ofNat (48 + n % 10)) = n % 10 := by
        set r := n % 10 with hrdef
        interval_cases r <;> exact ⟨by decide, by decide⟩
      refine ⟨?_, ?_, ?_, ?_⟩
      · simp [List.all_append, ihd, hdig.1]
      · simp
      · simp only [List.length_append, List.length_cons, List.length_nil]
        omega
      · rw [decValL_append, ihv, hdig.2]
        omega

theorem natToDec_spec (n : Nat) :
    (natToDec n).all Char.isDigit = true ∧ 1 ≤ (natToDec n).length ∧
    decValL (natToDec n) = n := by
  have hb : n < 10 ^ (n + 1) := by
    calc n < 10 ^ n := Nat.lt_pow_self (by norm_num) n
    _ ≤ 10 ^ (n + 1) := Nat.pow_le_pow_right (by norm_num) (Nat.le_succ n)
  obtain ⟨h1, h2, _, h4⟩ := natToDecGo_spec (n + 1) n hb (by omega)
  exact ⟨h1, h2, h4⟩

theorem decValL_natToDec (n : Nat) : decValL (natToDec n) = n := (natToDec_spec n).2.2

theorem natToDec_inj {a b : Nat} (h : natToDec a = natToDec b) : a = b := by
  have := decValL_natToDec a
  rw [h, decValL_natToDec] at this
  omega

theorem natToDecGo_irrel :
    ∀ f1 f2 n, n < 10 ^ f1 → n < 10 ^ f2 → 1 ≤ f1 → 1 ≤ f2 →
      natToDecGo f1 n = natToDecGo f2 n := by
  intro f1
  induction f1 with
  | zero => intro f2 n _ _ h _; omega
  | succ f1 ih =>
    intro f2 n h1 h2 _ hf2
    obtain ⟨f2', rfl⟩ : ∃ k, f2 = k + 1 := ⟨f2 - 1, by omega⟩
    by_cases hn : n < 10
    · rw [natToDecGo, natToDecGo, if_pos hn, if_pos hn]
    · rw [natToDecGo, natToDecGo, if_neg hn, if_neg hn]
      have hd1 : n / 10 < 10 ^ f1 := by
        apply Nat.div_lt_of_lt_mul
        calc n < 10 ^ (f1 + 1) := h1
        _ = 10 * 10 ^ f1 := by ring
      have hd2 : n / 10 < 10 ^ f2' := by
        apply Nat.div_lt_of_lt_mul
        calc n < 10 ^ (f2' + 1) := h2
        _ = 10 * 10 ^ f2' := by ring
      have hg1 : 1 ≤ f1 := by
        by_contra hc
        have : f1 = 0 := by omega
        subst this
        simp [pow_succ] at h1
        omega
      have hg2 : 1 ≤ f2' := by
        by_contra hc
        have : f2' = 0 := by omega
        subst this
        simp [pow_succ] at h2
        omega
      rw [ih f2' (n / 10) hd1 hd2 hg1 hg2]

theorem natToDec_len_le {n k : Nat} (h : n < 10 ^ k) (hk : 1 ≤ k) :
    (natToDec n).length ≤ k := by
  have hb : n < 10 ^ (n + 1) := by
    calc n < 10 ^ n := Nat.lt_pow_self (by norm_num) n
    _ ≤ 10 ^ (n + 1) := Nat.pow_le_pow_right (by norm_num) (Nat.le_succ n)
  rw [natToDec, natToDecGo_irrel (n + 1) k n hb h (by omega) hk]
  exact (natToDecGo_spec k n h hk).2.2.1

theorem format4_digits (n : Nat) : (format4 n).data.all Char.isDigit = true := by
  simp only [format4]
  exact zfillL_all_digit (natToDec_spec n).1

theorem format4_ne_empty (n : Nat) : format4 n ≠ "" := by
  simp only [format4]
  intro h
  have : (zfillL 4 (natToDec n)).length = 0 := by
    have := congrArg String.data h
    simpa using this
  rw [zfillL_length] at this
  omega

theorem decValL_format4 (n : Nat) : decValL (format4 n).data = n := by
  show decValL (zfillL 4 (natToDec n)) = n
  rw [decValL_zfillL]
  exact decValL_natToDec n

theorem pyInt?_format4 (n : Nat) : pyInt? (format4 n) = some n := by
  rw [pyInt?, if_pos ⟨format4_ne_empty n, format4_digits n⟩, decValL_format4]

theorem format4_isFourDigits {n : Nat} (h : n < 10000) : isFourDigits (format4 n) = true := by
  simp only [isFourDigits, Bool.and_eq_true, beq_iff_eq]
  refine ⟨?_, format4_digits n⟩
  show (zfillL 4 (natToDec n)).length = 4
  rw [zfillL_length]
  have hlt : n < 10 ^ 4 := by
    have hp : (10 : Nat) ^ 4 = 10000 := by norm_num
    omega
  have := natToDec_len_le hlt (by norm_num)
  omega

/-! ## Parser-output lemmas -/

theorem digitRunsL_cons_false {c : Char} {rest : List Char} (hc : c.isDigit = false) :
    digitRunsL (c :: rest) = digitRunsL rest := by
  conv_lhs => rw [digitRunsL.eq_def]
  simp [hc]

theorem digitRunsL_single_true {c : Char} (hc : c.isDigit = true) :
    digitRunsL [c] = [[c]] := by
  conv_lhs => rw [digitRunsL.eq_def]
  simp [hc]

theorem digitRunsL_cons_cons_nd {c d : Char} {t : List Char} (hc : c.isDigit = true)
    (hd : d.isDigit = false) :
    digitRunsL (c :: d :: t) = [c] :: digitRunsL (d :: t) := by
  conv_lhs => rw [digitRunsL.eq_def]
  simp [hc, hd, digitRunsL_cons_false hd]

theorem digitRunsL_cons_cons_dd {c d : Char} {t : List Char} (hc : c.isDigit = true)
    (hd : d.isDigit = true) :
    digitRunsL (c :: d :: t) =
      match digitRunsL (d :: t) with
      | r :: rs => (c :: r) :: rs
      | [] => [[c]] := by
  conv_lhs => rw [digitRunsL.eq_def]
  simp [hc, hd]

theorem digitRunsL_mem : ∀ {l r : List Char}, r ∈ digitRunsL l →
    r ≠ [] ∧ r.all Char.isDigit = true := by
  intro l
  induction l with
  | nil => intro r h; simp [digitRunsL] at h
  | cons c rest ih =>
    intro r h
    cases hc : c.isDigit with
    | false =>
      rw [digitRunsL_cons_false hc] at h
      exact ih h
    | true =>
      cases rest with
      | nil =>
        rw [digitRunsL_single_true hc] at h
        simp only [List.mem_singleton] at h
        subst h
        simp [hc]
      | cons d t =>
        cases hd : d.isDigit with
        | false =>
          rw [digitRunsL_cons_cons_nd hc hd] at h
          simp only [List.mem_cons] at h
          rcases h with h | h
          · subst h
            simp [hc]
          · exact ih h
        | true =>
          rw [digitRunsL_cons_cons_dd hc hd] at h
          cases htail : digitRunsL (d :: t) with
          | nil =>
            rw [htail] at h
            simp at h
            subst h
            simp [hc]
          | cons r' rs =>
            rw [htail] at h
            simp only [List.mem_cons] at h
            rcases h with h | h
            · subst h
              have hr' : r' ∈ digitRunsL (d :: t) := by
                rw [htail]; exact List.mem_cons_self _ _
              obtain ⟨_, hall⟩ := ih hr'
              exact ⟨by simp, by simp [hc, hall]⟩
            · exact ih (by rw [htail]; exact List.mem_cons_of_mem _ h)

theorem findInstallL_some : ∀ {l r : List Char}, findInstallL l = some r →
    r ≠ [] ∧ r.all Char.isDigit = true := by
  intro l
  induction l with
  | nil => intro r h; simp [findInstallL] at h
  | cons c rest ih =>
    intro r h
    rw [findInstallL] at h
    by_cases hcond : ['설', '치'].isPrefixOf (c :: rest) ∧
        ((c :: rest).drop 2).takeWhile Char.isDigit ≠ []
    · rw [if_pos hcond] at h
      injection h with h
      subst h
      refine ⟨hcond.2, ?_⟩
      rw [List.all_eq_true]
      intro x hx
      exact List.mem_takeWhile_imp hx
    · rw [if_neg hcond] at h
      exact ih h

theorem extractFromPrefixL_some {p r : List Char} (h : extractFromPrefixL p = some r) :
    r ≠ [] ∧ r.all Char.isDigit = true := by
  rw [extractFromPrefixL] at h
  cases hf : findInstallL p with
  | some d =>
    rw [hf] at h
    injection h with h
    subst h
    exact findInstallL_some hf
  | none =>
    rw [hf] at h
    exact digitRunsL_mem (List.mem_of_getLast?_eq_some h)

theorem parseCore_digits {l d : List Char} (h : parseCore l = some d) :
    d ≠ [] ∧ d.all Char.isDigit = true := by
  rw [parseCore] at h
  cases h1 : (datePrio1 (stripExtL l)).bind extractFromPrefixL with
  | some x =>
    rw [h1] at h
    injection h with h
    subst h
    obtain ⟨p, _, hex⟩ := Option.bind_eq_some.mp h1
    exact extractFromPrefixL_some hex
  | none =>
    rw [h1] at h
    cases h2 : (datePrio2 (stripExtL l)).bind extractFromPrefixL with
    | some x =>
      rw [h2] at h
      injection h with h
      subst h
      obtain ⟨p, _, hex⟩ := Option.bind_eq_some.mp h2
      exact extractFromPrefixL_some hex
    | none =>
      rw [h2] at h
      obtain ⟨p, _, hex⟩ := Option.bind_eq_some.mp h
      exact extractFromPrefixL_some hex

theorem parse_digits {nm d : String} (h : extract_minor_from_filename nm = some d) :
    d ≠ "" ∧ d.data.all Char.isDigit = true := by
  rw [extract_minor_from_filename] at h
  obtain ⟨r, hr, hmk⟩ := Option.map_eq_some'.mp h
  obtain ⟨hne, hall⟩ := parseCore_digits hr
  subst hmk
  constructor
  · intro hcon
    apply hne
    have := congrArg String.data hcon
    simpa using this
  · exact hall

theorem parse_decVal_lt {nm d : String} (h : extract_minor_from_filename nm = some d)
    (hlen : d.length < 5) : decValL d.data < 10000 := by
  obtain ⟨_, hall⟩ := parse_digits h
  have := decValL_lt d.data hall
  have hle : (10 : Nat) ^ d.data.length ≤ 10 ^ 4 :=
    Nat.pow_le_pow_right (by norm_num) (by exact Nat.le_of_lt_succ hlen)
  have hp : (10 : Nat) ^ 4 = 10000 := by norm_num
  omega

/-! ## Normalizer and cascade-filter lemmas -/

theorem normalize_fourDigits {v r : String} (h : normalize_four_digit_minor v = some r) :
    isFourDigits r = true := by
  rw [normalize_four_digit_minor] at h
  by_cases hv : v = ""
  · rw [if_pos hv] at h; exact absurd h (by simp)
  · rw [if_neg hv] at h
    cases hh : (digitRunsL (v.data.map replaceO)).head? with
    | none => rw [hh] at h; exact absurd h (by simp)
    | some run =>
      rw [hh] at h
      injection h with h
      have hrun : run ∈ digitRunsL (v.data.map replaceO) :=
        List.mem_of_mem_head? (by simp [hh])
      obtain ⟨hne, hall⟩ := digitRunsL_mem hrun
      subst h
      simp only [isFourDigits, Bool.and_eq_true, beq_iff_eq]
      by_cases h4 : 4 ≤ run.length
      · rw [if_pos h4]
        constructor
        · show (zfillL 4 (run.take 4)).length = 4
          rw [zfillL_length, List.length_take]
          omega
        · show (zfillL 4 (run.take 4)).all Char.isDigit = true
          apply zfillL_all_digit
          rw [List.all_eq_true] at hall ⊢
          intro x hx
          exact hall x (List.mem_of_mem_take hx)
      · rw [if_neg h4]
        constructor
        · show (zfillL 4 run).length = 4
          rw [zfillL_length]
          omega
        · exact zfillL_all_digit hall

theorem acceptVal_good (x : Option String) : GoodOpt (acceptVal x) := by
  intro r h
  cases x with
  | none => simp [acceptVal] at h
  | some raw =>
    cases hn : normalize_four_digit_minor raw with
    | none => simp [acceptVal, hn] at h
    | some r' =>
      simp only [acceptVal, hn] at h
      by_cases h0 : r' ≠ "0000"
      · rw [if_pos h0] at h
        injection h with h
        subst h
        exact ⟨normalize_fourDigits hn, h0⟩
      · rw [if_neg h0] at h
        simp at h

theorem goodOpt_none : GoodOpt none := by intro r h; exact absurd h (by simp)

theorem goodOpt_pyOr {a b : Option String} (ha : GoodOpt a) (hb : GoodOpt b) :
    GoodOpt (pyOr a b) := by
  intro r h
  cases hx : a with
  | some v =>
    rw [hx] at h
    simp only [pyOr] at h
    exact ha r (by rw [hx, h])
  | none =>
    rw [hx] at h
    simp only [pyOr] at h
    exact hb r h

theorem goodOpt_ite {c : Prop} [Decidable c] {a b : Option String} (ha : GoodOpt a)
    (hb : GoodOpt b) : GoodOpt (if c then a else b) := by
  by_cases hc : c
  · rwa [if_pos hc]
  · rwa [if_neg hc]

theorem goodOpt_firstSome {l : List α} {f : α → Option String}
    (hf : ∀ a, GoodOpt (f a)) : GoodOpt (firstSome l f) := by
  induction l with
  | nil => simpa [firstSome] using goodOpt_none
  | cons a t ih =>
    intro r h
    rw [firstSome] at h
    cases hx : f a with
    | some v =>
      rw [hx] at h
      exact hf a r (hx.trans h)
    | none =>
      rw [hx] at h
      exact ih r h

theorem goodOpt_firstAccept (ci : Bool) (pats : List RPat) (t : String) :
    GoodOpt (firstAccept ci pats t) :=
  goodOpt_firstSome (fun p => acceptVal_good (reFirst ci p t))

theorem goodOpt_firstAcceptTexts (ci : Bool) (pats : List RPat) (ts : List String) :
    GoodOpt (firstAcceptTexts ci pats ts) :=
  goodOpt_firstSome (fun t => goodOpt_firstAccept ci pats t)

theorem goodOpt_orgBlSplit (bl : String) : GoodOpt (orgBlSplit bl) := by
  intro r h
  rw [orgBlSplit] at h
  cases hp : plainFirst true [iLit "비", iKK] bl with
  | none => rw [hp] at h; simp at h
  | some se =>
    rw [hp] at h
    exact goodOpt_pyOr (acceptVal_good _) (acceptVal_good _) r h

theorem goodOpt_recGongjong (t : String) : GoodOpt (recGongjong t) := by
  intro r h
  rw [recGongjong] at h
  cases hp : findSubEnd "공종" t with
  | none => rw [hp] at h; simp at h
  | some e =>
    rw [hp] at h
    exact acceptVal_good _ r h

theorem goodOpt_recAllNums (bl : String) : GoodOpt (recAllNums bl) := by
  intro r h
  rw [recAllNums] at h
  cases hp : findAll34 bl with
  | nil => rw [hp] at h; simp at h
  | cons n rest =>
    rw [hp] at h
    simp only [] at h
    cases hf : (n :: rest).filter (fun x => 4 ≤ (x.data.filter Char.isDigit).length) with
    | cons f fs => rw [hf] at h; exact acceptVal_good _ r h
    | nil => rw [hf] at h; exact acceptVal_good _ r h

theorem goodOpt_recVariantSplit (bl : String) : GoodOpt (recVariantSplit bl) := by
  apply goodOpt_firstSome
  intro v r h
  cases hp : plainFirst true v bl with
  | none => rw [hp] at h; simp at h
  | some se =>
    rw [hp] at h
    exact goodOpt_pyOr (acceptVal_good _) (acceptVal_good _) r h

theorem goodOpt_recProximity (pairs : List (String × String)) :
    GoodOpt (recProximity pairs) :=
  goodOpt_firstSome (fun _ => acceptVal_good _)

theorem goodOpt_organizeCascade (inp : OrganizeOcr) : GoodOpt (organizeOcrCascade inp) := by
  rw [organizeOcrCascade]
  apply goodOpt_ite goodOpt_none
  apply goodOpt_pyOr
  · exact goodOpt_ite (goodOpt_pyOr (goodOpt_firstAccept _ _ _) (goodOpt_orgBlSplit _))
      goodOpt_none
  apply goodOpt_pyOr (goodOpt_firstAcceptTexts _ _ _)
  apply goodOpt_pyOr (goodOpt_ite (goodOpt_firstAccept _ _ _) goodOpt_none)
  apply goodOpt_pyOr (goodOpt_firstAcceptTexts _ _ _)
  apply goodOpt_pyOr (goodOpt_firstAcceptTexts _ _ _)
  apply goodOpt_pyOr (goodOpt_firstAcceptTexts _ _ _)
  exact goodOpt_pyOr (goodOpt_firstAcceptTexts _ _ _) (goodOpt_firstAcceptTexts _ _ _)

theorem goodOpt_recheckCascade (inp : RecheckOcr) : GoodOpt (recheckOcrCascade inp) := by
  rw [recheckOcrCascade]
  apply goodOpt_pyOr (goodOpt_recProximity _)
  apply goodOpt_ite
  · apply goodOpt_pyOr (goodOpt_recGongjong _)
    apply goodOpt_pyOr (goodOpt_recAllNums _)
    apply goodOpt_pyOr (goodOpt_firstAccept _ _ _)
    apply goodOpt_pyOr (goodOpt_recVariantSplit _)
    apply goodOpt_pyOr (goodOpt_firstAccept _ _ _)
    exact goodOpt_pyOr (goodOpt_firstAccept _ _ _) (goodOpt_firstAccept _ _ _)
  · exact goodOpt_pyOr (goodOpt_recGongjong _) (goodOpt_firstAccept _ _ _)

/-! ## Orchestrator-level lemmas -/

theorem organize_extract_fourDigits {name : String} {inp : OrganizeOcr} {r : String}
    (h : organize_extract name inp = some r) : isFourDigits r = true := by
  rw [organize_extract] at h
  cases hp : extract_minor_from_filename name with
  | none =>
    rw [hp] at h
    exact (goodOpt_organizeCascade inp r h).1
  | some d =>
    rw [hp] at h
    simp only [] at h
    by_cases hne : d ≠ ""
    · rw [if_pos hne] at h
      by_cases hlen : 5 ≤ d.length
      · rw [if_pos hlen] at h
        exact (goodOpt_organizeCascade inp r h).1
      · rw [if_neg hlen] at h
        injection h with h
        subst h
        exact format4_isFourDigits (parse_decVal_lt hp (by omega))
    · rw [if_neg hne] at h
      exact (goodOpt_organizeCascade inp r h).1

theorem recheck_extract_fourDigits {name : String} {inp : RecheckOcr} {r : String}
    (h : recheck_extract name inp = some r) : isFourDigits r = true := by
  rw [recheck_extract] at h
  cases hp : extract_minor_from_filename name with
  | none =>
    rw [hp] at h
    exact (goodOpt_recheckCascade inp r h).1
  | some d =>
    rw [hp] at h
    simp only [] at h
    by_cases hne : d ≠ ""
    · rw [if_pos hne] at h
      by_cases hlen : 5 ≤ d.length
      · rw [if_pos hlen] at h
        exact (goodOpt_recheckCascade inp r h).1
      · rw [if_neg hlen] at h
        injection h with h
        subst h
        exact format4_isFourDigits (parse_decVal_lt hp (by omega))
    · rw [if_neg hne] at h
      exact (goodOpt_recheckCascade inp r h).1

theorem format4_eq_zero_of_eq {n : Nat} (h : format4 n = "0000") : n = 0 := by
  have := decValL_format4 n
  rw [h] at this
  simpa [decValL, digVal] using this.symm

theorem organize_extract_zero {name : String} {inp : OrganizeOcr}
    (h : organize_extract name inp = some "0000") :
    ∃ d, extract_minor_from_filename name = some d ∧ d ≠ "" ∧ d.length < 5 ∧
      decValL d.data = 0 := by
  rw [organize_extract] at h
  cases hp : extract_minor_from_filename name with
  | none =>
    rw [hp] at h
    exact absurd rfl (goodOpt_organizeCascade inp _ h).2
  | some d =>
    rw [hp] at h
    simp only [] at h
    by_cases hne : d ≠ ""
    · rw [if_pos hne] at h
      by_cases hlen : 5 ≤ d.length
      · rw [if_pos hlen] at h
        exact absurd rfl (goodOpt_organizeCascade inp _ h).2
      · rw [if_neg hlen] at h
        injection h with h
        exact ⟨d, rfl, hne, by omega, format4_eq_zero_of_eq h⟩
    · rw [if_neg hne] at h
      exact absurd rfl (goodOpt_organizeCascade inp _ h).2

theorem recheck_extract_zero {name : String} {inp : RecheckOcr}
    (h : recheck_extract name inp = some "0000") :
    ∃ d, extract_minor_from_filename name = some d ∧ d ≠ "" ∧ d.length < 5 ∧
      decValL d.data = 0 := by
  rw [recheck_extract] at h
  cases hp : extract_minor_from_filename name with
  | none =>
    rw [hp] at h
    exact absurd rfl (goodOpt_recheckCascade inp _ h).2
  | some d =>
    rw [hp] at h
    simp only [] at h
    by_cases hne : d ≠ ""
    · rw [if_pos hne] at h
      by_cases hlen : 5 ≤ d.length
      · rw [if_pos hlen] at h
        exact absurd rfl (goodOpt_recheckCascade inp _ h).2
      · rw [if_neg hlen] at h
        injection h with h
        exact ⟨d, rfl, hne, by omega, format4_eq_zero_of_eq h⟩
    · rw [if_neg hne] at h
      exact absurd rfl (goodOpt_recheckCascade inp _ h).2

theorem recheckCascade_ignores_fullText {bl f1 f2 : String}
    {pr : List (String × String)} (h : bl ≠ "") :
    recheckOcrCascade ⟨bl, f1, pr⟩ = recheckOcrCascade ⟨bl, f2, pr⟩ := by
  simp only [recheckOcrCascade, if_pos h]

theorem recheck_extract_ignores_fullText {name bl f1 f2 : String}
    {pr : List (String × String)} (h : bl ≠ "") :
    recheck_extract name ⟨bl, f1, pr⟩ = recheck_extract name ⟨bl, f2, pr⟩ := by
  rw [recheck_extract, recheck_extract, recheckCascade_ignores_fullText h]

/-! ## Claim theorems: extraction layer -/

/-- C1 counterexample: the claim says `extract_minor_value` never returns
the literal "0000" on any path, including the filename fast path.  False:
on the filename `설치0251104130.jpg` the parser's candidate is "0" (date
suffix 251104130 stripped, keyword-adjacent digits "0"), the fast path
formats it as `f"{0:04d}" = "0000"` and returns it with no 0000 check, in
both orchestrators. -/
theorem C1_counterexample :
    organize_extract "설치0251104130.jpg" ⟨"", "", "", []⟩ = some "0000" ∧
    recheck_extract "설치0251104130.jpg" ⟨"", "", []⟩ = some "0000" :=
  ⟨by decide, by decide⟩

/-- C1 amended: every OCR pattern-cascade path rejects a candidate whose
normalized value is "0000" (neither cascade can return it), but the
filename fast path performs no such check: the orchestrators return "0000"
exactly when the filename parser produced a truthy all-zero candidate of
fewer than 5 digits. -/
theorem C1_amended :
    (∀ inp, organizeOcrCascade inp ≠ some "0000") ∧
    (∀ inp, recheckOcrCascade inp ≠ some "0000") ∧
    (∀ name inp, organize_extract name inp = some "0000" →
      ∃ d, extract_minor_from_filename name = some d ∧ d ≠ "" ∧ d.length < 5 ∧
        decValL d.data = 0) ∧
    (∀ name inp, recheck_extract name inp = some "0000" →
      ∃ d, extract_minor_from_filename name = some d ∧ d ≠ "" ∧ d.length < 5 ∧
        decValL d.data = 0) := by
  refine ⟨?_, ?_, ?_, ?_⟩
  · intro inp h
    exact (goodOpt_organizeCascade inp _ h).2 rfl
  · intro inp h
    exact (goodOpt_recheckCascade inp _ h).2 rfl
  · intro name inp h
    exact organize_extract_zero h
  · intro name inp h
    exact recheck_extract_zero h

/-- C1 amended, witness: the amended statement discharged at the concrete
counterexample input. -/
theorem C1_amended_witness :
    ∃ d, extract_minor_from_filename "설치0251104130.jpg" = some d ∧ d ≠ "" ∧
      d.length < 5 ∧ decValL d.data = 0 :=
  C1_amended.2.2.1 "설치0251104130.jpg" ⟨"", "", "", []⟩ (by decide)

/-- C4: on the two documented well-formed filename formats, the Filename
Parser composed with the Value Normalizer yields the documented canonical
identifiers ("0010" and "0001"), and the Extraction Orchestrator's fast
path returns the same values. -/
theorem C4_documented_formats :
    (extract_minor_from_filename "jangho-beacon-installed-10-251104130.jpg").bind
      normalize_four_digit_minor = some "0010" ∧
    (extract_minor_from_filename "beacon-0001-251127000.jpg").bind
      normalize_four_digit_minor = some "0001" ∧
    organize_extract "jangho-beacon-installed-10-251104130.jpg" ⟨"", "", "", []⟩ =
      some "0010" ∧
    organize_extract "beacon-0001-251127000.jpg" ⟨"", "", "", []⟩ = some "0001" :=
  ⟨by decide, by decide, by decide, by decide⟩

/-- C5: the four documented test equations of the Value Normalizer. -/
theorem C5_normalizer_equations :
    normalize_four_digit_minor "OO19" = some "0019" ∧
    normalize_four_digit_minor "19" = some "0019" ∧
    normalize_four_digit_minor "12345" = some "1234" ∧
    normalize_four_digit_minor "" = none :=
  ⟨by decide, by decide, by decide, by decide⟩

/-- C6: every non-none result of the Value Normalizer and every non-none
result of either Extraction Orchestrator (filename fast path or OCR
cascade) is a string matching `^[0-9]{4}$`. -/
theorem C6_four_digit_invariant :
    (∀ v r, normalize_four_digit_minor v = some r → isFourDigits r = true) ∧
    (∀ name inp r, organize_extract name inp = some r → isFourDigits r = true) ∧
    (∀ name inp r, recheck_extract name inp = some r → isFourDigits r = true) :=
  ⟨fun _ _ h => normalize_fourDigits h,
   fun _ _ _ h => organize_extract_fourDigits h,
   fun _ _ _ h => recheck_extract_fourDigits h⟩

/-- C6 witness: the invariant discharged at concrete inputs (a normalizer
call and both orchestrators' fast paths). -/
theorem C6_four_digit_invariant_witness :
    isFourDigits "0019" = true ∧ isFourDigits "0044" = true :=
  ⟨C6_four_digit_invariant.1 "19" "0019" (by decide),
   C6_four_digit_invariant.2.1 "장호원비콘설치44251104067.jpg" ⟨"", "", "", []⟩ "0044"
     (by decide)⟩

/-- C8 counterexample: the claim says every OCR extraction, including the
retry pass, still consults the later search texts when the spatial text
yields no accepted candidate.  False for the retry pass: with bottom-left
text "하늘" (no candidate) and full text "비콘 0019",
`recheck_unknown.extract_minor_value` returns none while the classify-pass
extraction on the same texts returns "0019" from the full text. -/
theorem C8_counterexample :
    recheck_extract "unknownfile.jpg" ⟨"하늘", "비콘 0019", []⟩ = none ∧
    organize_extract "unknownfile.jpg" ⟨"하늘", "", "비콘 0019", []⟩ = some "0019" :=
  ⟨by decide, by decide⟩

/-- C8 amended: the classify-pass cascade consults the later search texts
(high-confidence, then full) after a fruitless non-empty spatial text, but
the retry-pass cascade consults only the spatial text whenever it is
non-empty — its result is independent of the full text, and it returns
none on inputs whose full text the classify cascade would accept. -/
theorem C8_amended :
    (∀ name bl f1 f2 pr, bl ≠ "" →
      recheck_extract name ⟨bl, f1, pr⟩ = recheck_extract name ⟨bl, f2, pr⟩) ∧
    organize_extract "unknownfile.jpg" ⟨"하늘", "", "비콘 0019", []⟩ = some "0019" ∧
    recheck_extract "unknownfile.jpg" ⟨"하늘", "비콘 0019", []⟩ = none := by
  refine ⟨?_, by decide, by decide⟩
  intro name bl f1 f2 pr h
  exact recheck_extract_ignores_fullText h

/-- C8 amended, witness: the retry pass's full-text independence at a
concrete input. -/
theorem C8_amended_witness :
    recheck_extract "unknownfile.jpg" ⟨"하늘", "비콘 0019", []⟩ =
      recheck_extract "unknownfile.jpg" ⟨"하늘", "다른 텍스트", []⟩ :=
  C8_amended.1 "unknownfile.jpg" "하늘" "비콘 0019" "다른 텍스트" [] (by decide)


/-! ## Store-operation lemmas -/

theorem keyIs_true {d : String} {p : String × List FileEntry} (h : p.1 = d) :
    keyIs d p = true := by simp [keyIs, h]

theorem keyIs_false {d : String} {p : String × List FileEntry} (h : p.1 ≠ d) :
    keyIs d p = false := by simp [keyIs, h]

theorem keyIs_eq_true_iff {d : String} {p : String × List FileEntry} :
    keyIs d p = true ↔ p.1 = d := by simp [keyIs]

theorem mapIdOn {α : Type} {l : List α} {g : α → α} (h : ∀ x ∈ l, g x = x) :
    l.map g = l := by
  induction l with
  | nil => rfl
  | cons a t ih =>
    simp only [List.map_cons]
    rw [h a (List.mem_cons_self _ _), ih (fun x hx => h x (List.mem_cons_of_mem _ hx))]

theorem dirs_split_of_hasDir :
    ∀ (dirs : List (String × List FileEntry)) (d : String),
      (dirs.map Prod.fst).Nodup → dirs.any (keyIs d) = true →
      ∃ l₁ p l₂, dirs = l₁ ++ p :: l₂ ∧ p.1 = d ∧ (∀ q ∈ l₁, q.1 ≠ d) ∧
        (∀ q ∈ l₂, q.1 ≠ d) := by
  intro dirs
  induction dirs with
  | nil => intro d _ h; simp at h
  | cons a t ih =>
    intro d hnd hany
    simp only [List.map_cons, List.nodup_cons] at hnd
    by_cases ha : a.1 = d
    · refine ⟨[], a, t, by simp, ha, by simp, ?_⟩
      intro q hq hqd
      apply hnd.1
      have haq : a.1 = q.1 := by rw [ha, hqd]
      rw [haq]
      exact List.mem_map_of_mem _ hq
    · have hany' : t.any (keyIs d) = true := by
        simp only [List.any_cons] at hany
        rcases Bool.or_eq_true_iff.mp hany with h | h
        · exact absurd (keyIs_eq_true_iff.mp h) ha
        · exact h
      obtain ⟨l₁, p, l₂, heq, hp, h₁, h₂⟩ := ih d hnd.2 hany'
      exact ⟨a :: l₁, p, l₂, by rw [heq]; rfl, hp,
        fun q hq => by
          rcases List.mem_cons.mp hq with h | h
          · subst h; exact ha
          · exact h₁ q h, h₂⟩

theorem find?_key_append_cons {l₁ : List (String × List FileEntry)}
    {p : String × List FileEntry} {l₂ : List (String × List FileEntry)} {d : String}
    (hp : p.1 = d) (h₁ : ∀ q ∈ l₁, q.1 ≠ d) :
    (l₁ ++ p :: l₂).find? (keyIs d) = some p := by
  induction l₁ with
  | nil =>
    simp only [List.nil_append, List.find?_cons, keyIs_true hp]
  | cons a t ih =>
    simp only [List.cons_append, List.find?_cons,
      keyIs_false (h₁ a (List.mem_cons_self _ _))]
    exact ih (fun q hq => h₁ q (List.mem_cons_of_mem _ hq))

theorem find?_key_none {l : List (String × List FileEntry)} {d : String}
    (h : ∀ q ∈ l, q.1 ≠ d) : l.find? (keyIs d) = none := by
  induction l with
  | nil => rfl
  | cons a t ih =>
    simp only [List.find?_cons, keyIs_false (h a (List.mem_cons_self _ _))]
    exact ih (fun q hq => h q (List.mem_cons_of_mem _ hq))

theorem filesOf_split {st : Store} {l₁ p l₂ d} (heq : st.dirs = l₁ ++ p :: l₂)
    (hp : p.1 = d) (h₁ : ∀ q ∈ l₁, q.1 ≠ d) : st.filesOf d = p.2 := by
  rw [Store.filesOf, heq, find?_key_append_cons hp h₁]

theorem hasDir_of_mem {st : Store} {p} (hp : p ∈ st.dirs) : st.hasDir p.1 = true := by
  rw [Store.hasDir, List.any_eq_true]
  exact ⟨p, hp, keyIs_true rfl⟩

theorem not_hasDir_all_ne {st : Store} {d} (h : ¬ st.hasDir d = true) :
    ∀ q ∈ st.dirs, q.1 ≠ d := by
  intro q hq hqd
  exact h (by rw [Store.hasDir, List.any_eq_true]; exact ⟨q, hq, keyIs_true hqd⟩)

theorem filesOf_not_hasDir {st : Store} {d} (h : ¬ st.hasDir d = true) :
    st.filesOf d = [] := by
  rw [Store.filesOf, find?_key_none (not_hasDir_all_ne h)]

theorem filesOf_mkdirP (st : Store) (d d' : String) :
    (st.mkdirP d).filesOf d' = st.filesOf d' := by
  rw [Store.mkdirP]
  by_cases h : st.hasDir d
  · rw [if_pos h]
  · rw [if_neg h]
    show Store.filesOf ⟨st.dirs ++ [(d, [])]⟩ d' = st.filesOf d'
    rw [Store.filesOf, Store.filesOf]
    rw [List.find?_append]
    cases hf : st.dirs.find? (keyIs d') with
    | some p => rfl
    | none =>
      simp only [Option.none_orElse]
      by_cases hd : d = d'
      · subst hd
        simp [List.find?_cons, keyIs_true]
      · simp [List.find?_cons, keyIs_false (show (d, ([] : List FileEntry)).1 ≠ d' from hd)]

theorem hasDir_mkdirP_self (st : Store) (d : String) : (st.mkdirP d).hasDir d = true := by
  rw [Store.mkdirP]
  by_cases h : st.hasDir d
  · rwa [if_pos h]
  · rw [if_neg h]
    show Store.hasDir ⟨st.dirs ++ [(d, [])]⟩ d = true
    rw [Store.hasDir, List.any_eq_true]
    exact ⟨(d, []), by simp, keyIs_true rfl⟩

theorem eq_of_fst_eq_of_nodup :
    ∀ {l : List (String × List FileEntry)},
      (l.map Prod.fst).Nodup → ∀ {p q}, p ∈ l → q ∈ l → p.1 = q.1 → p = q := by
  intro l
  induction l with
  | nil => intro _ p q hp; simp at hp
  | cons a t ih =>
    intro hnd p q hp hq he
    simp only [List.map_cons, List.nodup_cons] at hnd
    rcases List.mem_cons.mp hp with hp1 | hp1
    · rcases List.mem_cons.mp hq with hq1 | hq1
      · rw [hp1, hq1]
      · exfalso
        apply hnd.1
        have : a.1 = q.1 := by rw [← hp1, he]
        rw [this]
        exact List.mem_map_of_mem Prod.fst hq1
    · rcases List.mem_cons.mp hq with hq1 | hq1
      · exfalso
        apply hnd.1
        have : a.1 = p.1 := by rw [← hq1, ← he]
        rw [this]
        exact List.mem_map_of_mem Prod.fst hp1
      · exact ih hnd.2 hp1 hq1 he

theorem filesOf_of_mem {st : Store} (hk : (st.dirs.map Prod.fst).Nodup) {p}
    (hp : p ∈ st.dirs) : st.filesOf p.1 = p.2 := by
  obtain ⟨l₁, q, l₂, heq, hq, h₁, _⟩ :=
    dirs_split_of_hasDir st.dirs p.1 hk (hasDir_of_mem hp)
  rw [filesOf_split heq hq h₁]
  have hqmem : q ∈ st.dirs := by
    rw [heq]; exact List.mem_append_right _ (List.mem_cons_self _ _)
  rw [eq_of_fst_eq_of_nodup hk hp hqmem hq.symm]

theorem find?_map_keyfix {l : List (String × List FileEntry)}
    {g : String × List FileEntry → String × List FileEntry}
    (hg : ∀ p, (g p).1 = p.1) (d : String) :
    (l.map g).find? (keyIs d) = (l.find? (keyIs d)).map g := by
  induction l with
  | nil => rfl
  | cons a t ih =>
    simp only [List.map_cons, List.find?_cons]
    by_cases ha : a.1 = d
    · rw [keyIs_true ((hg a).trans ha), keyIs_true ha]
      rfl
    · rw [keyIs_false (fun hc => ha ((hg a).symm.trans hc)), keyIs_false ha]
      exact ih

theorem addTo_keyfix (d : String) (e : FileEntry) :
    ∀ p : String × List FileEntry,
      ((if p.1 = d then (p.1, p.2 ++ [e]) else p) : String × List FileEntry).1 = p.1 := by
  intro p
  by_cases h : p.1 = d
  · rw [if_pos h]
  · rw [if_neg h]

theorem filesOf_addTo_other {st : Store} {d d' : String} (e : FileEntry)
    (hne : d' ≠ d) : (st.addTo d e).filesOf d' = st.filesOf d' := by
  rw [Store.addTo, Store.filesOf, Store.filesOf]
  rw [show (Store.mk (st.dirs.map (fun p => if p.1 = d then (p.1, p.2 ++ [e]) else p))).dirs
    = st.dirs.map (fun p => if p.1 = d then (p.1, p.2 ++ [e]) else p) from rfl]
  rw [find?_map_keyfix (addTo_keyfix d e) d']
  cases hf : st.dirs.find? (keyIs d') with
  | none => rfl
  | some p =>
    have hp : p.1 = d' := keyIs_eq_true_iff.mp (List.find?_some hf)
    simp only [Option.map_some']
    show (if p.1 = d then (p.1, p.2 ++ [e]) else p).2 = p.2
    rw [if_neg (by rw [hp]; exact hne)]

theorem exists_find?_of_hasDir {st : Store} {d : String} (h : st.hasDir d = true) :
    ∃ p, st.dirs.find? (keyIs d) = some p ∧ p.1 = d := by
  cases hf : st.dirs.find? (keyIs d) with
  | some p => exact ⟨p, rfl, keyIs_eq_true_iff.mp (List.find?_some hf)⟩
  | none =>
    rw [Store.hasDir, List.any_eq_true] at h
    obtain ⟨q, hq, hqd⟩ := h
    rw [List.find?_eq_none] at hf
    exact absurd hqd (by simpa using hf q hq)

theorem filesOf_addTo_self {st : Store} {d : String} (e : FileEntry)
    (hdir : st.hasDir d = true) :
    (st.addTo d e).filesOf d = st.filesOf d ++ [e] := by
  obtain ⟨p, hf, hp⟩ := exists_find?_of_hasDir hdir
  rw [Store.addTo, Store.filesOf, Store.filesOf]
  rw [show (Store.mk (st.dirs.map (fun p => if p.1 = d then (p.1, p.2 ++ [e]) else p))).dirs
    = st.dirs.map (fun p => if p.1 = d then (p.1, p.2 ++ [e]) else p) from rfl]
  rw [find?_map_keyfix (addTo_keyfix d e) d, hf]
  simp only [Option.map_some']
  show (if p.1 = d then (p.1, p.2 ++ [e]) else p).2 = p.2 ++ [e]
  rw [if_pos hp]

theorem overwriteTo_keyfix (d : String) (e : FileEntry) :
    ∀ p : String × List FileEntry,
      ((if p.1 = d then (p.1, p.2.filter (fun x => x.name ≠ e.name) ++ [e]) else p) :
        String × List FileEntry).1 = p.1 := by
  intro p
  by_cases h : p.1 = d
  · rw [if_pos h]
  · rw [if_neg h]

theorem filesOf_overwriteTo_other {st : Store} {d d' : String} (e : FileEntry)
    (hne : d' ≠ d) : (st.overwriteTo d e).filesOf d' = st.filesOf d' := by
  rw [Store.overwriteTo, Store.filesOf, Store.filesOf]
  rw [show (Store.mk (st.dirs.map (fun p =>
      if p.1 = d then (p.1, p.2.filter (fun x => x.name ≠ e.name) ++ [e]) else p))).dirs
    = st.dirs.map (fun p =>
      if p.1 = d then (p.1, p.2.filter (fun x => x.name ≠ e.name) ++ [e]) else p) from rfl]
  rw [find?_map_keyfix (overwriteTo_keyfix d e) d']
  cases hf : st.dirs.find? (keyIs d') with
  | none => rfl
  | some p =>
    have hp : p.1 = d' := keyIs_eq_true_iff.mp (List.find?_some hf)
    simp only [Option.map_some']
    show (if p.1 = d then (p.1, p.2.filter (fun x => x.name ≠ e.name) ++ [e]) else p).2 = p.2
    rw [if_neg (by rw [hp]; exact hne)]

theorem filesOf_overwriteTo_self {st : Store} {d : String} (e : FileEntry)
    (hdir : st.hasDir d = true) :
    (st.overwriteTo d e).filesOf d =
      (st.filesOf d).filter (fun x => x.name ≠ e.name) ++ [e] := by
  obtain ⟨p, hf, hp⟩ := exists_find?_of_hasDir hdir
  rw [Store.overwriteTo, Store.filesOf, Store.filesOf]
  rw [show (Store.mk (st.dirs.map (fun p =>
      if p.1 = d then (p.1, p.2.filter (fun x => x.name ≠ e.name) ++ [e]) else p))).dirs
    = st.dirs.map (fun p =>
      if p.1 = d then (p.1, p.2.filter (fun x => x.name ≠ e.name) ++ [e]) else p) from rfl]
  rw [find?_map_keyfix (overwriteTo_keyfix d e) d, hf]
  simp only [Option.map_some']
  show (if p.1 = d then (p.1, p.2.filter (fun x => x.name ≠ e.name) ++ [e]) else p).2 = _
  rw [if_pos hp]

theorem removeFrom_keyfix (d : String) (e : FileEntry) :
    ∀ p : String × List FileEntry,
      ((if p.1 = d then (p.1, p.2.erase e) else p) : String × List FileEntry).1 = p.1 := by
  intro p
  by_cases h : p.1 = d
  · rw [if_pos h]
  · rw [if_neg h]

theorem filesOf_removeFrom_other {st : Store} {d d' : String} (e : FileEntry)
    (hne : d' ≠ d) : (st.removeFrom d e).filesOf d' = st.filesOf d' := by
  rw [Store.removeFrom, Store.filesOf, Store.filesOf]
  rw [show (Store.mk (st.dirs.map (fun p => if p.1 = d then (p.1, p.2.erase e) else p))).dirs
    = st.dirs.map (fun p => if p.1 = d then (p.1, p.2.erase e) else p) from rfl]
  rw [find?_map_keyfix (removeFrom_keyfix d e) d']
  cases hf : st.dirs.find? (keyIs d') with
  | none => rfl
  | some p =>
    have hp : p.1 = d' := keyIs_eq_true_iff.mp (List.find?_some hf)
    simp only [Option.map_some']
    show (if p.1 = d then (p.1, p.2.erase e) else p).2 = p.2
    rw [if_neg (by rw [hp]; exact hne)]

theorem filesOf_removeFrom_self (st : Store) (d : String) (e : FileEntry) :
    (st.removeFrom d e).filesOf d = (st.filesOf d).erase e := by
  rw [Store.removeFrom, Store.filesOf, Store.filesOf]
  rw [show (Store.mk (st.dirs.map (fun p => if p.1 = d then (p.1, p.2.erase e) else p))).dirs
    = st.dirs.map (fun p => if p.1 = d then (p.1, p.2.erase e) else p) from rfl]
  rw [find?_map_keyfix (removeFrom_keyfix d e) d]
  cases hf : st.dirs.find? (keyIs d) with
  | none => rfl
  | some p =>
    have hp : p.1 = d := keyIs_eq_true_iff.mp (List.find?_some hf)
    simp only [Option.map_some']
    show (if p.1 = d then (p.1, p.2.erase e) else p).2 = p.2.erase e
    rw [if_pos hp]

theorem hasDir_map_keyfix {st : Store}
    {g : String × List FileEntry → String × List FileEntry}
    (hg : ∀ p, (g p).1 = p.1) (d : String) :
    (Store.mk (st.dirs.map g)).hasDir d = st.hasDir d := by
  rw [Store.hasDir, Store.hasDir, List.any_map]
  congr 1
  funext p
  simp [keyIs, Function.comp, hg p]

theorem hasDir_addTo (st : Store) (d d' : String) (e : FileEntry) :
    (st.addTo d e).hasDir d' = st.hasDir d' := hasDir_map_keyfix (addTo_keyfix d e) d'

theorem hasDir_removeFrom (st : Store) (d d' : String) (e : FileEntry) :
    (st.removeFrom d e).hasDir d' = st.hasDir d' :=
  hasDir_map_keyfix (removeFrom_keyfix d e) d'

theorem hasDir_overwriteTo (st : Store) (d d' : String) (e : FileEntry) :
    (st.overwriteTo d e).hasDir d' = st.hasDir d' :=
  hasDir_map_keyfix (overwriteTo_keyfix d e) d'

theorem hasDir_mkdirP_mono {st : Store} {d d' : String} (h : st.hasDir d' = true) :
    (st.mkdirP d).hasDir d' = true := by
  rw [Store.mkdirP]
  by_cases hh : st.hasDir d
  · rwa [if_pos hh]
  · rw [if_neg hh]
    rw [Store.hasDir, List.any_eq_true] at h ⊢
    obtain ⟨q, hq, hqd⟩ := h
    exact ⟨q, List.mem_append_left _ hq, hqd⟩

theorem keys_map_keyfix {l : List (String × List FileEntry)}
    {g : String × List FileEntry → String × List FileEntry}
    (hg : ∀ p, (g p).1 = p.1) : (l.map g).map Prod.fst = l.map Prod.fst := by
  rw [List.map_map]
  exact List.map_congr_left (fun p _ => hg p)

theorem WF_mkdirP {st : Store} (h : st.WF) (d : String) : (st.mkdirP d).WF := by
  rw [Store.mkdirP]
  by_cases hh : st.hasDir d
  · rwa [if_pos hh]
  · rw [if_neg hh]
    constructor
    · show ((st.dirs ++ [(d, [])]).map Prod.fst).Nodup
      rw [List.map_append]
      rw [List.nodup_append]
      refine ⟨h.1, by simp, ?_⟩
      intro x hx
      simp only [List.map_cons, List.map_nil, List.mem_singleton]
      intro hxd
      obtain ⟨q, hq, hqx⟩ := List.mem_map.mp hx
      exact not_hasDir_all_ne hh q hq (by rw [← hqx] at hxd; exact hxd)
    · intro p hp
      rcases List.mem_append.mp hp with hp | hp
      · exact h.2 p hp
      · simp only [List.mem_singleton] at hp
        subst hp
        simp [namesIn]

theorem WF_addTo {st : Store} {d : String} {e : FileEntry} (h : st.WF)
    (hfresh : e.name ∉ namesIn (st.filesOf d)) : (st.addTo d e).WF := by
  constructor
  · show ((st.dirs.map _).map Prod.fst).Nodup
    rw [keys_map_keyfix (addTo_keyfix d e)]
    exact h.1
  · intro q hq
    obtain ⟨p, hp, hgp⟩ := List.mem_map.mp hq
    by_cases hpd : p.1 = d
    · rw [if_pos hpd] at hgp
      subst hgp
      show (namesIn (p.2 ++ [e])).Nodup
      rw [namesIn, List.map_append]
      rw [List.nodup_append]
      refine ⟨h.2 p hp, by simp, ?_⟩
      intro x hx
      simp only [List.map_cons, List.map_nil, List.mem_singleton]
      intro hxe
      apply hfresh
      rw [← hpd, filesOf_of_mem h.1 hp]
      rw [← hxe]
      exact hx
    · rw [if_neg hpd] at hgp
      subst hgp
      exact h.2 p hp

theorem WF_removeFrom {st : Store} (h : st.WF) (d : String) (e : FileEntry) :
    (st.removeFrom d e).WF := by
  constructor
  · show ((st.dirs.map _).map Prod.fst).Nodup
    rw [keys_map_keyfix (removeFrom_keyfix d e)]
    exact h.1
  · intro q hq
    obtain ⟨p, hp, hgp⟩ := List.mem_map.mp hq
    by_cases hpd : p.1 = d
    · rw [if_pos hpd] at hgp
      subst hgp
      show (namesIn (p.2.erase e)).Nodup
      exact List.Nodup.sublist (List.Sublist.map _ (List.erase_sublist e p.2)) (h.2 p hp)
    · rw [if_neg hpd] at hgp
      subst hgp
      exact h.2 p hp

theorem WF_overwriteTo {st : Store} (h : st.WF) (d : String) (e : FileEntry) :
    (st.overwriteTo d e).WF := by
  constructor
  · show ((st.dirs.map _).map Prod.fst).Nodup
    rw [keys_map_keyfix (overwriteTo_keyfix d e)]
    exact h.1
  · intro q hq
    obtain ⟨p, hp, hgp⟩ := List.mem_map.mp hq
    by_cases hpd : p.1 = d
    · rw [if_pos hpd] at hgp
      subst hgp
      show (namesIn (p.2.filter (fun x => x.name ≠ e.name) ++ [e])).Nodup
      rw [namesIn, List.map_append]
      rw [List.nodup_append]
      refine ⟨List.Nodup.sublist (List.Sublist.map _ (List.filter_sublist p.2)) (h.2 p hp),
        by simp, ?_⟩
      intro x hx
      simp only [List.map_cons, List.map_nil, List.mem_singleton]
      intro hxe
      obtain ⟨y, hy, hyx⟩ := List.mem_map.mp hx
      have := List.of_mem_filter hy
      simp only [decide_eq_true_eq] at this
      exact this (by rw [hyx, hxe])
    · rw [if_neg hpd] at hgp
      subst hgp
      exact h.2 p hp

theorem totalFiles_mkdirP (st : Store) (d : String) :
    (st.mkdirP d).totalFiles = st.totalFiles := by
  rw [Store.mkdirP]
  by_cases hh : st.hasDir d
  · rw [if_pos hh]
  · rw [if_neg hh]
    show (Store.mk (st.dirs ++ [(d, [])])).totalFiles = st.totalFiles
    rw [Store.totalFiles, Store.totalFiles]
    simp

theorem totalFiles_addTo {st : Store} {d : String} (e : FileEntry)
    (hk : (st.dirs.map Prod.fst).Nodup) (hdir : st.hasDir d = true) :
    (st.addTo d e).totalFiles = st.totalFiles + 1 := by
  obtain ⟨l₁, p, l₂, heq, hp, h₁, h₂⟩ := dirs_split_of_hasDir st.dirs d hk hdir
  rw [Store.addTo, Store.totalFiles, Store.totalFiles, heq]
  simp only [List.map_append, List.map_cons]
  rw [mapIdOn (fun q hq => by rw [if_neg (h₁ q hq)]),
    mapIdOn (fun q hq => by rw [if_neg (h₂ q hq)]), if_pos hp]
  simp only [List.map_append, List.map_cons, List.sum_append, List.sum_cons,
    List.length_append, List.length_cons, List.length_nil]
  omega

theorem totalFiles_removeFrom {st : Store} {d : String} {e : FileEntry}
    (hk : (st.dirs.map Prod.fst).Nodup) (hmem : e ∈ st.filesOf d) :
    st.totalFiles = (st.removeFrom d e).totalFiles + 1 := by
  have hdir : st.hasDir d = true := by
    by_contra hh
    rw [filesOf_not_hasDir hh] at hmem
    simp at hmem
  obtain ⟨l₁, p, l₂, heq, hp, h₁, h₂⟩ := dirs_split_of_hasDir st.dirs d hk hdir
  have hfp : st.filesOf d = p.2 := filesOf_split heq hp h₁
  rw [hfp] at hmem
  rw [Store.removeFrom, Store.totalFiles, Store.totalFiles, heq]
  simp only [List.map_append, List.map_cons]
  rw [mapIdOn (fun q hq => by rw [if_neg (h₁ q hq)]),
    mapIdOn (fun q hq => by rw [if_neg (h₂ q hq)]), if_pos hp]
  simp only [List.map_append, List.map_cons, List.sum_append, List.sum_cons]
  have hlen : (p.2.erase e).length = p.2.length - 1 := List.length_erase_of_mem hmem
  have hpos : 1 ≤ p.2.length := List.length_pos.mpr (List.ne_nil_of_mem hmem)
  omega

theorem filesOf_length_le (st : Store) (d : String) :
    (st.filesOf d).length ≤ st.totalFiles := by
  rw [Store.filesOf]
  cases hf : st.dirs.find? (keyIs d) with
  | none => simp
  | some p =>
    have hp : p ∈ st.dirs := List.mem_of_find?_eq_some hf
    show p.2.length ≤ st.totalFiles
    rw [Store.totalFiles]
    exact List.single_le_sum (fun x _ => Nat.zero_le x) _
      (List.mem_map.mpr ⟨p, hp, rfl⟩)

theorem moveEntry_store (st : Store) (src dst : String) (e : FileEntry) :
    (st.moveEntry src dst e).1 = ((st.mkdirP dst).removeFrom src e).addTo dst
      ⟨resolveName (namesIn ((st.mkdirP dst).filesOf dst)) e.name, e.img⟩ := rfl

theorem moveEntry_name (st : Store) (src dst : String) (e : FileEntry) :
    (st.moveEntry src dst e).2 =
      resolveName (namesIn ((st.mkdirP dst).filesOf dst)) e.name := rfl

/-! ## Collision-name (`_dupN`) lemmas -/

theorem stringMk_inj {a b : List Char} (h : String.mk a = String.mk b) : a = b := by
  have := congrArg String.data h
  simpa using this

theorem dupNameL_inj {stem ext : List Char} {a b : Nat}
    (h : dupNameL stem ext a = dupNameL stem ext b) : a = b := by
  rw [dupNameL, dupNameL] at h
  have h1 := List.append_cancel_right h
  have h2 := List.append_cancel_left h1
  exact natToDec_inj h2

theorem dupLoop_spec :
    ∀ (fuel c : Nat) (existing : List String) (stem ext : List Char),
      (∃ k, k < fuel ∧ String.mk (dupNameL stem ext (c + k)) ∉ existing) →
      dupLoop existing stem ext c fuel ∉ existing ∧
        ∃ k, k < fuel ∧ dupLoop existing stem ext c fuel =
          String.mk (dupNameL stem ext (c + k)) := by
  intro fuel
  induction fuel with
  | zero =>
    intro c existing stem ext h
    obtain ⟨k, hk, _⟩ := h
    omega
  | succ fuel ih =>
    intro c existing stem ext h
    rw [dupLoop]
    by_cases hc : String.mk (dupNameL stem ext c) ∈ existing
    · rw [if_pos hc]
      obtain ⟨k, hk, hfree⟩ := h
      have hk0 : k ≠ 0 := by
        intro h0
        subst h0
        simp only [Nat.add_zero] at hfree
        exact hfree hc
      obtain ⟨hnotin, k', hk', heq⟩ :=
        ih (c + 1) existing stem ext ⟨k - 1, by omega, by
          rw [show c + 1 + (k - 1) = c + k by omega]
          exact hfree⟩
      exact ⟨hnotin, k' + 1, by omega, by
        rw [heq, show c + (k' + 1) = c + 1 + k' by omega]⟩
    · rw [if_neg hc]
      exact ⟨hc, 0, by omega, by rw [Nat.add_zero]⟩

theorem exists_free_dup (existing : List String) (stem ext : List Char) :
    ∃ k, k < existing.length + 1 ∧
      String.mk (dupNameL stem ext (1 + k)) ∉ existing := by
  by_contra hcon
  push_neg at hcon
  have hinj : Function.Injective (fun k : Nat => String.mk (dupNameL stem ext (1 + k))) := by
    intro a b hab
    have := dupNameL_inj (stringMk_inj hab)
    omega
  have hnod : ((List.range (existing.length + 1)).map
      (fun k => String.mk (dupNameL stem ext (1 + k)))).Nodup :=
    (List.nodup_range _).map hinj
  have hsubf : ((List.range (existing.length + 1)).map
      (fun k => String.mk (dupNameL stem ext (1 + k)))).toFinset ⊆ existing.toFinset := by
    intro x hx
    rw [List.mem_toFinset] at hx
    obtain ⟨k, hk, hkx⟩ := List.mem_map.mp hx
    rw [List.mem_range] at hk
    rw [List.mem_toFinset, ← hkx]
    exact hcon k hk
  have hcard := Finset.card_le_card hsubf
  rw [List.toFinset_card_of_nodup hnod] at hcard
  have h1 : existing.toFinset.card ≤ existing.length := List.toFinset_card_le existing
  simp only [List.length_map, List.length_range] at hcard
  omega

theorem resolveName_spec (existing : List String) (nm : String) :
    resolveName existing nm ∉ existing ∧
    (nm ∉ existing → resolveName existing nm = nm) ∧
    (nm ∈ existing → ∃ c, 1 ≤ c ∧ c ≤ existing.length + 1 ∧
      resolveName existing nm = dupNameStr nm c) := by
  rw [resolveName]
  by_cases hmem : nm ∈ existing
  · rw [if_pos hmem]
    obtain ⟨k, hk, hfree⟩ :=
      exists_free_dup existing (splitStemExt nm).1.data (splitStemExt nm).2.data
    obtain ⟨hnotin, k', hk', heq⟩ :=
      dupLoop_spec (existing.length + 1) 1 existing _ _ ⟨k, hk, hfree⟩
    refine ⟨hnotin, fun hcon => absurd hmem hcon, fun _ => ⟨1 + k', by omega, by omega, ?_⟩⟩
    rw [heq]
    rfl
  · rw [if_neg hmem]
    exact ⟨hmem, fun _ => rfl, fun hcon => absurd hcon hmem⟩

theorem suffix_of_suffix_le {u v l : List Char} (h1 : List.IsSuffix u l)
    (h2 : List.IsSuffix v l) (h3 : u.length ≤ v.length) : List.IsSuffix u v := by
  rw [← List.reverse_prefix] at h1 h2 ⊢
  exact List.prefix_of_prefix_length_le h1 h2 (by simpa using h3)

theorem not_suffixOf_append {e x : List Char} (pre : List Char)
    (h1 : ¬ List.IsSuffix e x) (h2 : ¬ List.IsSuffix x e) :
    e.isSuffixOf (pre ++ x) = false := by
  rw [← Bool.not_eq_true, List.isSuffixOf_iff_suffix]
  intro hsuf
  have hx : List.IsSuffix x (pre ++ x) := List.suffix_append pre x
  by_cases hle : e.length ≤ x.length
  · exact h1 (suffix_of_suffix_le hsuf hx hle)
  · exact h2 (suffix_of_suffix_le hx hsuf (by omega))

theorem suffixOf_append (pre x : List Char) : x.isSuffixOf (pre ++ x) = true := by
  rw [List.isSuffixOf_iff_suffix]
  exact List.suffix_append pre x

theorem take_pre_of_append (pre x : List Char) :
    (pre ++ x).take ((pre ++ x).length - x.length) = pre := by
  have hlen : (pre ++ x).length - x.length = pre.length := by simp
  rw [hlen]
  exact List.take_left pre x


theorem stripExt_append {pre : List Char} {ext : String} (hext : ext ∈ imageExts) :
    stripExtL (pre ++ ext.data) = pre := by
  fin_cases hext
  · rw [stripExtL, extAlternatives]
    have tt : (['.', 'j', 'p', 'g'] : List Char).isSuffixOf (pre ++ ['.', 'j', 'p', 'g']) = true :=
      suffixOf_append pre _
    simp only [List.find?_cons, tt]
    exact take_pre_of_append pre _
  · rw [stripExtL, extAlternatives]
    have f0 : (['.', 'j', 'p', 'g'] : List Char).isSuffixOf (pre ++ ['.', 'j', 'p', 'e', 'g']) = false :=
      not_suffixOf_append pre (by decide) (by decide)
    have tt : (['.', 'j', 'p', 'e', 'g'] : List Char).isSuffixOf (pre ++ ['.', 'j', 'p', 'e', 'g']) = true :=
      suffixOf_append pre _
    simp only [List.find?_cons, f0, tt]
    exact take_pre_of_append pre _
  · rw [stripExtL, extAlternatives]
    have f0 : (['.', 'j', 'p', 'g'] : List Char).isSuffixOf (pre ++ ['.', 'p', 'n', 'g']) = false :=
      not_suffixOf_append pre (by decide) (by decide)
    have f1 : (['.', 'j', 'p', 'e', 'g'] : List Char).isSuffixOf (pre ++ ['.', 'p', 'n', 'g']) = false :=
      not_suffixOf_append pre (by decide) (by decide)
    have tt : (['.', 'p', 'n', 'g'] : List Char).isSuffixOf (pre ++ ['.', 'p', 'n', 'g']) = true :=
      suffixOf_append pre _
    simp only [List.find?_cons, f0, f1, tt]
    exact take_pre_of_append pre _
  · rw [stripExtL, extAlternatives]
    have f0 : (['.', 'j', 'p', 'g'] : List Char).isSuffixOf (pre ++ ['.', 'J', 'P', 'G']) = false :=
      not_suffixOf_append pre (by decide) (by decide)
    have f1 : (['.', 'j', 'p', 'e', 'g'] : List Char).isSuffixOf (pre ++ ['.', 'J', 'P', 'G']) = false :=
      not_suffixOf_append pre (by decide) (by decide)
    have f2 : (['.', 'p', 'n', 'g'] : List Char).isSuffixOf (pre ++ ['.', 'J', 'P', 'G']) = false :=
      not_suffixOf_append pre (by decide) (by decide)
    have tt : (['.', 'J', 'P', 'G'] : List Char).isSuffixOf (pre ++ ['.', 'J', 'P', 'G']) = true :=
      suffixOf_append pre _
    simp only [List.find?_cons, f0, f1, f2, tt]
    exact take_pre_of_append pre _
  · rw [stripExtL, extAlternatives]
    have f0 : (['.', 'j', 'p', 'g'] : List Char).isSuffixOf (pre ++ ['.', 'J', 'P', 'E', 'G']) = false :=
      not_suffixOf_append pre (by decide) (by decide)
    have f1 : (['.', 'j', 'p', 'e', 'g'] : List Char).isSuffixOf (pre ++ ['.', 'J', 'P', 'E', 'G']) = false :=
      not_suffixOf_append pre (by decide) (by decide)
    have f2 : (['.', 'p', 'n', 'g'] : List Char).isSuffixOf (pre ++ ['.', 'J', 'P', 'E', 'G']) = false :=
      not_suffixOf_append pre (by decide) (by decide)
    have f3 : (['.', 'J', 'P', 'G'] : List Char).isSuffixOf (pre ++ ['.', 'J', 'P', 'E', 'G']) = false :=
      not_suffixOf_append pre (by decide) (by decide)
    have tt : (['.', 'J', 'P', 'E', 'G'] : List Char).isSuffixOf (pre ++ ['.', 'J', 'P', 'E', 'G']) = true :=
      suffixOf_append pre _
    simp only [List.find?_cons, f0, f1, f2, f3, tt]
    exact take_pre_of_append pre _
  · rw [stripExtL, extAlternatives]
    have f0 : (['.', 'j', 'p', 'g'] : List Char).isSuffixOf (pre ++ ['.', 'P', 'N', 'G']) = false :=
      not_suffixOf_append pre (by decide) (by decide)
    have f1 : (['.', 'j', 'p', 'e', 'g'] : List Char).isSuffixOf (pre ++ ['.', 'P', 'N', 'G']) = false :=
      not_suffixOf_append pre (by decide) (by decide)
    have f2 : (['.', 'p', 'n', 'g'] : List Char).isSuffixOf (pre ++ ['.', 'P', 'N', 'G']) = false :=
      not_suffixOf_append pre (by decide) (by decide)
    have f3 : (['.', 'J', 'P', 'G'] : List Char).isSuffixOf (pre ++ ['.', 'P', 'N', 'G']) = false :=
      not_suffixOf_append pre (by decide) (by decide)
    have f4 : (['.', 'J', 'P', 'E', 'G'] : List Char).isSuffixOf (pre ++ ['.', 'P', 'N', 'G']) = false :=
      not_suffixOf_append pre (by decide) (by decide)
    have tt : (['.', 'P', 'N', 'G'] : List Char).isSuffixOf (pre ++ ['.', 'P', 'N', 'G']) = true :=
      suffixOf_append pre _
    simp only [List.find?_cons, f0, f1, f2, f3, f4, tt]
    exact take_pre_of_append pre _

theorem takeWhile_append_all {p : Char → Bool} :
    ∀ {l₁ : List Char} {y : Char} {l₂ : List Char},
      (∀ x ∈ l₁, p x = true) → p y = false →
      (l₁ ++ y :: l₂).takeWhile p = l₁ := by
  intro l₁
  induction l₁ with
  | nil =>
    intro y l₂ _ hy
    simp [List.takeWhile_cons, hy]
  | cons a t ih =>
    intro y l₂ h hy
    simp only [List.cons_append, List.takeWhile_cons, h a (List.mem_cons_self _ _), if_true]
    rw [ih (fun x hx => h x (List.mem_cons_of_mem _ hx)) hy]

theorem mem_lastN_append {A dec : List Char} {y : Char} {n : Nat}
    (h : dec.length + 1 ≤ n) : y ∈ lastN n (A ++ y :: dec) := by
  rw [lastN]
  have hle : (A ++ y :: dec).length - n ≤ A.length := by
    simp only [List.length_append, List.length_cons]
    omega
  rw [List.drop_append_of_le_length hle]
  exact List.mem_append_right _ (List.mem_cons_self _ _)

theorem lastN_not_all_digit {A dec : List Char} {n : Nat}
    (h : dec.length + 1 ≤ n) :
    (lastN n (A ++ 'p' :: dec)).all Char.isDigit = false := by
  rw [Bool.eq_false_iff]
  intro hall
  rw [List.all_eq_true] at hall
  exact absurd (hall 'p' (mem_lastN_append h)) (by decide)

theorem trailDigits_dup {A dec : List Char} (hdec : dec.all Char.isDigit = true) :
    trailDigits (A ++ 'p' :: dec) = dec.length := by
  rw [trailDigits, List.reverse_append, List.reverse_cons, List.append_assoc]
  rw [show (['p'] ++ A.reverse : List Char) = 'p' :: A.reverse from rfl]
  have hrev : ∀ x ∈ dec.reverse, Char.isDigit x = true :=
    fun x hx => List.all_eq_true.mp hdec x (List.mem_reverse.mp hx)
  rw [takeWhile_append_all hrev (by decide), List.length_reverse]

theorem parseCore_dup_none {stem dec : List Char} {ext : String}
    (hext : ext ∈ imageExts) (hdd : dec.all Char.isDigit = true)
    (hd5 : dec.length ≤ 5) :
    parseCore (((stem ++ "_dup".data) ++ dec) ++ ext.data) = none := by
  simp only [parseCore]
  rw [stripExt_append hext]
  have hshape : (stem ++ "_dup".data) ++ dec = (stem ++ ['_', 'd', 'u']) ++ 'p' :: dec := by
    rw [show ("_dup".data : List Char) = ['_', 'd', 'u', 'p'] from rfl]
    simp
  rw [hshape]
  have hp1 : datePrio1 ((stem ++ ['_', 'd', 'u']) ++ 'p' :: dec) = none := by
    rw [datePrio1, if_neg]
    intro hcon
    have hfalse := @lastN_not_all_digit (stem ++ ['_', 'd', 'u']) dec 9 (by omega)
    rw [hcon.2.1] at hfalse
    exact absurd hfalse (by decide)
  have hp2 : datePrio2 ((stem ++ ['_', 'd', 'u']) ++ 'p' :: dec) = none := by
    rw [datePrio2, if_neg]
    intro hcon
    have hfalse := @lastN_not_all_digit (stem ++ ['_', 'd', 'u']) dec 8 (by omega)
    rw [hcon.2.1] at hfalse
    exact absurd hfalse (by decide)
  have hp3 : datePrio3 ((stem ++ ['_', 'd', 'u']) ++ 'p' :: dec) = none := by
    have htr := @trailDigits_dup (stem ++ ['_', 'd', 'u']) dec hdd
    have hlen : ((stem ++ ['_', 'd', 'u']) ++ 'p' :: dec).length =
        stem.length + 3 + 1 + dec.length := by
      simp only [List.length_append, List.length_cons]
      simp
      omega
    simp only [datePrio3, htr]
    rw [if_neg, if_neg]
    · intro hcon
      rw [hlen] at hcon
      omega
    · intro hcon
      omega
  rw [hp1, hp2, hp3]
  rfl

theorem parse_dupName_none {nm : String} {c : Nat} (himg : isImageName nm = true)
    (hc : c ≤ 99999) : extract_minor_from_filename (dupNameStr nm c) = none := by
  have hextmem : (splitStemExt nm).2 ∈ imageExts := by simpa [isImageName] using himg
  have hd5 : (natToDec c).length ≤ 5 := by
    apply natToDec_len_le ?_ (by norm_num)
    have h5 : (10 : Nat) ^ 5 = 100000 := by norm_num
    omega
  rw [extract_minor_from_filename]
  rw [show (dupNameStr nm c).data =
    (((splitStemExt nm).1.data ++ "_dup".data) ++ natToDec c) ++ (splitStemExt nm).2.data
    from rfl]
  rw [parseCore_dup_none hextmem (natToDec_spec c).1 hd5]
  rfl

/-! ## Generic fold lemmas -/

theorem foldl_inv {α β : Type} {P : β → Prop} {step : β → α → β} :
    ∀ (L : List α) (acc : β), P acc → (∀ b a, a ∈ L → P b → P (step b a)) →
      P (L.foldl step acc) := by
  intro L
  induction L with
  | nil => intro acc h _; exact h
  | cons a t ih =>
    intro acc h hstep
    exact ih (step acc a) (hstep acc a (List.mem_cons_self _ _) h)
      (fun b x hx hb => hstep b x (List.mem_cons_of_mem _ hx) hb)

theorem foldl_fixed {α β : Type} {step : β → α → β} :
    ∀ (L : List α) (acc : β), (∀ a ∈ L, step acc a = acc) → L.foldl step acc = acc := by
  intro L
  induction L with
  | nil => intro acc _; rfl
  | cons a t ih =>
    intro acc h
    rw [List.foldl_cons, h a (List.mem_cons_self _ _)]
    exact ih acc (fun x hx => h x (List.mem_cons_of_mem _ hx))

theorem foldl_append_eq {α β : Type} (g : α → List β) :
    ∀ (l : List α) (init : List β),
      l.foldl (fun acc p => acc ++ g p) init = init ++ (l.map g).flatten := by
  intro l
  induction l with
  | nil => intro init; simp
  | cons a t ih =>
    intro init
    rw [List.foldl_cons, ih, List.map_cons, List.flatten_cons, List.append_assoc]

/-! ## Snapshot structure -/

theorem scanSnapshot_eq (st : Store) :
    scanSnapshot st = (st.dirs.map snapBlock).flatten := by
  rw [scanSnapshot]
  have hbody : ∀ (acc : List (String × FileEntry × Option String))
      (p : String × List FileEntry),
      (if p.1 ≠ "Unknown" then
        acc ++ (p.2.filter (fun f => isImageName f.name)).map
          (fun f => (p.1, f, currentMinorOf p.1))
      else acc) = acc ++ snapBlock p := by
    intro acc p
    rw [snapBlock]
    by_cases h : p.1 ≠ "Unknown"
    · rw [if_pos h, if_pos h]
    · rw [if_neg h, if_neg h, List.append_nil]
  calc st.dirs.foldl (fun acc p =>
        if p.1 ≠ "Unknown" then
          acc ++ (p.2.filter (fun f => isImageName f.name)).map
            (fun f => (p.1, f, currentMinorOf p.1))
        else acc) []
      = st.dirs.foldl (fun acc p => acc ++ snapBlock p) [] := by
        congr 1
        funext acc p
        exact hbody acc p
    _ = [] ++ (st.dirs.map snapBlock).flatten := foldl_append_eq snapBlock st.dirs []
    _ = (st.dirs.map snapBlock).flatten := List.nil_append _

theorem snapBlock_mem {p : String × List FileEntry}
    {x : String × FileEntry × Option String} (hx : x ∈ snapBlock p) :
    x.1 = p.1 ∧ x.2.1 ∈ p.2 ∧ isImageName x.2.1.name = true ∧
      x.2.2 = currentMinorOf p.1 ∧ p.1 ≠ "Unknown" := by
  rw [snapBlock] at hx
  by_cases h : p.1 ≠ "Unknown"
  · rw [if_pos h] at hx
    obtain ⟨f, hf, hfx⟩ := List.mem_map.mp hx
    obtain ⟨hf2, hfi⟩ := List.mem_filter.mp hf
    subst hfx
    exact ⟨rfl, hf2, hfi, rfl, h⟩
  · rw [if_neg h] at hx
    exact absurd hx (List.not_mem_nil x)

theorem scanSnapshot_mem {st : Store} {x : String × FileEntry × Option String}
    (hx : x ∈ scanSnapshot st) :
    ∃ p ∈ st.dirs, x.1 = p.1 ∧ x.2.1 ∈ p.2 ∧ isImageName x.2.1.name = true ∧
      x.2.2 = currentMinorOf p.1 ∧ p.1 ≠ "Unknown" := by
  rw [scanSnapshot_eq] at hx
  rw [List.mem_flatten] at hx
  obtain ⟨l, hl, hxl⟩ := hx
  obtain ⟨p, hp, hpl⟩ := List.mem_map.mp hl
  subst hpl
  obtain ⟨h1, h2, h3, h4, h5⟩ := snapBlock_mem hxl
  exact ⟨p, hp, h1, h2, h3, h4, h5⟩

theorem scanSnapshot_complete {st : Store} {p : String × List FileEntry}
    {f : FileEntry} (hp : p ∈ st.dirs) (hd : p.1 ≠ "Unknown") (hf : f ∈ p.2)
    (hi : isImageName f.name = true) :
    (p.1, f, currentMinorOf p.1) ∈ scanSnapshot st := by
  rw [scanSnapshot_eq, List.mem_flatten]
  refine ⟨snapBlock p, List.mem_map.mpr ⟨p, hp, rfl⟩, ?_⟩
  rw [snapBlock, if_pos hd]
  exact List.mem_map.mpr ⟨f, List.mem_filter.mpr ⟨hf, hi⟩, rfl⟩

theorem scanSnapshot_pairwise {st : Store} (h : st.WF) :
    (scanSnapshot st).Pairwise
      (fun a b => a.1 ≠ b.1 ∨ a.2.1.name ≠ b.2.1.name) := by
  rw [scanSnapshot_eq, List.pairwise_flatten]
  constructor
  · intro l hl
    obtain ⟨p, hp, hpl⟩ := List.mem_map.mp hl
    subst hpl
    rw [snapBlock]
    by_cases hd : p.1 ≠ "Unknown"
    · rw [if_pos hd, List.pairwise_map]
      have hnames : p.2.Pairwise (fun a b => a.name ≠ b.name) := by
        have h2 := h.2 p hp
        rw [namesIn] at h2
        exact List.pairwise_map.mp h2
      have hfilter := hnames.sublist
        (@List.filter_sublist FileEntry (fun f => isImageName f.name) p.2)
      exact hfilter.imp (fun hab => Or.inr hab)
    · rw [if_neg hd]
      exact List.Pairwise.nil
  · have hkeys : st.dirs.Pairwise (fun p q => p.1 ≠ q.1) := by
      exact List.pairwise_map.mp h.1
    rw [List.pairwise_map]
    refine hkeys.imp ?_
    intro p q hpq x hx y hy
    exact Or.inl (by rw [(snapBlock_mem hx).1, (snapBlock_mem hy).1]; exact hpq)

/-! ## Folder-name and bucket-key lemmas -/

theorem minor_ne_unknown (s : String) : "Minor_" ++ s ≠ "Unknown" := by
  cases s with
  | mk l =>
    intro h
    have h2 : ('M' :: 'i' :: 'n' :: 'o' :: 'r' :: '_' :: l) = "Unknown".data :=
      congrArg String.data h
    have h3 := List.head_eq_of_cons_eq h2
    exact absurd h3 (by decide)

theorem replaceAllAux_digits :
    ∀ (fuel : Nat) (l : List Char), l.all Char.isDigit = true →
      replaceAllAux "Minor_".data [] fuel l = l := by
  intro fuel
  induction fuel with
  | zero => intro l _; rfl
  | succ fuel ih =>
    intro l hl
    cases l with
    | nil => rfl
    | cons c rest =>
      rw [List.all_cons, Bool.and_eq_true] at hl
      have hpre : ("Minor_".data).isPrefixOf (c :: rest) = false := by
        have hc : ('M' == c) = false := by
          by_contra hcon
          rw [Bool.not_eq_false, beq_iff_eq] at hcon
          rw [← hcon] at hl
          exact absurd hl.1 (by decide)
        show (('M' == c) && _) = false
        rw [hc, Bool.false_and]
      rw [replaceAllAux, if_neg (by rw [hpre]; exact Bool.false_ne_true), ih rest hl.2]

theorem currentMinorOf_minor {s : String} (hs : s.data.all Char.isDigit = true) :
    currentMinorOf ("Minor_" ++ s) = some s := by
  cases s with
  | mk l =>
    have hdata : ("Minor_" ++ String.mk l).data = "Minor_".data ++ l := rfl
    have hpre : ("Minor_".data).isPrefixOf ("Minor_".data ++ l) = true := by
      show ("Minor_".data).isPrefixOf ('M' :: 'i' :: 'n' :: 'o' :: 'r' :: '_' :: l) = true
      simp [List.isPrefixOf]
    rw [currentMinorOf, hdata, if_pos hpre]
    refine congrArg some ?_
    rw [eraseAll, hdata]
    have hlen : ("Minor_".data ++ l).length = l.length + 6 := by
      rw [List.length_append]
      show 6 + l.length = l.length + 6
      omega
    rw [hlen]
    show String.mk (replaceAllAux "Minor_".data [] (l.length + 6)
      ('M' :: 'i' :: 'n' :: 'o' :: 'r' :: '_' :: l)) = String.mk l
    rw [replaceAllAux, if_pos]
    · have hdrop : (('i' :: 'n' :: 'o' :: 'r' :: '_' :: l).drop
          ("Minor_".data.length - 1)) = l := rfl
      rw [hdrop, replaceAllAux_digits _ l hs, List.nil_append]
    · show ("Minor_".data).isPrefixOf ('M' :: 'i' :: 'n' :: 'o' :: 'r' :: '_' :: l) = true
      simp [List.isPrefixOf]

/-! ## `moveEntry` lemmas -/

theorem exists_dir_of_mem_filesOf {st : Store} {d : String} {f : FileEntry}
    (h : f ∈ st.filesOf d) : ∃ p ∈ st.dirs, p.1 = d ∧ f ∈ p.2 := by
  rw [Store.filesOf] at h
  cases hf : st.dirs.find? (keyIs d) with
  | none => rw [hf] at h; exact absurd h (List.not_mem_nil f)
  | some p =>
    rw [hf] at h
    exact ⟨p, List.mem_of_find?_eq_some hf, keyIs_eq_true_iff.mp (List.find?_some hf), h⟩

theorem WF_namesOf {st : Store} (h : st.WF) (d : String) :
    (namesIn (st.filesOf d)).Nodup := by
  rw [Store.filesOf]
  cases hf : st.dirs.find? (keyIs d) with
  | none => exact List.nodup_nil
  | some p => exact h.2 p (List.mem_of_find?_eq_some hf)

theorem mem_filesOf_removeFrom {st : Store} {src d : String} {e x : FileEntry}
    (h : x ∈ (st.removeFrom src e).filesOf d) : x ∈ st.filesOf d := by
  by_cases hsd : d = src
  · subst hsd
    rw [filesOf_removeFrom_self] at h
    exact List.mem_of_mem_erase h
  · rw [filesOf_removeFrom_other e hsd] at h
    exact h

theorem hasDir_moveEntry_dst (st : Store) (src dst : String) (e : FileEntry) :
    (st.moveEntry src dst e).1.hasDir dst = true := by
  rw [moveEntry_store, hasDir_addTo, hasDir_removeFrom]
  exact hasDir_mkdirP_self st dst

theorem mem_moveEntry_intro {st : Store} {src dst d : String} {e x : FileEntry}
    (hx : x ∈ st.filesOf d) (hne : d = src → x ≠ e) :
    x ∈ (st.moveEntry src dst e).1.filesOf d := by
  rw [moveEntry_store]
  have h1 : x ∈ (st.mkdirP dst).filesOf d := by rw [filesOf_mkdirP]; exact hx
  have h2 : x ∈ ((st.mkdirP dst).removeFrom src e).filesOf d := by
    by_cases hds : d = src
    · subst hds
      rw [filesOf_removeFrom_self]
      exact (List.mem_erase_of_ne (hne rfl)).mpr h1
    · rw [filesOf_removeFrom_other e hds]
      exact h1
  by_cases hdd : d = dst
  · subst hdd
    rw [filesOf_addTo_self _ (by rw [hasDir_removeFrom]; exact hasDir_mkdirP_self st d)]
    exact List.mem_append_left _ h2
  · rw [filesOf_addTo_other _ hdd]
    exact h2

theorem mem_moveEntry_elim {st : Store} {src dst d : String} {e x : FileEntry}
    (hx : x ∈ (st.moveEntry src dst e).1.filesOf d) :
    (d = dst ∧ x = ⟨(st.moveEntry src dst e).2, e.img⟩) ∨ x ∈ st.filesOf d := by
  rw [moveEntry_store] at hx
  by_cases hdd : d = dst
  · subst hdd
    rw [filesOf_addTo_self _ (by rw [hasDir_removeFrom]; exact hasDir_mkdirP_self st d)] at hx
    rcases List.mem_append.mp hx with h | h
    · right
      have := mem_filesOf_removeFrom h
      rwa [filesOf_mkdirP] at this
    · left
      exact ⟨rfl, by rw [moveEntry_name]; exact List.mem_singleton.mp h⟩
  · rw [filesOf_addTo_other _ hdd] at hx
    right
    have := mem_filesOf_removeFrom hx
    rwa [filesOf_mkdirP] at this

theorem moveEntry_added (st : Store) (src dst : String) (e : FileEntry) :
    (⟨(st.moveEntry src dst e).2, e.img⟩ : FileEntry) ∈
      (st.moveEntry src dst e).1.filesOf dst := by
  rw [moveEntry_store, moveEntry_name]
  rw [filesOf_addTo_self _ (by rw [hasDir_removeFrom]; exact hasDir_mkdirP_self st dst)]
  exact List.mem_append_right _ (List.mem_singleton.mpr rfl)

theorem moveEntry_gone {st : Store} {src dst : String} {e : FileEntry}
    (hWF : st.WF) (hmem : e ∈ st.filesOf src) :
    e ∉ (st.moveEntry src dst e).1.filesOf src := by
  intro hcon
  rw [moveEntry_store] at hcon
  have hnames : (namesIn (st.filesOf src)).Nodup := WF_namesOf hWF src
  have hentries : (st.filesOf src).Nodup := List.Nodup.of_map _ hnames
  have hrm : e ∉ ((st.mkdirP dst).removeFrom src e).filesOf src := by
    rw [filesOf_removeFrom_self]
    intro hc
    have h1 : e ∈ (st.mkdirP dst).filesOf src := List.mem_of_mem_erase hc
    rw [filesOf_mkdirP] at h1
    have hnod : ((st.mkdirP dst).filesOf src).Nodup := by
      rw [filesOf_mkdirP]
      exact hentries
    exact absurd ((hnod.mem_erase_iff).mp hc).1 (by simp)
  by_cases hsd : src = dst
  · subst hsd
    rw [filesOf_addTo_self _
      (by rw [hasDir_removeFrom]; exact hasDir_mkdirP_self st src)] at hcon
    rcases List.mem_append.mp hcon with h | h
    · exact hrm h
    · have hname : e.name = resolveName (namesIn ((st.mkdirP src).filesOf src)) e.name := by
        have := List.mem_singleton.mp h
        exact congrArg FileEntry.name this
      have hfresh := (resolveName_spec (namesIn ((st.mkdirP src).filesOf src)) e.name).1
      apply hfresh
      rw [← hname, filesOf_mkdirP]
      exact List.mem_map.mpr ⟨e, hmem, rfl⟩
  · rw [filesOf_addTo_other _ hsd] at hcon
    exact hrm hcon

theorem WF_moveEntry {st : Store} (hWF : st.WF) (src dst : String) (e : FileEntry) :
    (st.moveEntry src dst e).1.WF := by
  rw [moveEntry_store]
  refine WF_addTo (WF_removeFrom (WF_mkdirP hWF dst) src e) ?_
  intro hcon
  obtain ⟨x, hx, hxn⟩ := List.mem_map.mp hcon
  have h1 : x ∈ (st.mkdirP dst).filesOf dst := mem_filesOf_removeFrom hx
  exact (resolveName_spec (namesIn ((st.mkdirP dst).filesOf dst)) e.name).1
    (List.mem_map.mpr ⟨x, h1, hxn⟩)

theorem totalFiles_moveEntry {st : Store} {src : String} {e : FileEntry}
    (hWF : st.WF) (hmem : e ∈ st.filesOf src) (dst : String) :
    (st.moveEntry src dst e).1.totalFiles = st.totalFiles := by
  rw [moveEntry_store]
  have hWF1 : (st.mkdirP dst).WF := WF_mkdirP hWF dst
  have hmem1 : e ∈ (st.mkdirP dst).filesOf src := by rw [filesOf_mkdirP]; exact hmem
  have hWF2 : ((st.mkdirP dst).removeFrom src e).WF := WF_removeFrom hWF1 src e
  have hdir2 : ((st.mkdirP dst).removeFrom src e).hasDir dst = true := by
    rw [hasDir_removeFrom]
    exact hasDir_mkdirP_self st dst
  rw [totalFiles_addTo _ hWF2.1 hdir2]
  have h1 := totalFiles_removeFrom hWF1.1 hmem1
  rw [totalFiles_mkdirP] at h1
  omega

theorem mem_entry_elim_mkdirP {st : Store} {d : String}
    {p : String × List FileEntry} {f : FileEntry}
    (hp : p ∈ (st.mkdirP d).dirs) (hf : f ∈ p.2) :
    ∃ q ∈ st.dirs, q.1 = p.1 ∧ f ∈ q.2 := by
  rw [Store.mkdirP] at hp
  by_cases hh : st.hasDir d
  · rw [if_pos hh] at hp
    exact ⟨p, hp, rfl, hf⟩
  · rw [if_neg hh] at hp
    rcases List.mem_append.mp hp with h | h
    · exact ⟨p, h, rfl, hf⟩
    · have : p = (d, []) := List.mem_singleton.mp h
      rw [this] at hf
      exact absurd hf (List.not_mem_nil f)

theorem mem_entry_elim_removeFrom {st : Store} {d : String} {e : FileEntry}
    {p : String × List FileEntry} {f : FileEntry}
    (hp : p ∈ (st.removeFrom d e).dirs) (hf : f ∈ p.2) :
    ∃ q ∈ st.dirs, q.1 = p.1 ∧ f ∈ q.2 := by
  rw [Store.removeFrom] at hp
  obtain ⟨q, hq, hqp⟩ := List.mem_map.mp hp
  by_cases hqd : q.1 = d
  · rw [if_pos hqd] at hqp
    refine ⟨q, hq, by rw [← hqp], ?_⟩
    rw [← hqp] at hf
    exact List.mem_of_mem_erase hf
  · rw [if_neg hqd] at hqp
    exact ⟨q, hq, by rw [← hqp], by rw [hqp]; exact hf⟩

theorem mem_entry_elim_addTo {st : Store} {d : String} {e : FileEntry}
    {p : String × List FileEntry} {f : FileEntry}
    (hp : p ∈ (st.addTo d e).dirs) (hf : f ∈ p.2) :
    (p.1 = d ∧ f = e) ∨ ∃ q ∈ st.dirs, q.1 = p.1 ∧ f ∈ q.2 := by
  rw [Store.addTo] at hp
  obtain ⟨q, hq, hqp⟩ := List.mem_map.mp hp
  by_cases hqd : q.1 = d
  · rw [if_pos hqd] at hqp
    rw [← hqp] at hf
    rcases List.mem_append.mp hf with h | h
    · exact Or.inr ⟨q, hq, by rw [← hqp], h⟩
    · exact Or.inl ⟨by rw [← hqp]; exact hqd, List.mem_singleton.mp h⟩
  · rw [if_neg hqd] at hqp
    exact Or.inr ⟨q, hq, by rw [← hqp], by rw [hqp]; exact hf⟩

theorem mem_entry_elim_overwriteTo {st : Store} {d : String} {e : FileEntry}
    {p : String × List FileEntry} {f : FileEntry}
    (hp : p ∈ (st.overwriteTo d e).dirs) (hf : f ∈ p.2) :
    (p.1 = d ∧ f = e) ∨ ∃ q ∈ st.dirs, q.1 = p.1 ∧ f ∈ q.2 := by
  rw [Store.overwriteTo] at hp
  obtain ⟨q, hq, hqp⟩ := List.mem_map.mp hp
  by_cases hqd : q.1 = d
  · rw [if_pos hqd] at hqp
    rw [← hqp] at hf
    rcases List.mem_append.mp hf with h | h
    · exact Or.inr ⟨q, hq, by rw [← hqp], List.mem_of_mem_filter h⟩
    · exact Or.inl ⟨by rw [← hqp]; exact hqd, List.mem_singleton.mp h⟩
  · rw [if_neg hqd] at hqp
    exact Or.inr ⟨q, hq, by rw [← hqp], by rw [hqp]; exact hf⟩

theorem mem_entry_elim_moveEntry {st : Store} {src dst : String} {e : FileEntry}
    {p : String × List FileEntry} {f : FileEntry}
    (hp : p ∈ (st.moveEntry src dst e).1.dirs) (hf : f ∈ p.2) :
    (p.1 = dst ∧ f = ⟨(st.moveEntry src dst e).2, e.img⟩) ∨
      ∃ q ∈ st.dirs, q.1 = p.1 ∧ f ∈ q.2 := by
  rw [moveEntry_store] at hp
  rcases mem_entry_elim_addTo hp hf with h | ⟨q2, hq2, hq2p, hfq2⟩
  · exact Or.inl ⟨h.1, by rw [moveEntry_name]; exact h.2⟩
  · obtain ⟨q1, hq1, hq1p, hfq1⟩ := mem_entry_elim_removeFrom hq2 hfq2
    obtain ⟨q0, hq0, hq0p, hfq0⟩ := mem_entry_elim_mkdirP hq1 hfq1
    exact Or.inr ⟨q0, hq0, by rw [hq0p, hq1p, hq2p], hfq0⟩

/-! ## Classify-pass fold lemmas -/

theorem organize_files_store (st : Store) (src : List FileEntry) :
    (organize_files st src).store =
      (((organizeProcessed st src).foldl organizeStep (st, [], [])).2.2.foldl
        organizeUnknownStep
        (((organizeProcessed st src).foldl organizeStep (st, [], [])).1, [])).1 := rfl

theorem organize_files_minorLog (st : Store) (src : List FileEntry) :
    (organize_files st src).minorLog =
      ((organizeProcessed st src).foldl organizeStep (st, [], [])).2.1 := rfl

theorem organize_files_unknownLog (st : Store) (src : List FileEntry) :
    (organize_files st src).unknownLog =
      (((organizeProcessed st src).foldl organizeStep (st, [], [])).2.2.foldl
        organizeUnknownStep
        (((organizeProcessed st src).foldl organizeStep (st, [], [])).1, [])).2 := rfl

theorem organizeStep_minorLog_step
    {acc : Store × List (FileEntry × String) × List FileEntry} {f g : FileEntry}
    {s : String} (h : (g, s) ∈ (organizeStep acc f).2.1) :
    (g, s) ∈ acc.2.1 ∨ (g = f ∧ ∃ dd, extract_minor_from_filename f.name = some dd ∧
      dd ≠ "" ∧ dd.length < 5 ∧ s = "Minor_" ++ format4 (decValL dd.data)) := by
  cases hp : extract_minor_from_filename f.name with
  | none =>
    simp only [organizeStep, hp] at h
    exact Or.inl h
  | some d =>
    simp only [organizeStep, hp] at h
    by_cases hc : d ≠ "" ∧ d.length < 5
    · rw [if_pos hc] at h
      rcases List.mem_append.mp h with h1 | h1
      · exact Or.inl h1
      · have h2 := List.mem_singleton.mp h1
        have hg : g = f := congrArg Prod.fst h2
        have hs : s = "Minor_" ++ format4 (decValL d.data) := congrArg Prod.snd h2
        exact Or.inr ⟨hg, d, rfl, hc.1, hc.2, hs⟩
    · rw [if_neg hc] at h
      exact Or.inl h

theorem organizeStep_pending_step
    {acc : Store × List (FileEntry × String) × List FileEntry} {f g : FileEntry}
    (h : g ∈ (organizeStep acc f).2.2) : g ∈ acc.2.2 ∨ g = f := by
  cases hp : extract_minor_from_filename f.name with
  | none =>
    simp only [organizeStep, hp] at h
    rcases List.mem_append.mp h with h1 | h1
    · exact Or.inl h1
    · exact Or.inr (List.mem_singleton.mp h1)
  | some d =>
    simp only [organizeStep, hp] at h
    by_cases hc : d ≠ "" ∧ d.length < 5
    · rw [if_pos hc] at h
      exact Or.inl h
    · rw [if_neg hc] at h
      rcases List.mem_append.mp h with h1 | h1
      · exact Or.inl h1
      · exact Or.inr (List.mem_singleton.mp h1)

theorem organizeStep_minorLog_mono
    {acc : Store × List (FileEntry × String) × List FileEntry} {f : FileEntry}
    {x : FileEntry × String} (h : x ∈ acc.2.1) : x ∈ (organizeStep acc f).2.1 := by
  cases hp : extract_minor_from_filename f.name with
  | none => simp only [organizeStep, hp]; exact h
  | some d =>
    simp only [organizeStep, hp]
    by_cases hc : d ≠ "" ∧ d.length < 5
    · rw [if_pos hc]
      exact List.mem_append_left _ h
    · rw [if_neg hc]
      exact h

theorem organizeStep_pending_mono
    {acc : Store × List (FileEntry × String) × List FileEntry} {f g : FileEntry}
    (h : g ∈ acc.2.2) : g ∈ (organizeStep acc f).2.2 := by
  cases hp : extract_minor_from_filename f.name with
  | none =>
    simp only [organizeStep, hp]
    exact List.mem_append_left _ h
  | some d =>
    simp only [organizeStep, hp]
    by_cases hc : d ≠ "" ∧ d.length < 5
    · rw [if_pos hc]
      exact h
    · rw [if_neg hc]
      exact List.mem_append_left _ h

theorem organizeFold_minorLog_mem :
    ∀ (L : List FileEntry) (acc : Store × List (FileEntry × String) × List FileEntry)
      (g : FileEntry) (s : String), (g, s) ∈ (L.foldl organizeStep acc).2.1 →
      (g, s) ∈ acc.2.1 ∨ (g ∈ L ∧ ∃ dd, extract_minor_from_filename g.name = some dd ∧
        dd ≠ "" ∧ dd.length < 5 ∧ s = "Minor_" ++ format4 (decValL dd.data)) := by
  intro L
  induction L with
  | nil => intro acc g s h; exact Or.inl h
  | cons a t ih =>
    intro acc g s h
    rcases ih (organizeStep acc a) g s h with h1 | ⟨h1, h2⟩
    · rcases organizeStep_minorLog_step h1 with h2 | ⟨h2, dd, h3⟩
      · exact Or.inl h2
      · subst h2
        exact Or.inr ⟨List.mem_cons_self _ _, dd, h3⟩
    · exact Or.inr ⟨List.mem_cons_of_mem _ h1, h2⟩

theorem organizeFold_pending_mem :
    ∀ (L : List FileEntry) (acc : Store × List (FileEntry × String) × List FileEntry)
      (g : FileEntry), g ∈ (L.foldl organizeStep acc).2.2 →
      g ∈ acc.2.2 ∨ g ∈ L := by
  intro L
  induction L with
  | nil => intro acc g h; exact Or.inl h
  | cons a t ih =>
    intro acc g h
    rcases ih (organizeStep acc a) g h with h1 | h1
    · rcases organizeStep_pending_step h1 with h2 | h2
      · exact Or.inl h2
      · exact Or.inr (h2 ▸ List.mem_cons_self _ _)
    · exact Or.inr (List.mem_cons_of_mem _ h1)

theorem organizeFold_pending_mono :
    ∀ (L : List FileEntry) (acc : Store × List (FileEntry × String) × List FileEntry)
      (g : FileEntry), g ∈ acc.2.2 → g ∈ (L.foldl organizeStep acc).2.2 := by
  intro L
  induction L with
  | nil => intro acc g h; exact h
  | cons a t ih =>
    intro acc g h
    exact ih (organizeStep acc a) g (organizeStep_pending_mono h)

theorem organizeFold_pending_complete {L : List FileEntry}
    {acc : Store × List (FileEntry × String) × List FileEntry} {g : FileEntry}
    (hg : g ∈ L)
    (hng : ∀ dd, extract_minor_from_filename g.name = some dd → dd ≠ "" → 5 ≤ dd.length) :
    g ∈ (L.foldl organizeStep acc).2.2 := by
  obtain ⟨l₁, l₂, hL⟩ := List.append_of_mem hg
  subst hL
  rw [List.foldl_append, List.foldl_cons]
  apply organizeFold_pending_mono
  cases hp : extract_minor_from_filename g.name with
  | none =>
    simp only [organizeStep, hp]
    exact List.mem_append_right _ (List.mem_singleton.mpr rfl)
  | some d =>
    simp only [organizeStep, hp]
    rw [if_neg]
    · exact List.mem_append_right _ (List.mem_singleton.mpr rfl)
    · intro hc
      exact absurd (hng d hp hc.1) (by omega)

/-! ## Unknown-copy fold lemmas -/

theorem unknownFold_log_mem :
    ∀ (L : List FileEntry) (acc : Store × List (FileEntry × String)) (g : FileEntry)
      (s : String), (g, s) ∈ (L.foldl organizeUnknownStep acc).2 →
      (g, s) ∈ acc.2 ∨ g ∈ L := by
  intro L
  induction L with
  | nil => intro acc g s h; exact Or.inl h
  | cons a t ih =>
    intro acc g s h
    rcases ih (organizeUnknownStep acc a) g s h with h1 | h1
    · rw [organizeUnknownStep] at h1
      rcases List.mem_append.mp h1 with h2 | h2
      · exact Or.inl h2
      · have h3 := List.mem_singleton.mp h2
        have hg : g = a := congrArg Prod.fst h3
        exact Or.inr (by rw [hg]; exact List.mem_cons_self _ _)
    · exact Or.inr (List.mem_cons_of_mem _ h1)

theorem unknownFold_log_mono :
    ∀ (L : List FileEntry) (acc : Store × List (FileEntry × String))
      (x : FileEntry × String), x ∈ acc.2 → x ∈ (L.foldl organizeUnknownStep acc).2 := by
  intro L
  induction L with
  | nil => intro acc x h; exact h
  | cons a t ih =>
    intro acc x h
    refine ih (organizeUnknownStep acc a) x ?_
    rw [organizeUnknownStep]
    exact List.mem_append_left _ h

theorem unknownFold_log_complete {L : List FileEntry}
    {acc : Store × List (FileEntry × String)} {g : FileEntry} (hg : g ∈ L) :
    ∃ s, (g, s) ∈ (L.foldl organizeUnknownStep acc).2 := by
  obtain ⟨l₁, l₂, hL⟩ := List.append_of_mem hg
  subst hL
  rw [List.foldl_append, List.foldl_cons]
  refine ⟨resolveName
    (namesIn (((l₁.foldl organizeUnknownStep acc).1.mkdirP "Unknown").filesOf "Unknown"))
    g.name, ?_⟩
  apply unknownFold_log_mono
  rw [organizeUnknownStep]
  exact List.mem_append_right _ (List.mem_singleton.mpr rfl)

/-- C9: a source file whose name already sits in `output/Unknown` is dropped
from the processed list before extraction, so the classify pass records no
placement at all for it: it enters neither the Minor log nor the Unknown
log. -/
theorem C9_preexisting_unknown_names_skipped (st : Store) (src : List FileEntry)
    (f : FileEntry) (hf : f.name ∈ namesIn (st.filesOf "Unknown")) :
    f ∉ organizeProcessed st src ∧
    (∀ s, (f, s) ∉ (organize_files st src).minorLog) ∧
    (∀ s, (f, s) ∉ (organize_files st src).unknownLog) := by
  have hproc : f ∉ organizeProcessed st src := by
    intro h
    rw [organizeProcessed] at h
    have h2 := (List.perm_insertionSort (fun a b : FileEntry => a.name ≤ b.name) _).mem_iff.mp h
    have h3 := of_decide_eq_true (List.mem_filter.mp h2).2
    exact h3.2 hf
  refine ⟨hproc, ?_, ?_⟩
  · intro s h
    rw [organize_files_minorLog] at h
    rcases organizeFold_minorLog_mem _ _ _ _ h with h1 | ⟨h1, _⟩
    · exact absurd h1 (List.not_mem_nil _)
    · exact hproc h1
  · intro s h
    rw [organize_files_unknownLog] at h
    rcases unknownFold_log_mem _ _ _ _ h with h1 | h1
    · exact absurd h1 (List.not_mem_nil _)
    · rcases organizeFold_pending_mem _ _ _ h1 with h2 | h2
      · exact absurd h2 (List.not_mem_nil _)
      · exact hproc h2

theorem C9_witness :
    (⟨"a.jpg", 7⟩ : FileEntry).name ∈
      namesIn ((⟨[("Unknown", [⟨"a.jpg", 0⟩])]⟩ : Store).filesOf "Unknown") ∧
    ((⟨"a.jpg", 7⟩ : FileEntry) ∉
      organizeProcessed ⟨[("Unknown", [⟨"a.jpg", 0⟩])]⟩ [⟨"a.jpg", 7⟩] ∧
    (∀ s, ((⟨"a.jpg", 7⟩ : FileEntry), s) ∉
      (organize_files ⟨[("Unknown", [⟨"a.jpg", 0⟩])]⟩ [⟨"a.jpg", 7⟩]).minorLog) ∧
    (∀ s, ((⟨"a.jpg", 7⟩ : FileEntry), s) ∉
      (organize_files ⟨[("Unknown", [⟨"a.jpg", 0⟩])]⟩ [⟨"a.jpg", 7⟩]).unknownLog)) :=
  ⟨by decide, C9_preexisting_unknown_names_skipped _ _ _ (by decide)⟩

/-! ## Reconciliation frame lemmas -/

theorem step2One_keeps_unparseable {acc : Store × Nat} {d : String} {f : FileEntry}
    (item : String × FileEntry × Option String)
    (hparse : extract_minor_from_filename f.name = none)
    (hf : f ∈ acc.1.filesOf d) : f ∈ (step2One acc item).1.filesOf d := by
  obtain ⟨src, e, k⟩ := item
  by_cases hef : e = f
  · subst hef
    have hv : verify_file_location e.name k = none := by
      simp only [verify_file_location, hparse]
    simp only [step2One, hparse, hv]
    exact hf
  · have hkeep : ∀ dst, f ∈ ((acc.1.moveEntry src dst e).1).filesOf d :=
      fun dst => mem_moveEntry_intro hf (fun _ hc => hef hc.symm)
    cases hp : extract_minor_from_filename e.name with
    | none =>
      simp only [step2One, hp]
      cases hv : verify_file_location e.name k with
      | none => simp only [hv]; exact hf
      | some c =>
        simp only [hv]
        by_cases hmem : e ∈ acc.1.filesOf src
        · rw [if_pos hmem]; exact hkeep _
        · rw [if_neg hmem]; exact hf
    | some dd =>
      simp only [step2One, hp]
      by_cases h5 : dd ≠ "" ∧ 5 ≤ dd.length
      · rw [if_pos h5]
        by_cases hmem : e ∈ acc.1.filesOf src
        · rw [if_pos hmem]; exact hkeep _
        · rw [if_neg hmem]; exact hf
      · rw [if_neg h5]
        cases hv : verify_file_location e.name k with
        | none => simp only [hv]; exact hf
        | some c =>
          simp only [hv]
          by_cases hmem : e ∈ acc.1.filesOf src
          · rw [if_pos hmem]; exact hkeep _
          · rw [if_neg hmem]; exact hf

theorem step3One_keeps_other {oracle : Nat → Option String} {acc : Store × Nat}
    {d : String} {f : FileEntry} (g : FileEntry) (hd : d ≠ "Unknown")
    (hf : f ∈ acc.1.filesOf d) : f ∈ (step3One oracle acc g).1.filesOf d := by
  have hkeep : ∀ dst, f ∈ ((acc.1.moveEntry "Unknown" dst g).1).filesOf d :=
    fun dst => mem_moveEntry_intro hf (fun hc _ => absurd hc hd)
  cases hx : stepExtract oracle g with
  | none => simp only [step3One, hx]; exact hf
  | some v =>
    simp only [step3One, hx]
    cases hi : pyInt? v with
    | none => simp only [hi]; exact hf
    | some n =>
      simp only [hi]
      by_cases hmem : g ∈ acc.1.filesOf "Unknown"
      · rw [if_pos hmem]; exact hkeep _
      · rw [if_neg hmem]; exact hf

/-- C10: the verification scan and OCR retry never move a file whose name
the filename parser cannot parse: such a file, sitting in any non-Unknown
folder, is still there after a full reconciliation run. -/
theorem C10_unparseable_files_stay (oracle : Nat → Option String) (st : Store)
    (d : String) (f : FileEntry) (hd : d ≠ "Unknown")
    (hparse : extract_minor_from_filename f.name = none)
    (hf : f ∈ st.filesOf d) :
    f ∈ (recheck_unknown_files oracle st).store.filesOf d := by
  simp only [recheck_unknown_files]
  by_cases h0 : st.totalImageFiles = 0
  · rw [if_pos h0]
    exact hf
  · rw [if_neg h0]
    have h2 : f ∈ ((scanSnapshot st).foldl step2One (st, 0)).1.filesOf d :=
      @foldl_inv (String × FileEntry × Option String) (Store × Nat)
        (fun acc => f ∈ acc.1.filesOf d) step2One (scanSnapshot st) (st, 0) hf
        (fun b a _ hb => step2One_keeps_unparseable a hparse hb)
    by_cases hu : ¬ ((scanSnapshot st).foldl step2One (st, 0)).1.hasDir "Unknown"
    · rw [if_pos hu]
      exact h2
    · rw [if_neg hu]
      exact @foldl_inv FileEntry (Store × Nat) (fun acc => f ∈ acc.1.filesOf d)
        (step3One oracle) _ _ h2 (fun b a _ hb => step3One_keeps_other a hd hb)

theorem C10_witness :
    ("Minor_0001" : String) ≠ "Unknown" ∧
    extract_minor_from_filename "scan.jpg" = none ∧
    (⟨"scan.jpg", 3⟩ : FileEntry) ∈
      (⟨[("Minor_0001", [⟨"scan.jpg", 3⟩])]⟩ : Store).filesOf "Minor_0001" ∧
    (⟨"scan.jpg", 3⟩ : FileEntry) ∈
      (recheck_unknown_files (fun _ => none)
        ⟨[("Minor_0001", [⟨"scan.jpg", 3⟩])]⟩).store.filesOf "Minor_0001" :=
  ⟨by decide, by decide, by decide,
    C10_unparseable_files_stay (fun _ => none) _ _ _ (by decide) (by decide) (by decide)⟩

/-- C7 (counterexample): the classify pass places a parsed file into its
Minor folder with `shutil.copy2`, which silently replaces a same-named
file: after classifying a source file whose name already exists in
`Minor_0010`, the folder holds only the incoming copy — no `_dupN` name was
created and the original content (img 1) is gone. -/
theorem C7_counterexample :
    (⟨"설치10251104130.jpg", 1⟩ : FileEntry) ∈ c7Store.filesOf "Minor_0010" ∧
    (organize_files c7Store [⟨"설치10251104130.jpg", 2⟩]).store.filesOf "Minor_0010" =
      [⟨"설치10251104130.jpg", 2⟩] := ⟨by decide, by decide⟩

/-- C7 (amended): collision handling is split.  Every `shutil.move`
destination (all reconciliation moves) and the classify pass's Unknown
placement pick their target name with the `_dupN` loop: the chosen name is
absent from the destination folder and is either the original name or a
`_dupN` variant of it.  The classify pass's Minor placement instead
overwrites: any same-named file of the destination folder is replaced by
the incoming file. -/
theorem C7_amended :
    (∀ (st : Store) (src dst : String) (e : FileEntry),
      (st.moveEntry src dst e).2 ∉ namesIn ((st.mkdirP dst).filesOf dst) ∧
      ((st.moveEntry src dst e).2 = e.name ∨
        ∃ c, 1 ≤ c ∧ (st.moveEntry src dst e).2 = dupNameStr e.name c)) ∧
    (∀ (acc : Store × List (FileEntry × String)) (f : FileEntry),
      ∃ nm, nm ∉ namesIn ((acc.1.mkdirP "Unknown").filesOf "Unknown") ∧
        (organizeUnknownStep acc f).1.filesOf "Unknown" =
          (acc.1.mkdirP "Unknown").filesOf "Unknown" ++ [⟨nm, f.img⟩]) ∧
    (∀ (acc : Store × List (FileEntry × String) × List FileEntry) (f : FileEntry)
      (dd : String), extract_minor_from_filename f.name = some dd → dd ≠ "" →
      dd.length < 5 →
      ∀ e, e ∈ (organizeStep acc f).1.filesOf ("Minor_" ++ format4 (decValL dd.data)) →
        e = f ∨ (e ∈ acc.1.filesOf ("Minor_" ++ format4 (decValL dd.data)) ∧
          e.name ≠ f.name)) := by
  refine ⟨?_, ?_, ?_⟩
  · intro st src dst e
    rw [moveEntry_name]
    obtain ⟨h1, h2, h3⟩ := resolveName_spec (namesIn ((st.mkdirP dst).filesOf dst)) e.name
    refine ⟨h1, ?_⟩
    by_cases hmem : e.name ∈ namesIn ((st.mkdirP dst).filesOf dst)
    · obtain ⟨c, hc1, _, hc3⟩ := h3 hmem
      exact Or.inr ⟨c, hc1, hc3⟩
    · exact Or.inl (h2 hmem)
  · intro acc f
    refine ⟨resolveName (namesIn ((acc.1.mkdirP "Unknown").filesOf "Unknown")) f.name,
      (resolveName_spec _ _).1, ?_⟩
    rw [organizeUnknownStep]
    exact filesOf_addTo_self _ (hasDir_mkdirP_self acc.1 "Unknown")
  · intro acc f dd hp hne h5 e he
    simp only [organizeStep, hp, if_pos (And.intro hne h5)] at he
    rw [filesOf_overwriteTo_self _
      (hasDir_mkdirP_self acc.1 ("Minor_" ++ format4 (decValL dd.data)))] at he
    rcases List.mem_append.mp he with h | h
    · have hm := List.mem_filter.mp h
      have hmem := hm.1
      rw [filesOf_mkdirP] at hmem
      exact Or.inr ⟨hmem, of_decide_eq_true hm.2⟩
    · exact Or.inl (List.mem_singleton.mp h)

theorem C7_amended_witness :
    ((⟨[("D", [⟨"b.jpg", 3⟩])]⟩ : Store).moveEntry "D" "E" ⟨"b.jpg", 3⟩).2 ∉
      namesIn (((⟨[("D", [⟨"b.jpg", 3⟩])]⟩ : Store).mkdirP "E").filesOf "E") ∧
    ((⟨"설치10251104130.jpg", 2⟩ : FileEntry) = ⟨"설치10251104130.jpg", 2⟩ ∨
      ((⟨"설치10251104130.jpg", 2⟩ : FileEntry) ∈
        (c7Store, ([] : List (FileEntry × String)),
          ([] : List FileEntry)).1.filesOf ("Minor_" ++ format4 (decValL "10".data)) ∧
        (⟨"설치10251104130.jpg", 2⟩ : FileEntry).name ≠
          (⟨"설치10251104130.jpg", 2⟩ : FileEntry).name)) :=
  ⟨(C7_amended.1 _ "D" "E" ⟨"b.jpg", 3⟩).1,
   C7_amended.2.2 (c7Store, [], []) ⟨"설치10251104130.jpg", 2⟩ "10" (by decide) (by decide)
     (by decide) ⟨"설치10251104130.jpg", 2⟩ (by decide)⟩

/-! ## A settled store is a fixed point of the reconciliation pass -/

theorem settled_step2 {oracle : Nat → Option String} {st : Store}
    (hS : Settled oracle st) {x : String × FileEntry × Option String}
    (hx : x ∈ scanSnapshot st) : step2One (st, 0) x = (st, 0) := by
  obtain ⟨src, e, k⟩ := x
  obtain ⟨p, hp, h1, h2, h3, h4, h5⟩ := scanSnapshot_mem hx
  have hsettled : settledNonUnknown p.1 e := hS.1 p hp h5 e h2 h3
  cases hpe : extract_minor_from_filename e.name with
  | none =>
    have hv : verify_file_location e.name k = none := by
      simp only [verify_file_location, hpe]
    simp only [step2One, hpe, hv]
  | some dd =>
    by_cases hdd : dd = ""
    · subst hdd
      have hv : verify_file_location e.name k = none := by
        simp only [verify_file_location, hpe]
        rw [if_neg (by simp)]
      simp only [step2One, hpe, hv]
      rw [if_neg (by intro hc; exact hc.1 rfl)]
    · obtain ⟨hlen, hkey⟩ := hsettled dd hpe hdd
      have hv : verify_file_location e.name k = none := by
        simp only [verify_file_location, hpe]
        rw [if_pos hdd, if_neg (by omega), if_neg]
        intro hc
        exact hc (h4.trans hkey)
      simp only [step2One, hpe, hv]
      rw [if_neg (by intro hc; omega)]

theorem settled_step3 {oracle : Nat → Option String} {st : Store}
    (hS : Settled oracle st) {g : FileEntry}
    (hg : g ∈ List.insertionSort (fun a b => a.name ≤ b.name)
      ((st.filesOf "Unknown").filter (fun f => isImageName f.name))) :
    step3One oracle (st, 0) g = (st, 0) := by
  have hg2 := (List.perm_insertionSort (fun a b : FileEntry => a.name ≤ b.name) _).mem_iff.mp hg
  have hg3 := List.mem_filter.mp hg2
  have hstuck : unknownStuck oracle g := hS.2 g hg3.1 hg3.2
  cases hx : stepExtract oracle g with
  | none => simp only [step3One, hx]
  | some v =>
    have hi : pyInt? v = none := hstuck v hx
    simp only [step3One, hx, hi]

theorem settled_recheck_eq {oracle : Nat → Option String} {st : Store}
    (hS : Settled oracle st) : recheck_unknown_files oracle st = ⟨st, 0, 0⟩ := by
  simp only [recheck_unknown_files]
  by_cases h0 : st.totalImageFiles = 0
  · rw [if_pos h0]
  · rw [if_neg h0]
    have h2 : (scanSnapshot st).foldl step2One (st, 0) = (st, 0) :=
      foldl_fixed _ _ (fun x hx => settled_step2 hS hx)
    rw [h2]
    by_cases hu : ¬ (st.hasDir "Unknown")
    · rw [if_pos hu]
    · rw [if_neg hu]
      have h3 : (List.insertionSort (fun a b => a.name ≤ b.name)
          ((st.filesOf "Unknown").filter (fun f => isImageName f.name))).foldl
          (step3One oracle) (st, 0) = (st, 0) :=
        foldl_fixed _ _ (fun g hg => settled_step3 hS hg)
      rw [h3]

/-! ## Properties of a moved (possibly `_dupN`-renamed) entry -/

theorem moveEntry_name_shape (st : Store) (src dst : String) (e : FileEntry) :
    (st.moveEntry src dst e).2 = e.name ∨
    ∃ c, 1 ≤ c ∧ c ≤ st.totalFiles + 1 ∧
      (st.moveEntry src dst e).2 = dupNameStr e.name c := by
  rw [moveEntry_name]
  obtain ⟨_, h2, h3⟩ := resolveName_spec (namesIn ((st.mkdirP dst).filesOf dst)) e.name
  by_cases hmem : e.name ∈ namesIn ((st.mkdirP dst).filesOf dst)
  · obtain ⟨c, hc1, hc2, hc3⟩ := h3 hmem
    refine Or.inr ⟨c, hc1, ?_, hc3⟩
    have hlen : (namesIn ((st.mkdirP dst).filesOf dst)).length ≤ st.totalFiles := by
      rw [namesIn, List.length_map]
      have := filesOf_length_le (st.mkdirP dst) dst
      rwa [totalFiles_mkdirP] at this
    omega
  · exact Or.inl (h2 hmem)

theorem entryOK_moved {oracle : Nat → Option String} {e : FileEntry} {nm : String}
    (hE : entryOK oracle e)
    (hshape : nm = e.name ∨ ∃ c, 1 ≤ c ∧ c ≤ 99999 ∧ nm = dupNameStr e.name c)
    (himg : isImageName e.name = true) :
    entryOK oracle (⟨nm, e.img⟩ : FileEntry) := by
  rcases hshape with h | ⟨c, _, hc2, hc3⟩
  · subst h
    intro v hv
    exact hE v hv
  · subst hc3
    intro v hv
    rw [show (⟨dupNameStr e.name c, e.img⟩ : FileEntry).name = dupNameStr e.name c from rfl,
      parse_dupName_none himg hc2] at hv
    exact absurd hv (by simp)

theorem settled_moved_short {dd : String} {e : FileEntry} {nm : String}
    (hp : extract_minor_from_filename e.name = some dd) (hdd : dd ≠ "")
    (hlen : dd.length < 5)
    (hshape : nm = e.name ∨ ∃ c, 1 ≤ c ∧ c ≤ 99999 ∧ nm = dupNameStr e.name c)
    (himg : isImageName e.name = true) :
    settledNonUnknown ("Minor_" ++ format4 (decValL dd.data)) (⟨nm, e.img⟩ : FileEntry) := by
  rcases hshape with h | ⟨c, _, hc2, hc3⟩
  · subst h
    intro v hv hvne
    have hveq : v = dd := by
      rw [show (⟨e.name, e.img⟩ : FileEntry).name = e.name from rfl, hp] at hv
      exact (Option.some_inj.mp hv).symm
    subst hveq
    exact ⟨hlen, currentMinorOf_minor (format4_digits _)⟩
  · subst hc3
    intro v hv
    rw [show (⟨dupNameStr e.name c, e.img⟩ : FileEntry).name = dupNameStr e.name c from rfl,
      parse_dupName_none himg hc2] at hv
    exact absurd hv (by simp)

theorem settled_moved_untruthy {e : FileEntry} {nm : String} (d : String)
    (hp : extract_minor_from_filename e.name = none ∨
      extract_minor_from_filename e.name = some "")
    (hshape : nm = e.name ∨ ∃ c, 1 ≤ c ∧ c ≤ 99999 ∧ nm = dupNameStr e.name c)
    (himg : isImageName e.name = true) :
    settledNonUnknown d (⟨nm, e.img⟩ : FileEntry) := by
  rcases hshape with h | ⟨c, _, hc2, hc3⟩
  · subst h
    intro v hv hvne
    rcases hp with h1 | h1
    · rw [show (⟨e.name, e.img⟩ : FileEntry).name = e.name from rfl, h1] at hv
      exact absurd hv (by simp)
    · rw [show (⟨e.name, e.img⟩ : FileEntry).name = e.name from rfl, h1] at hv
      exact absurd (Option.some_inj.mp hv).symm hvne
  · subst hc3
    intro v hv
    rw [show (⟨dupNameStr e.name c, e.img⟩ : FileEntry).name = dupNameStr e.name c from rfl,
      parse_dupName_none himg hc2] at hv
    exact absurd hv (by simp)

/-! ## The verification-scan fold preserves its invariant -/

theorem scanInv_step {oracle : Nat → Option String} {t0 : Nat} (ht0 : t0 ≤ 99998)
    {acc : Store × Nat} {x : String × FileEntry × Option String}
    {rem : List (String × FileEntry × Option String)}
    (hI : ScanInv oracle t0 acc (x :: rem)) :
    ScanInv oracle t0 (step2One acc x) rem := by
  obtain ⟨src, e, k⟩ := x
  obtain ⟨hW, hT, hC, hP, hPW, hE⟩ := hI
  obtain ⟨hsrc, hk, himg, hpres⟩ := hP (src, e, k) (List.mem_cons_self _ _)
  have hPrem : ∀ it ∈ rem, it.1 ≠ "Unknown" ∧ it.2.2 = currentMinorOf it.1 ∧
      isImageName it.2.1.name = true ∧ it.2.1 ∈ acc.1.filesOf it.1 :=
    fun it hit => hP it (List.mem_cons_of_mem _ hit)
  have hPWrem := hPW.of_cons
  have hHead : ∀ it ∈ rem, src ≠ it.1 ∨ e.name ≠ it.2.1.name :=
    (List.pairwise_cons.mp hPW).1
  have hEok : entryOK oracle e := by
    obtain ⟨p, hp, _, hfp⟩ := exists_dir_of_mem_filesOf hpres
    exact hC p hp e hfp
  have hshape : ∀ dst, (acc.1.moveEntry src dst e).2 = e.name ∨
      ∃ c, 1 ≤ c ∧ c ≤ 99999 ∧ (acc.1.moveEntry src dst e).2 = dupNameStr e.name c := by
    intro dst
    rcases moveEntry_name_shape acc.1 src dst e with h | ⟨c, h1, h2, h3⟩
    · exact Or.inl h
    · exact Or.inr ⟨c, h1, by omega, h3⟩
  have hOKnew : ∀ dst, entryOK oracle ⟨(acc.1.moveEntry src dst e).2, e.img⟩ :=
    fun dst => entryOK_moved hEok (hshape dst) himg
  have hmove : ∀ dst : String,
      (dst ≠ "Unknown" →
        settledNonUnknown dst ⟨(acc.1.moveEntry src dst e).2, e.img⟩) →
      ScanInv oracle t0 ((acc.1.moveEntry src dst e).1, acc.2 + 1) rem := by
    intro dst hSnew
    refine ⟨WF_moveEntry hW src dst e, ?_, ?_, ?_, hPWrem, ?_⟩
    · rw [show ((acc.1.moveEntry src dst e).1, acc.2 + 1).1 =
        (acc.1.moveEntry src dst e).1 from rfl]
      rw [totalFiles_moveEntry hW hpres dst]
      exact hT
    · intro p hp f hf
      rcases mem_entry_elim_moveEntry hp hf with ⟨_, hfeq⟩ | ⟨q, hq, _, hfq⟩
      · rw [hfeq]
        exact hOKnew dst
      · exact hC q hq f hfq
    · intro it hit
      obtain ⟨ha, hb, hc, hd⟩ := hPrem it hit
      refine ⟨ha, hb, hc, ?_⟩
      refine mem_moveEntry_intro hd ?_
      intro hds hfe
      rcases hHead it hit with hne | hne
      · exact hne (by rw [hds])
      · exact hne (by rw [hfe])
    · intro p hp hpne f hf hfimg
      rcases mem_entry_elim_moveEntry hp hf with ⟨hpd, hfeq⟩ | ⟨q, hq, hq1, hfq⟩
      · left
        rw [hfeq, hpd]
        exact hSnew (by rw [← hpd]; exact hpne)
      · rcases hE q hq (by rw [hq1]; exact hpne) f hfq hfimg with hs | hpend
        · left
          rw [← hq1]
          exact hs
        · rcases List.mem_cons.mp hpend with heq | hmem
          · exfalso
            have hq1src : q.1 = src := congrArg Prod.fst heq
            have hfe : f = e := congrArg (fun y => y.2.1) heq
            have hWm := WF_moveEntry hW src dst e
            have hfin : f ∈ (acc.1.moveEntry src dst e).1.filesOf p.1 := by
              rw [filesOf_of_mem hWm.1 hp]
              exact hf
            rw [hq1src] at hq1
            rw [← hq1, hfe] at hfin
            exact moveEntry_gone hW hpres hfin
          · right
            rw [← hq1]
            exact hmem
  have hnomove : settledNonUnknown src e → ScanInv oracle t0 acc rem := by
    intro hsettled
    refine ⟨hW, hT, hC, hPrem, hPWrem, ?_⟩
    intro p hp hpne f hf hfimg
    rcases hE p hp hpne f hf hfimg with hs | hpend
    · exact Or.inl hs
    · rcases List.mem_cons.mp hpend with heq | hmem
      · left
        have hp1src : p.1 = src := congrArg Prod.fst heq
        have hfe : f = e := congrArg (fun y => y.2.1) heq
        rw [hp1src, hfe]
        exact hsettled
      · exact Or.inr hmem
  cases hpe : extract_minor_from_filename e.name with
  | none =>
    have hv : verify_file_location e.name k = none := by
      simp only [verify_file_location, hpe]
    have hres : step2One acc (src, e, k) = acc := by
      simp only [step2One, hpe, hv]
    rw [hres]
    refine hnomove ?_
    intro v hv2
    rw [hpe] at hv2
    exact absurd hv2 (by simp)
  | some dd =>
    by_cases hdd : dd = ""
    · subst hdd
      have hv : verify_file_location e.name k = none := by
        simp only [verify_file_location, hpe]
        rw [if_neg (by simp)]
      have hres : step2One acc (src, e, k) = acc := by
        simp only [step2One, hpe, hv]
        rw [if_neg (by intro hc; exact hc.1 rfl)]
      rw [hres]
      refine hnomove ?_
      intro v hv2 hvne
      rw [hpe] at hv2
      exact absurd (Option.some_inj.mp hv2).symm hvne
    · by_cases h5 : 5 ≤ dd.length
      · have hres : step2One acc (src, e, k) =
            ((acc.1.moveEntry src "Unknown" e).1, acc.2 + 1) := by
          simp only [step2One, hpe]
          rw [if_pos ⟨hdd, h5⟩, if_pos hpres]
        rw [hres]
        exact hmove "Unknown" (fun hc => absurd rfl hc)
      · by_cases hkexp : k = some (format4 (decValL dd.data))
        · have hv : verify_file_location e.name k = none := by
            simp only [verify_file_location, hpe]
            rw [if_pos hdd, if_neg h5, if_neg (by intro hc; exact hc hkexp)]
          have hres : step2One acc (src, e, k) = acc := by
            simp only [step2One, hpe, hv]
            rw [if_neg (by intro hc; exact h5 hc.2)]
          rw [hres]
          refine hnomove ?_
          intro v hv2 hvne
          have hveq : v = dd := by
            rw [hpe] at hv2
            exact (Option.some_inj.mp hv2).symm
          subst hveq
          refine ⟨by omega, ?_⟩
          rw [← hk]
          exact hkexp
        · have hv : verify_file_location e.name k =
              some (format4 (decValL dd.data)) := by
            simp only [verify_file_location, hpe]
            rw [if_pos hdd, if_neg h5, if_pos hkexp]
          have hres : step2One acc (src, e, k) =
              ((acc.1.moveEntry src ("Minor_" ++ format4 (decValL dd.data)) e).1,
                acc.2 + 1) := by
            simp only [step2One, hpe, hv]
            rw [if_neg (by intro hc; exact h5 hc.2), if_pos hpres]
          rw [hres]
          refine hmove _ ?_
          intro _
          exact settled_moved_short hpe hdd (by omega) (hshape _) himg

theorem scanInv_fold {oracle : Nat → Option String} {t0 : Nat} (ht0 : t0 ≤ 99998) :
    ∀ (L : List (String × FileEntry × Option String)) (acc : Store × Nat),
      ScanInv oracle t0 acc L → ScanInv oracle t0 (L.foldl step2One acc) [] := by
  intro L
  induction L with
  | nil => intro acc h; exact h
  | cons a t ih => intro acc h; exact ih _ (scanInv_step ht0 h)

theorem scanInv_init {oracle : Nat → Option String} {st : Store} (hW : st.WF)
    (hOC : OracleCompat oracle st) :
    ScanInv oracle st.totalFiles (st, 0) (scanSnapshot st) := by
  refine ⟨hW, rfl, hOC, ?_, scanSnapshot_pairwise hW, ?_⟩
  · intro it hit
    obtain ⟨p, hp, h1, h2, h3, h4, h5⟩ := scanSnapshot_mem hit
    refine ⟨by rw [h1]; exact h5, by rw [h4, h1], h3, ?_⟩
    rw [show ((st, 0) : Store × Nat).1 = st from rfl, h1, filesOf_of_mem hW.1 hp]
    exact h2
  · intro p hp hpne f hf hfi
    exact Or.inr (scanSnapshot_complete hp hpne hf hfi)

/-! ## The OCR-retry fold preserves its invariant -/

theorem retryInv_step {oracle : Nat → Option String} {t0 : Nat} (ht0 : t0 ≤ 99998)
    {acc : Store × Nat} {g : FileEntry} {rem : List FileEntry}
    (hI : RetryInv oracle t0 acc (g :: rem)) :
    RetryInv oracle t0 (step3One oracle acc g) rem := by
  obtain ⟨hW, hT, hC, hP, hPW, hS, hU⟩ := hI
  obtain ⟨himgg, hpres⟩ := hP g (List.mem_cons_self _ _)
  have hPrem : ∀ f ∈ rem, isImageName f.name = true ∧ f ∈ acc.1.filesOf "Unknown" :=
    fun f hf => hP f (List.mem_cons_of_mem _ hf)
  have hPWrem := hPW.of_cons
  have hHead : ∀ f ∈ rem, g.name ≠ f.name := (List.pairwise_cons.mp hPW).1
  have hnomoveU : (unknownStuck oracle g) → RetryInv oracle t0 acc rem := by
    intro hstuck
    refine ⟨hW, hT, hC, hPrem, hPWrem, hS, ?_⟩
    intro f hf hfi
    rcases hU f hf hfi with h | h
    · exact Or.inl h
    · rcases List.mem_cons.mp h with heq | hmem
      · exact Or.inl (heq ▸ hstuck)
      · exact Or.inr hmem
  cases hx : stepExtract oracle g with
  | none =>
    have hres : step3One oracle acc g = acc := by simp only [step3One, hx]
    rw [hres]
    refine hnomoveU ?_
    intro v hv
    rw [hx] at hv
    exact absurd hv (by simp)
  | some v =>
    cases hi : pyInt? v with
    | none =>
      have hres : step3One oracle acc g = acc := by simp only [step3One, hx, hi]
      rw [hres]
      refine hnomoveU ?_
      intro v' hv'
      rw [hx] at hv'
      rw [(Option.some_inj.mp hv').symm]
      exact hi
    | some n =>
      have hres : step3One oracle acc g =
          ((acc.1.moveEntry "Unknown" ("Minor_" ++ format4 n) g).1, acc.2 + 1) := by
        simp only [step3One, hx, hi]
        rw [if_pos hpres]
      rw [hres]
      have hEokg : entryOK oracle g := by
        obtain ⟨p, hp, _, hfp⟩ := exists_dir_of_mem_filesOf hpres
        exact hC p hp g hfp
      have hshape : ∀ dst, (acc.1.moveEntry "Unknown" dst g).2 = g.name ∨
          ∃ c, 1 ≤ c ∧ c ≤ 99999 ∧
            (acc.1.moveEntry "Unknown" dst g).2 = dupNameStr g.name c := by
        intro dst
        rcases moveEntry_name_shape acc.1 "Unknown" dst g with h | ⟨c, h1, h2, h3⟩
        · exact Or.inl h
        · exact Or.inr ⟨c, h1, by omega, h3⟩
      have hsettledNew : settledNonUnknown ("Minor_" ++ format4 n)
          ⟨(acc.1.moveEntry "Unknown" ("Minor_" ++ format4 n) g).2, g.img⟩ := by
        cases hpg : extract_minor_from_filename g.name with
        | none => exact settled_moved_untruthy _ (Or.inl hpg) (hshape _) himgg
        | some dd =>
          by_cases hdd : dd = ""
          · subst hdd
            exact settled_moved_untruthy _ (Or.inr hpg) (hshape _) himgg
          · by_cases h5 : 5 ≤ dd.length
            · exfalso
              simp only [stepExtract, hpg] at hx
              rw [if_pos hdd, if_pos h5] at hx
              rw [hEokg dd hpg hdd h5] at hx
              exact absurd hx (by simp)
            · have hveq : v = format4 (decValL dd.data) := by
                simp only [stepExtract, hpg] at hx
                rw [if_pos hdd, if_neg h5] at hx
                exact (Option.some_inj.mp hx).symm
              subst hveq
              have hn : n = decValL dd.data := by
                rw [pyInt?_format4] at hi
                exact (Option.some_inj.mp hi).symm
              rw [hn]
              exact settled_moved_short hpg hdd (by omega) (hshape _) himgg
      refine ⟨WF_moveEntry hW "Unknown" ("Minor_" ++ format4 n) g, ?_, ?_, ?_,
        hPWrem, ?_, ?_⟩
      · rw [show (((acc.1.moveEntry "Unknown" ("Minor_" ++ format4 n) g).1,
          acc.2 + 1) : Store × Nat).1 =
          (acc.1.moveEntry "Unknown" ("Minor_" ++ format4 n) g).1 from rfl]
        rw [totalFiles_moveEntry hW hpres ("Minor_" ++ format4 n)]
        exact hT
      · intro p hp f hf
        rcases mem_entry_elim_moveEntry hp hf with ⟨_, hfeq⟩ | ⟨q, hq, _, hfq⟩
        · rw [hfeq]
          exact entryOK_moved hEokg (hshape _) himgg
        · exact hC q hq f hfq
      · intro f hf
        obtain ⟨hfi, hfm⟩ := hPrem f hf
        refine ⟨hfi, mem_moveEntry_intro hfm ?_⟩
        intro _ hfe
        exact hHead f hf (by rw [hfe])
      · intro p hp hpne f hf hfi
        rcases mem_entry_elim_moveEntry hp hf with ⟨hpd, hfeq⟩ | ⟨q, hq, hq1, hfq⟩
        · rw [hfeq, hpd]
          exact hsettledNew
        · have := hS q hq (by rw [hq1]; exact hpne) f hfq hfi
          rw [← hq1]
          exact this
      · intro f hf hfi
        rcases mem_moveEntry_elim hf with ⟨habs, _⟩ | hfm
        · exact absurd habs.symm (minor_ne_unknown (format4 n))
        · rcases hU f hfm hfi with h | h
          · exact Or.inl h
          · rcases List.mem_cons.mp h with heq | hmem
            · exfalso
              rw [heq] at hf
              exact moveEntry_gone hW hpres hf
            · exact Or.inr hmem

theorem retryInv_fold {oracle : Nat → Option String} {t0 : Nat} (ht0 : t0 ≤ 99998) :
    ∀ (L : List FileEntry) (acc : Store × Nat),
      RetryInv oracle t0 acc L → RetryInv oracle t0 (L.foldl (step3One oracle) acc) [] := by
  intro L
  induction L with
  | nil => intro acc h; exact h
  | cons a t ih => intro acc h; exact ih _ (retryInv_step ht0 h)

/-! ## A reconciliation run produces a settled store -/

theorem no_images_of_zero {st : Store} (h : st.totalImageFiles = 0) :
    ∀ p ∈ st.dirs, ∀ f ∈ p.2, isImageName f.name = false := by
  intro p hp f hf
  rw [Store.totalImageFiles] at h
  have hterm : (p.2.filter (fun f => isImageName f.name)).length = 0 := by
    have hmem : (p.2.filter (fun f => isImageName f.name)).length ∈
        st.dirs.map (fun p => (p.2.filter (fun f => isImageName f.name)).length) :=
      List.mem_map.mpr ⟨p, hp, rfl⟩
    exact List.sum_eq_zero_iff.mp h _ hmem
  rw [List.length_eq_zero] at hterm
  by_contra hcon
  rw [Bool.not_eq_false] at hcon
  have : f ∈ p.2.filter (fun f => isImageName f.name) := List.mem_filter.mpr ⟨hf, hcon⟩
  rw [hterm] at this
  exact absurd this (List.not_mem_nil f)

theorem settled_of_no_images {oracle : Nat → Option String} {st : Store}
    (h : st.totalImageFiles = 0) : Settled oracle st := by
  constructor
  · intro p hp _ f hf hfi
    rw [no_images_of_zero h p hp f hf] at hfi
    exact absurd hfi (by simp)
  · intro f hf hfi
    obtain ⟨p, hp, _, hfp⟩ := exists_dir_of_mem_filesOf hf
    rw [no_images_of_zero h p hp f hfp] at hfi
    exact absurd hfi (by simp)

theorem retryInv_init {oracle : Nat → Option String} {t0 : Nat} {R : Store}
    (hW : R.WF) (hT : R.totalFiles = t0)
    (hC : ∀ p ∈ R.dirs, ∀ f ∈ p.2, entryOK oracle f)
    (hS : ∀ p ∈ R.dirs, p.1 ≠ "Unknown" → ∀ f ∈ p.2, isImageName f.name = true →
      settledNonUnknown p.1 f) :
    RetryInv oracle t0 (R, 0)
      (List.insertionSort (fun a b => a.name ≤ b.name)
        ((R.filesOf "Unknown").filter (fun f => isImageName f.name))) := by
  have hperm := List.perm_insertionSort (fun a b : FileEntry => a.name ≤ b.name)
    ((R.filesOf "Unknown").filter (fun f => isImageName f.name))
  refine ⟨hW, hT, hC, ?_, ?_, hS, ?_⟩
  · intro f hf
    have hf2 := List.mem_filter.mp (hperm.mem_iff.mp hf)
    exact ⟨hf2.2, hf2.1⟩
  · have hnames : (R.filesOf "Unknown").Pairwise (fun a b => a.name ≠ b.name) :=
      List.pairwise_map.mp (WF_namesOf hW "Unknown")
    have hfilter := hnames.sublist
      (@List.filter_sublist FileEntry (fun f => isImageName f.name) (R.filesOf "Unknown"))
    exact ((hperm.pairwise_iff (fun hab hc => hab hc.symm)).mpr hfilter)
  · intro f hf hfi
    exact Or.inr (hperm.mem_iff.mpr (List.mem_filter.mpr ⟨hf, hfi⟩))

theorem recheck_settles {oracle : Nat → Option String} {st : Store} (hW : st.WF)
    (hT : st.totalFiles ≤ 99998) (hOC : OracleCompat oracle st) :
    Settled oracle (recheck_unknown_files oracle st).store := by
  simp only [recheck_unknown_files]
  by_cases h0 : st.totalImageFiles = 0
  · rw [if_pos h0]
    exact settled_of_no_images h0
  · rw [if_neg h0]
    have h2 := scanInv_fold hT _ _ (scanInv_init hW hOC)
    obtain ⟨hW2, hT2, hC2, _, _, hE2⟩ := h2
    have hS2 : ∀ p ∈ ((scanSnapshot st).foldl step2One (st, 0)).1.dirs,
        p.1 ≠ "Unknown" → ∀ f ∈ p.2, isImageName f.name = true →
          settledNonUnknown p.1 f := by
      intro p hp hpne f hf hfi
      rcases hE2 p hp hpne f hf hfi with hs | habs
      · exact hs
      · exact absurd habs (List.not_mem_nil _)
    by_cases hu : ¬ (((scanSnapshot st).foldl step2One (st, 0)).1.hasDir "Unknown" = true)
    · rw [if_pos hu]
      constructor
      · exact hS2
      · intro f hf
        rw [filesOf_not_hasDir hu] at hf
        exact absurd hf (List.not_mem_nil f)
    · rw [if_neg hu]
      have h3 := retryInv_fold hT _ _ (retryInv_init hW2 hT2 hC2 hS2)
      obtain ⟨_, _, _, _, _, hS3, hU3⟩ := h3
      constructor
      · exact hS3
      · intro f hf hfi
        rcases hU3 f hf hfi with h | h
        · exact h
        · exact absurd h (List.not_mem_nil f)

/-- C2 (counterexample): reconciliation is not idempotent.  `pingStore`
holds one photo in `Minor_0007` whose filename parses to the 5-digit
rule-violating candidate "12345" and whose content OCRs to "0007".  Every
run first expels the file to Unknown (a filename-scan move) and then the
OCR retry puts it back into `Minor_0007` (an OCR move): the second run
still performs one move of each kind instead of zero. -/
theorem C2_counterexample :
    (recheck_unknown_files pingOracle
      ((recheck_unknown_files pingOracle pingStore).store)).movedByFilename = 1 ∧
    (recheck_unknown_files pingOracle
      ((recheck_unknown_files pingOracle pingStore).store)).movedByOcr = 1 :=
  ⟨by decide, by decide⟩

/-- C2 (amended): on a well-formed store that is not pathologically large
(at most 99998 files, so `_dupN` names stay short enough to be unparseable)
and whose OCR oracle never succeeds on an image whose filename parses to a
truthy candidate of 5 or more digits, a second reconciliation run with the
same oracle is a no-op: it returns the first run's store unchanged and
reports zero moves of either kind.  (The counterexample shows the
OCR-compatibility hypothesis is necessary.) -/
theorem C2_amended (oracle : Nat → Option String) (st : Store)
    (hW : st.WF) (hT : st.totalFiles ≤ 99998) (hOC : OracleCompat oracle st) :
    recheck_unknown_files oracle ((recheck_unknown_files oracle st).store) =
      ⟨(recheck_unknown_files oracle st).store, 0, 0⟩ :=
  settled_recheck_eq (recheck_settles hW hT hOC)

theorem C2_amended_witness :
    (⟨[("Minor_0001", [⟨"a.jpg", 0⟩])]⟩ : Store).WF ∧
    (⟨[("Minor_0001", [⟨"a.jpg", 0⟩])]⟩ : Store).totalFiles ≤ 99998 ∧
    OracleCompat (fun _ => none) ⟨[("Minor_0001", [⟨"a.jpg", 0⟩])]⟩ ∧
    recheck_unknown_files (fun _ => none)
        ((recheck_unknown_files (fun _ => none)
          ⟨[("Minor_0001", [⟨"a.jpg", 0⟩])]⟩).store) =
      ⟨(recheck_unknown_files (fun _ => none)
          ⟨[("Minor_0001", [⟨"a.jpg", 0⟩])]⟩).store, 0, 0⟩ :=
  ⟨⟨by decide, by decide⟩, by decide, fun p _ f _ c _ _ _ => rfl,
    C2_amended (fun _ => none) ⟨[("Minor_0001", [⟨"a.jpg", 0⟩])]⟩
      ⟨by decide, by decide⟩ (by decide) (fun p _ f _ c _ _ _ => rfl)⟩

/-- C3: a truthy filename-parser candidate of 5 or more digits is never
accepted as the identifier.  Both extraction orchestrators fall through to
their OCR cascade for such a name; the classify pass never logs such a
file into a Minor folder and always queues it for Unknown; and after a
full reconciliation run (on a well-formed, bounded store whose OCR oracle
fails on such files — "even when the OCR fallback subsequently fails") no
image file with such a name remains in any non-Unknown folder. -/
theorem C3_rule_violation (nm c : String)
    (hp : extract_minor_from_filename nm = some c) (hc : c ≠ "")
    (hlen : 5 ≤ c.length) :
    (∀ inp : OrganizeOcr, organize_extract nm inp = organizeOcrCascade inp) ∧
    (∀ inp : RecheckOcr, recheck_extract nm inp = recheckOcrCascade inp) ∧
    (∀ (st : Store) (src : List FileEntry) (f : FileEntry), f.name = nm →
      f ∈ organizeProcessed st src →
      (∀ s, (f, s) ∉ (organize_files st src).minorLog) ∧
      ∃ s, (f, s) ∈ (organize_files st src).unknownLog) ∧
    (∀ (oracle : Nat → Option String) (st : Store), st.WF →
      st.totalFiles ≤ 99998 → OracleCompat oracle st →
      ∀ p ∈ (recheck_unknown_files oracle st).store.dirs, p.1 ≠ "Unknown" →
        ∀ f ∈ p.2, f.name = nm → isImageName f.name = true → False) := by
  refine ⟨?_, ?_, ?_, ?_⟩
  · intro inp
    simp only [organize_extract, hp]
    rw [if_pos hc, if_pos hlen]
  · intro inp
    simp only [recheck_extract, hp]
    rw [if_pos hc, if_pos hlen]
  · intro st src f hname hmem
    constructor
    · intro s hlog
      rw [organize_files_minorLog] at hlog
      rcases organizeFold_minorLog_mem _ _ _ _ hlog with h1 | ⟨_, dd, hdd1, _, hdd3, _⟩
      · exact absurd h1 (List.not_mem_nil _)
      · rw [hname, hp] at hdd1
        have : dd = c := Option.some_inj.mp hdd1.symm
        subst this
        omega
    · rw [organize_files_unknownLog]
      refine unknownFold_log_complete (organizeFold_pending_complete hmem ?_)
      intro dd hdd1 _
      rw [hname, hp] at hdd1
      have : dd = c := Option.some_inj.mp hdd1.symm
      subst this
      exact hlen
  · intro oracle st hW hT hOC p hpd hpne f hf hname hfi
    have hsettled := (recheck_settles hW hT hOC).1 p hpd hpne f hf hfi
    obtain ⟨hlt, _⟩ := hsettled c (by rw [hname]; exact hp) hc
    omega

theorem C3_witness :
    extract_minor_from_filename "설치12345251104130.jpg" = some "12345" ∧
    organize_extract "설치12345251104130.jpg" ⟨"", "", "", []⟩ =
      organizeOcrCascade ⟨"", "", "", []⟩ ∧
    recheck_extract "설치12345251104130.jpg" ⟨"", "", []⟩ =
      recheckOcrCascade ⟨"", "", []⟩ :=
  ⟨by decide,
   (C3_rule_violation "설치12345251104130.jpg" "12345" (by decide) (by decide)
     (by decide)).1 ⟨"", "", "", []⟩,
   (C3_rule_violation "설치12345251104130.jpg" "12345" (by decide) (by decide)
     (by decide)).2.1 ⟨"", "", []⟩⟩
